import Mathlib

/-!
# Warehouse robot task scheduler: grid search engine

A shallow embedding of `grid.h` and `pathfinder.h`:

* the grid model (`Point`, `CellType`, `Node`, `Grid`, `isValid`, `isBlocked`, `getNode`);
* the search engine (`resetGridState`, `calculateHeuristic`, `runBFS`, `runDFS`, `runAStar`,
  `getPath`).

Conventions of the embedding.

* The dimensions `ROWS`, `COLS` and the battery ceiling `MAX_BATTERY` are compile-time constants
  of the source (20, 20 and 100).  Every definition takes them as parameters `R`, `C`, `B`, the
  constants being one instance; a statement proved for all `R`, `C`, `B` holds for the source.
  The ceiling is a natural number; coordinates and the cost fields are integers (no run
  leaves the range of `int`).
* A `Node*` is the pair of matrix indices of the node it points to, as a `Point`; a null pointer
  is `none`.  Dereferencing is `getNode`.
* `while` loops are recursive functions on a fuel argument and return `none` when the fuel runs
  out; the fuel passed by the `run...` functions is shown to be enough.
* `std::queue` and `std::stack` are lists whose head is the front / the top.
  `std::priority_queue` is the binary heap of the GNU C++ library kept in a list: `push` is
  `push_back` followed by `std::push_heap`, `pop` is `std::pop_heap` followed by `pop_back`, and
  the comparator reads the `f_cost` the nodes have when it is called.
* The source keeps no record of the cells a run expands or pushes.  `searchTrace` and
  `astarTrace` replay the loops of `searchLoop` and `astarLoop` and collect them; the cells
  logged are shown to be the cells the run marks.
* `runAStarNoReopen` is not in the source: it is the search with the relaxation condition
  `!neighbor.visited` alone, against which `runAStar` is compared.
-/

namespace Warehouse


/-! ## Grid model (`grid.h`) -/

/-- Number of rows of the source grid. -/
def ROWS : Nat := 20

/-- Number of columns of the source grid. -/
def COLS : Nat := 20

/-- Battery ceiling of the source. -/
def MAX_BATTERY : Nat := 100

/-- Static type of a grid cell. -/
inductive CellType where
  | EMPTY
  | OBSTACLE
  | START
  | GOAL
  | CHARGING_STATION
deriving DecidableEq, Repr

/-- Coordinate pair; `x` is the row and `y` the column. -/
structure Point where
  x : Int
  y : Int
deriving DecidableEq, Repr

/-- One grid cell: position, type and the transient search fields. -/
structure Node where
  pos : Point
  type : CellType
  g_cost : Int
  h_cost : Int
  f_cost : Int
  parent : Option Point
  visited : Bool
deriving DecidableEq, Repr

/-- The `R × C` matrix of nodes (`std::vector<std::vector<Node>>` after `resize(ROWS, ...)`). -/
abbrev Grid (R C : Nat) := Fin R → Fin C → Node

/-- Node read when an index is outside the matrix (the source never does so on the inputs
considered; the C++ behaviour is undefined there). -/
def Node.blank : Node := ⟨⟨0, 0⟩, CellType.EMPTY, 0, 0, 0, none, false⟩

/-- Bounds check `Grid::isValid`. -/
def isValid (R C : Nat) (r c : Int) : Bool :=
  decide (r ≥ 0) && decide (r < (R : Int)) && decide (c ≥ 0) && decide (c < (C : Int))

/-- Matrix indices of an in-range coordinate pair. -/
def toIndex (R C : Nat) (r c : Int) : Option (Fin R × Fin C) :=
  if h : r.toNat < R ∧ c.toNat < C then
    if 0 ≤ r ∧ 0 ≤ c then some (⟨r.toNat, h.1⟩, ⟨c.toNat, h.2⟩) else none
  else none

/-- Node access `Grid::getNode`, i.e. `grid[r][c]`. -/
def getNode {R C : Nat} (g : Grid R C) (r c : Int) : Node :=
  match toIndex R C r c with
  | some ij => g ij.1 ij.2
  | none => Node.blank

/-- Write of a whole node through the reference `getNode(r, c)` returns. -/
def setNode {R C : Nat} (g : Grid R C) (r c : Int) (n : Node) : Grid R C :=
  match toIndex R C r c with
  | some ij => fun i j => if i = ij.1 ∧ j = ij.2 then n else g i j
  | none => g

/-- Obstacle check `Grid::isBlocked`: out of range counts as blocked. -/
def isBlocked {R C : Nat} (g : Grid R C) (r c : Int) : Bool :=
  if !isValid R C r c then true
  else decide ((getNode g r c).type = CellType.OBSTACLE)

/-- State of the grid after `Grid::initGrid`: every cell `EMPTY`, positions equal to indices. -/
def initGrid (R C : Nat) : Grid R C :=
  fun i j => ⟨⟨(i.val : Int), (j.val : Int)⟩, CellType.EMPTY, 0, 0, 0, none, false⟩

/-- Setter `Grid::setObstacle`. -/
def setObstacle {R C : Nat} (g : Grid R C) (r c : Int) : Grid R C :=
  if isValid R C r c then setNode g r c { getNode g r c with type := CellType.OBSTACLE } else g

/-- Setter `Grid::setStart`. -/
def setStart {R C : Nat} (g : Grid R C) (p : Point) : Grid R C :=
  setNode g p.x p.y { getNode g p.x p.y with type := CellType.START }

/-- Setter `Grid::setGoal`. -/
def setGoal {R C : Nat} (g : Grid R C) (p : Point) : Grid R C :=
  setNode g p.x p.y { getNode g p.x p.y with type := CellType.GOAL }

/-! ## Search engine (`pathfinder.h`) -/

/-- Row offsets of the four directions up, down, left, right (`dx[4] = {-1, 1, 0, 0}`). -/
def dx (i : Nat) : Int :=
  match i with
  | 0 => -1
  | 1 => 1
  | _ => 0

/-- Column offsets of the four directions (`dy[4] = {0, 0, -1, 1}`). -/
def dy (i : Nat) : Int :=
  match i with
  | 2 => -1
  | 3 => 1
  | _ => 0

/-- Helper `Pathfinder::resetGridState`: clears the transient fields of every cell. -/
def resetGridState {R C : Nat} (g : Grid R C) : Grid R C :=
  fun i j => { g i j with visited := false, parent := none, g_cost := 0, h_cost := 0, f_cost := 0 }

/-- Helper `Pathfinder::calculateHeuristic`: Manhattan distance. -/
def calculateHeuristic (a b : Point) : Int :=
  |a.x - b.x| + |a.y - b.y|

/-- Push on the `std::queue`: at the back. -/
def queuePush (q : List Point) (p : Point) : List Point := q ++ [p]

/-- Push on the `std::stack`: on top. -/
def stackPush (s : List Point) (p : Point) : List Point := p :: s

/-- Body of the neighbour loop of `runBFS` and `runDFS` for direction `i`: `cur` is the pointer
`current`, the state is the grid and the frontier. -/
def visitNeighbor {R C : Nat} (push : List Point → Point → List Point) (cur : Point)
    (st : Grid R C × List Point) (i : Nat) : Grid R C × List Point :=
  let newX := (getNode st.1 cur.x cur.y).pos.x + dx i
  let newY := (getNode st.1 cur.x cur.y).pos.y + dy i
  if isValid R C newX newY && !isBlocked st.1 newX newY then
    if !(getNode st.1 newX newY).visited then
      (setNode st.1 newX newY
          { getNode st.1 newX newY with visited := true, parent := some cur },
        push st.2 ⟨newX, newY⟩)
    else st
  else st

/-- The `while (!frontier.empty())` loop shared by `runBFS` and `runDFS`. -/
def searchLoop {R C : Nat} (push : List Point → Point → List Point) :
    Nat → Point → Grid R C → List Point → Option (Bool × Grid R C)
  | 0, _, _, _ => none
  | _ + 1, _, g, [] => some (false, g)
  | fuel + 1, goalPos, g, cur :: rest =>
    if (getNode g cur.x cur.y).pos = goalPos then some (true, g)
    else
      let st := [0, 1, 2, 3].foldl (visitNeighbor push cur) (g, rest)
      searchLoop push fuel goalPos st.1 st.2

/-- Breadth-first search `Pathfinder::runBFS`: the found flag and the grid it leaves. -/
def runBFS {R C : Nat} (startPos goalPos : Point) (g : Grid R C) : Option (Bool × Grid R C) :=
  let g0 := resetGridState g
  let g1 := setNode g0 startPos.x startPos.y
    { getNode g0 startPos.x startPos.y with visited := true }
  searchLoop queuePush (R * C + 1) goalPos g1 [startPos]

/-- Depth-first search `Pathfinder::runDFS`: the found flag and the grid it leaves. -/
def runDFS {R C : Nat} (startPos goalPos : Point) (g : Grid R C) : Option (Bool × Grid R C) :=
  let g0 := resetGridState g
  let g1 := setNode g0 startPos.x startPos.y
    { getNode g0 startPos.x startPos.y with visited := true }
  searchLoop stackPush (R * C + 1) goalPos g1 [startPos]

/-! ### The open set of `runAStar` -/

/-- Comparator of the open set: `cmp(left, right) = left->f_cost > right->f_cost`. -/
def cmp {R C : Nat} (g : Grid R C) (left right : Point) : Bool :=
  decide ((getNode g left.x left.y).f_cost > (getNode g right.x right.y).f_cost)

/-- Exchange of the entries at indices `i` and `j` of the heap array. -/
def swapAt (h : List Point) (i j : Nat) : List Point :=
  (h.set i (h.getD j ⟨0, 0⟩)).set j (h.getD i ⟨0, 0⟩)

/-- Sift-up `std::__push_heap` with top index 0, the value being carried in the hole: while
the hole is not the root and `cmp(parent, value)`, the parent moves down into the hole. -/
def siftUp {R C : Nat} (g : Grid R C) : Nat → List Point → Nat → List Point
  | 0, h, _ => h
  | fuel + 1, h, hole =>
    if hole > 0 ∧ cmp g (h.getD ((hole - 1) / 2) ⟨0, 0⟩) (h.getD hole ⟨0, 0⟩) then
      siftUp g fuel (swapAt h hole ((hole - 1) / 2)) ((hole - 1) / 2)
    else h

/-- First loop of `std::__adjust_heap`: the hole moves down to the larger-priority child
while `secondChild < (len - 1) / 2`; returns the array and the final hole. -/
def siftHole {R C : Nat} (g : Grid R C) (len : Nat) : Nat → List Point → Nat → List Point × Nat
  | 0, h, hole => (h, hole)
  | fuel + 1, h, hole =>
    if hole < (len - 1) / 2 then
      let second := 2 * (hole + 1)
      let child := if cmp g (h.getD second ⟨0, 0⟩) (h.getD (second - 1) ⟨0, 0⟩)
        then second - 1 else second
      siftHole g len fuel (swapAt h hole child) child
    else (h, hole)

/-- Heap repair `std::__adjust_heap(first, 0, len, value)` with the value carried in the hole:
the hole goes down to a leaf, takes the lone left child when `len` is even, and the value is
sifted up again. -/
def adjustHeap {R C : Nat} (g : Grid R C) (h : List Point) : List Point :=
  let len := h.length
  let s := siftHole g len len h 0
  let t := if len % 2 = 0 ∧ s.2 = (len - 2) / 2 ∧ 2 ≤ len
    then (swapAt s.1 s.2 (2 * (s.2 + 1) - 1), 2 * (s.2 + 1) - 1) else s
  siftUp g len t.1 t.2

/-- Open-set `push`: `push_back` then `std::push_heap`. -/
def pqPush {R C : Nat} (g : Grid R C) (h : List Point) (p : Point) : List Point :=
  siftUp g (h.length + 1) (h ++ [p]) h.length

/-- Open-set `pop`: `std::pop_heap` (the last entry replaces the top and the first `len - 1`
entries are repaired) then `pop_back`. -/
def pqPop {R C : Nat} (g : Grid R C) (h : List Point) : List Point :=
  match h with
  | [] => []
  | [_] => []
  | _ :: b :: rest => adjustHeap g ((b :: rest).getLast (List.cons_ne_nil b rest) ::
      (b :: rest).dropLast)

/-- Body of the neighbour loop of `runAStar` for direction `i`. -/
def relaxNeighbor {R C : Nat} (B : Nat) (goalPos cur : Point)
    (st : Grid R C × List Point) (i : Nat) : Grid R C × List Point :=
  let newX := (getNode st.1 cur.x cur.y).pos.x + dx i
  let newY := (getNode st.1 cur.x cur.y).pos.y + dy i
  if isValid R C newX newY && !isBlocked st.1 newX newY then
    if (getNode st.1 cur.x cur.y).g_cost + 1 > (B : Int) then st
    else
      let newGCost := (getNode st.1 cur.x cur.y).g_cost + 1
      if !(getNode st.1 newX newY).visited || decide (newGCost < (getNode st.1 newX newY).g_cost)
      then
        let hc := calculateHeuristic (getNode st.1 newX newY).pos goalPos
        let g1 := setNode st.1 newX newY
          { getNode st.1 newX newY with
            g_cost := newGCost, h_cost := hc, f_cost := newGCost + hc, parent := some cur }
        (g1, pqPush g1 st.2 ⟨newX, newY⟩)
      else st
  else st

/-- The `while (!openSet.empty())` loop of `runAStar`. -/
def astarLoop {R C : Nat} (B : Nat) :
    Nat → Point → Grid R C → List Point → Option (Bool × Grid R C)
  | 0, _, _, _ => none
  | _ + 1, _, g, [] => some (false, g)
  | fuel + 1, goalPos, g, cur :: rest =>
    if (getNode g cur.x cur.y).visited then
      astarLoop B fuel goalPos g (pqPop g (cur :: rest))
    else
      let g1 := setNode g cur.x cur.y { getNode g cur.x cur.y with visited := true }
      if (getNode g1 cur.x cur.y).pos = goalPos then some (true, g1)
      else
        let st := [0, 1, 2, 3].foldl (relaxNeighbor B goalPos cur) (g1, pqPop g (cur :: rest))
        astarLoop B fuel goalPos st.1 st.2

/-- Cost-guided search `Pathfinder::runAStar` with battery ceiling `B` (`MAX_BATTERY` in the
source): the found flag and the grid it leaves. -/
def runAStar {R C : Nat} (B : Nat) (startPos goalPos : Point) (g : Grid R C) :
    Option (Bool × Grid R C) :=
  let g0 := resetGridState g
  let hc := calculateHeuristic (getNode g0 startPos.x startPos.y).pos goalPos
  let g1 := setNode g0 startPos.x startPos.y
    { getNode g0 startPos.x startPos.y with g_cost := 0, h_cost := hc, f_cost := 0 + hc }
  astarLoop B (5 * (R * C) + 2) goalPos g1 (pqPush g1 [] startPos)

/-- The `while (current != nullptr)` loop of `getPath`: `acc` is the vector `path`. -/
def getPathLoop {R C : Nat} (g : Grid R C) : Nat → Option Point → List Point →
    Option (List Point)
  | _, none, acc => some acc
  | 0, some _, _ => none
  | fuel + 1, some cur, acc =>
    getPathLoop g fuel (getNode g cur.x cur.y).parent (acc ++ [(getNode g cur.x cur.y).pos])

/-- Path reconstruction `Pathfinder::getPath`: `none` when the parent links never reach a
null pointer. -/
def getPath {R C : Nat} (goalPos : Point) (g : Grid R C) : Option (List Point) :=
  if !(getNode g goalPos.x goalPos.y).visited &&
      decide ((getNode g goalPos.x goalPos.y).type ≠ CellType.START) then some []
  else (getPathLoop g (R * C) (some goalPos) []).map List.reverse


/-! ### Logs of a run

The searches keep no record of the cells they expand or push; the functions below replay the
loops of `searchLoop` and `astarLoop` and collect those cells. -/

/-- The cell the body of the neighbour loop of `runBFS` / `runDFS` pushes for direction `i`,
if it pushes one (same conditions as `visitNeighbor`). -/
def pushTarget {R C : Nat} (cur : Point) (g : Grid R C) (i : Nat) : Option Point :=
  let newX := (getNode g cur.x cur.y).pos.x + dx i
  let newY := (getNode g cur.x cur.y).pos.y + dy i
  if isValid R C newX newY && !isBlocked g newX newY then
    if !(getNode g newX newY).visited then some ⟨newX, newY⟩ else none
  else none

/-- Cells pushed while the neighbour loop of `runBFS` / `runDFS` runs over the directions
`l`, in order. -/
def visitPushed {R C : Nat} (push : List Point → Point → List Point) (cur : Point) :
    List Nat → Grid R C × List Point → List Point
  | [], _ => []
  | i :: l, st =>
    (pushTarget cur st.1 i).toList ++ visitPushed push cur l (visitNeighbor push cur st i)

/-- Log of the loop of `runBFS` / `runDFS`: the cells expanded (taken from the frontier and
their neighbours examined) and the cells pushed, each in order. -/
def searchTrace {R C : Nat} (push : List Point → Point → List Point) :
    Nat → Point → Grid R C → List Point → List Point × List Point
  | 0, _, _, _ => ([], [])
  | _ + 1, _, _, [] => ([], [])
  | fuel + 1, goalPos, g, cur :: rest =>
    if (getNode g cur.x cur.y).pos = goalPos then ([], [])
    else
      let st := [0, 1, 2, 3].foldl (visitNeighbor push cur) (g, rest)
      let tr := searchTrace push fuel goalPos st.1 st.2
      (cur :: tr.1, visitPushed push cur [0, 1, 2, 3] (g, rest) ++ tr.2)

/-- Cells `runBFS` expands, in order. -/
def expandedBFS {R C : Nat} (startPos goalPos : Point) (g : Grid R C) : List Point :=
  let g0 := resetGridState g
  let g1 := setNode g0 startPos.x startPos.y
    { getNode g0 startPos.x startPos.y with visited := true }
  (searchTrace queuePush (R * C + 1) goalPos g1 [startPos]).1

/-- Cells `runBFS` pushes onto the queue, in order, the start first. -/
def pushedBFS {R C : Nat} (startPos goalPos : Point) (g : Grid R C) : List Point :=
  let g0 := resetGridState g
  let g1 := setNode g0 startPos.x startPos.y
    { getNode g0 startPos.x startPos.y with visited := true }
  startPos :: (searchTrace queuePush (R * C + 1) goalPos g1 [startPos]).2

/-- Cells `runDFS` expands, in order. -/
def expandedDFS {R C : Nat} (startPos goalPos : Point) (g : Grid R C) : List Point :=
  let g0 := resetGridState g
  let g1 := setNode g0 startPos.x startPos.y
    { getNode g0 startPos.x startPos.y with visited := true }
  (searchTrace stackPush (R * C + 1) goalPos g1 [startPos]).1

/-- Cells `runDFS` pushes onto the stack, in order, the start first. -/
def pushedDFS {R C : Nat} (startPos goalPos : Point) (g : Grid R C) : List Point :=
  let g0 := resetGridState g
  let g1 := setNode g0 startPos.x startPos.y
    { getNode g0 startPos.x startPos.y with visited := true }
  startPos :: (searchTrace stackPush (R * C + 1) goalPos g1 [startPos]).2

/-- Log of the loop of `runAStar`: the cells expanded (popped unclosed, closed, and their
neighbours relaxed), in order. -/
def astarTrace {R C : Nat} (B : Nat) : Nat → Point → Grid R C → List Point → List Point
  | 0, _, _, _ => []
  | _ + 1, _, _, [] => []
  | fuel + 1, goalPos, g, cur :: rest =>
    if (getNode g cur.x cur.y).visited then
      astarTrace B fuel goalPos g (pqPop g (cur :: rest))
    else
      let g1 := setNode g cur.x cur.y { getNode g cur.x cur.y with visited := true }
      if (getNode g1 cur.x cur.y).pos = goalPos then []
      else
        let st := [0, 1, 2, 3].foldl (relaxNeighbor B goalPos cur) (g1, pqPop g (cur :: rest))
        cur :: astarTrace B fuel goalPos st.1 st.2

/-- Cells `runAStar` expands, in order. -/
def expandedAStar {R C : Nat} (B : Nat) (startPos goalPos : Point) (g : Grid R C) :
    List Point :=
  let g0 := resetGridState g
  let hc := calculateHeuristic (getNode g0 startPos.x startPos.y).pos goalPos
  let g1 := setNode g0 startPos.x startPos.y
    { getNode g0 startPos.x startPos.y with g_cost := 0, h_cost := hc, f_cost := 0 + hc }
  astarTrace B (5 * (R * C) + 2) goalPos g1 (pqPush g1 [] startPos)

/-! ### The search without re-opening, and the re-opening events of a run -/

/-- Body of the neighbour loop of the variant of `runAStar` whose relaxation condition is
only `!neighbor.visited`: a closed neighbour is left as it is and is not pushed again. -/
def relaxNeighborNoReopen {R C : Nat} (B : Nat) (goalPos cur : Point)
    (st : Grid R C × List Point) (i : Nat) : Grid R C × List Point :=
  let newX := (getNode st.1 cur.x cur.y).pos.x + dx i
  let newY := (getNode st.1 cur.x cur.y).pos.y + dy i
  if isValid R C newX newY && !isBlocked st.1 newX newY then
    if (getNode st.1 cur.x cur.y).g_cost + 1 > (B : Int) then st
    else
      let newGCost := (getNode st.1 cur.x cur.y).g_cost + 1
      if !(getNode st.1 newX newY).visited then
        let hc := calculateHeuristic (getNode st.1 newX newY).pos goalPos
        let g1 := setNode st.1 newX newY
          { getNode st.1 newX newY with
            g_cost := newGCost, h_cost := hc, f_cost := newGCost + hc, parent := some cur }
        (g1, pqPush g1 st.2 ⟨newX, newY⟩)
      else st
  else st

/-- Main loop of the variant without re-opening. -/
def astarLoopNoReopen {R C : Nat} (B : Nat) :
    Nat → Point → Grid R C → List Point → Option (Bool × Grid R C)
  | 0, _, _, _ => none
  | _ + 1, _, g, [] => some (false, g)
  | fuel + 1, goalPos, g, cur :: rest =>
    if (getNode g cur.x cur.y).visited then
      astarLoopNoReopen B fuel goalPos g (pqPop g (cur :: rest))
    else
      let g1 := setNode g cur.x cur.y { getNode g cur.x cur.y with visited := true }
      if (getNode g1 cur.x cur.y).pos = goalPos then some (true, g1)
      else
        let st := [0, 1, 2, 3].foldl (relaxNeighborNoReopen B goalPos cur)
          (g1, pqPop g (cur :: rest))
        astarLoopNoReopen B fuel goalPos st.1 st.2

/-- The variant of `runAStar` that never touches a closed cell. -/
def runAStarNoReopen {R C : Nat} (B : Nat) (startPos goalPos : Point) (g : Grid R C) :
    Option (Bool × Grid R C) :=
  let g0 := resetGridState g
  let hc := calculateHeuristic (getNode g0 startPos.x startPos.y).pos goalPos
  let g1 := setNode g0 startPos.x startPos.y
    { getNode g0 startPos.x startPos.y with g_cost := 0, h_cost := hc, f_cost := 0 + hc }
  astarLoopNoReopen B (5 * (R * C) + 2) goalPos g1 (pqPush g1 [] startPos)

/-- Whether the body of the neighbour loop of `runAStar` re-opens for direction `i`: the
neighbour passes the bounds, obstacle and ceiling tests, is closed, and the relaxation goes
ahead on `newGCost < neighbor.g_cost`. -/
def reopensAt {R C : Nat} (B : Nat) (cur : Point) (g : Grid R C) (i : Nat) : Bool :=
  let newX := (getNode g cur.x cur.y).pos.x + dx i
  let newY := (getNode g cur.x cur.y).pos.y + dy i
  if isValid R C newX newY && !isBlocked g newX newY then
    if (getNode g cur.x cur.y).g_cost + 1 > (B : Int) then false
    else
      (getNode g newX newY).visited &&
        decide ((getNode g cur.x cur.y).g_cost + 1 < (getNode g newX newY).g_cost)
  else false

/-- Whether the neighbour loop of `runAStar`, run over the directions `l`, re-opens a cell. -/
def reopensFold {R C : Nat} (B : Nat) (goalPos cur : Point) :
    List Nat → Grid R C × List Point → Bool
  | [], _ => false
  | i :: l, st =>
    reopensAt B cur st.1 i || reopensFold B goalPos cur l (relaxNeighbor B goalPos cur st i)

/-- Whether the loop of `runAStar` re-opens a cell at some point. -/
def astarReopens {R C : Nat} (B : Nat) : Nat → Point → Grid R C → List Point → Bool
  | 0, _, _, _ => false
  | _ + 1, _, _, [] => false
  | fuel + 1, goalPos, g, cur :: rest =>
    if (getNode g cur.x cur.y).visited then
      astarReopens B fuel goalPos g (pqPop g (cur :: rest))
    else
      let g1 := setNode g cur.x cur.y { getNode g cur.x cur.y with visited := true }
      if (getNode g1 cur.x cur.y).pos = goalPos then false
      else
        let st := [0, 1, 2, 3].foldl (relaxNeighbor B goalPos cur) (g1, pqPop g (cur :: rest))
        reopensFold B goalPos cur [0, 1, 2, 3] (g1, pqPop g (cur :: rest)) ||
          astarReopens B fuel goalPos st.1 st.2

/-- Whether `runAStar` re-opens a cell during the run. -/
def runAStarReopens {R C : Nat} (B : Nat) (startPos goalPos : Point) (g : Grid R C) : Bool :=
  let g0 := resetGridState g
  let hc := calculateHeuristic (getNode g0 startPos.x startPos.y).pos goalPos
  let g1 := setNode g0 startPos.x startPos.y
    { getNode g0 startPos.x startPos.y with g_cost := 0, h_cost := hc, f_cost := 0 + hc }
  astarReopens B (5 * (R * C) + 2) goalPos g1 (pqPush g1 [] startPos)

/-! ## Observations and specification vocabulary -/

/-- The found flag of a run (`none` when the loop model ran out of fuel). -/
def foundOf {R C : Nat} (r : Option (Bool × Grid R C)) : Option Bool :=
  r.map Prod.fst

/-- The sequence `getPath(goal)` returns when called right after a run. -/
def pathOf {R C : Nat} (goalPos : Point) (r : Option (Bool × Grid R C)) :
    Option (List Point) :=
  r.bind (fun x => getPath goalPos x.2)

/-- The node a pointer points to. -/
abbrev nodeAt {R C : Nat} (g : Grid R C) (p : Point) : Node := getNode g p.x p.y

/-- The position is inside the matrix. -/
abbrev inGrid (R C : Nat) (p : Point) : Prop := isValid R C p.x p.y = true

/-- Grid invariant established by `initGrid`: the `pos` of every cell is its pair of indices. -/
def WF {R C : Nat} (g : Grid R C) : Prop :=
  ∀ i j, (g i j).pos = ⟨(i.val : Int), (j.val : Int)⟩

instance {R C : Nat} (g : Grid R C) : Decidable (WF g) :=
  inferInstanceAs (Decidable (∀ i j, (g i j).pos = ⟨(i.val : Int), (j.val : Int)⟩))

/-- Two grid states with the same positions and cell types. -/
def SameStatic {R C : Nat} (g g' : Grid R C) : Prop :=
  ∀ i j, (g' i j).pos = (g i j).pos ∧ (g' i j).type = (g i j).type

/-- Position `q` is one step up, down, left or right of `p`. -/
def StepTo (p q : Point) : Prop :=
  (q.x = p.x - 1 ∧ q.y = p.y) ∨ (q.x = p.x + 1 ∧ q.y = p.y) ∨
  (q.x = p.x ∧ q.y = p.y - 1) ∨ (q.x = p.x ∧ q.y = p.y + 1)

instance (p q : Point) : Decidable (StepTo p q) :=
  inferInstanceAs (Decidable ((q.x = p.x - 1 ∧ q.y = p.y) ∨ (q.x = p.x + 1 ∧ q.y = p.y) ∨
    (q.x = p.x ∧ q.y = p.y - 1) ∨ (q.x = p.x ∧ q.y = p.y + 1)))

/-- Position `q` is in bounds and not an obstacle. -/
def Free {R C : Nat} (g : Grid R C) (q : Point) : Prop :=
  isValid R C q.x q.y = true ∧ isBlocked g q.x q.y = false

instance {R C : Nat} (g : Grid R C) (q : Point) : Decidable (Free g q) :=
  inferInstanceAs (Decidable (isValid R C q.x q.y = true ∧ isBlocked g q.x q.y = false))

/-- A sequence of cells in which consecutive cells are one step apart and every cell after the
first is in bounds and not an obstacle. -/
def IsRoute {R C : Nat} (g : Grid R C) : List Point → Prop
  | [] => True
  | [_] => True
  | p :: q :: l => (StepTo p q ∧ Free g q) ∧ IsRoute g (q :: l)

/-- Decision procedure for `IsRoute`. -/
def IsRoute.dec {R C : Nat} (g : Grid R C) : (l : List Point) → Decidable (IsRoute g l)
  | [] => isTrue trivial
  | [_] => isTrue trivial
  | p :: q :: l =>
    have := IsRoute.dec g (q :: l)
    inferInstanceAs (Decidable ((StepTo p q ∧ Free g q) ∧ IsRoute g (q :: l)))

instance {R C : Nat} (g : Grid R C) (l : List Point) : Decidable (IsRoute g l) :=
  IsRoute.dec g l

/-- Route `l` reads `s` to `t` inclusive. -/
def RouteFromTo {R C : Nat} (g : Grid R C) (s t : Point) (l : List Point) : Prop :=
  l.head? = some s ∧ l.getLast? = some t ∧ IsRoute g l

instance {R C : Nat} (g : Grid R C) (s t : Point) (l : List Point) :
    Decidable (RouteFromTo g s t l) :=
  inferInstanceAs (Decidable (l.head? = some s ∧ l.getLast? = some t ∧ IsRoute g l))

/-- Some route leads from `s` to `t`. -/
def Reachable {R C : Nat} (g : Grid R C) (s t : Point) : Prop :=
  ∃ l, RouteFromTo g s t l

/-- A sequence of cells from `s` to `t` in which consecutive cells are one step apart and
every cell, the first included, is in bounds and not an obstacle. -/
def FreeSequence {R C : Nat} (g : Grid R C) (s t : Point) (l : List Point) : Prop :=
  l.head? = some s ∧ l.getLast? = some t ∧ List.Chain' StepTo l ∧ ∀ p ∈ l, Free g p

/-! ## Loop invariants -/

/-- Cells whose `visited` flag is clear. -/
def unvisited {R C : Nat} (g : Grid R C) : Finset (Fin R × Fin C) :=
  Finset.univ.filter (fun ij => (g ij.1 ij.2).visited = false)

/-- Cells that are not obstacles. -/
def freeCells {R C : Nat} (g : Grid R C) : Finset (Fin R × Fin C) :=
  Finset.univ.filter (fun ij => (g ij.1 ij.2).type ≠ CellType.OBSTACLE)

/-- The directions `ks` out of `c` have been examined: the neighbour, when free, is
visited. -/
def Handled {R C : Nat} (g0 g : Grid R C) (c : Point) (ks : List Nat) : Prop :=
  ∀ i ∈ ks, Free g0 ⟨c.x + dx i, c.y + dy i⟩ →
    (nodeAt g ⟨c.x + dx i, c.y + dy i⟩).visited = true

/-- Invariant of the loop of `runBFS` / `runDFS`.  `ext` is the frontier, together with the
cell being expanded while the neighbour loop runs; `d` is the depth of a visited cell in the
search tree (ghost state).  The fields guarded by `ord` are those of the FIFO discipline. -/
structure SearchInv {R C : Nat} (ord : Prop) (g0 : Grid R C) (s t : Point) (g : Grid R C)
    (ext : List Point) (d : Point → Nat) : Prop where
  wf : WF g
  static : SameStatic g0 g
  s_valid : inGrid R C s
  s_vis : (nodeAt g s).visited = true
  s_par : (nodeAt g s).parent = none
  s_d : d s = 0
  ext_ok : ∀ p ∈ ext, inGrid R C p ∧ (nodeAt g p).visited = true
  par_ok : ∀ p, inGrid R C p → (nodeAt g p).visited = true → p ≠ s →
    ∃ q, (nodeAt g p).parent = some q ∧ inGrid R C q ∧ (nodeAt g q).visited = true ∧
      StepTo q p ∧ Free g0 p ∧ d p = d q + 1
  unv_par : ∀ p, inGrid R C p → (nodeAt g p).visited = false → (nodeAt g p).parent = none
  done_ok : ∀ p, inGrid R C p → (nodeAt g p).visited = true → p ∉ ext →
    p ≠ t ∧ ∀ q, StepTo p q → Free g0 q → (nodeAt g q).visited = true
  d_bound : ∀ p, inGrid R C p → (nodeAt g p).visited = true →
    d p + (unvisited g).card < R * C
  sorted : ord → ext.Pairwise (fun a b => d a ≤ d b)
  close : ord → ∀ a ∈ ext, ∀ b ∈ ext, d b ≤ d a + 1
  done_le : ord → ∀ p, inGrid R C p → (nodeAt g p).visited = true → p ∉ ext →
    ∀ b ∈ ext, d p ≤ d b
  done_nb : ord → ∀ p, inGrid R C p → (nodeAt g p).visited = true → p ∉ ext →
    ∀ q, StepTo p q → Free g0 q → d q ≤ d p + 1

/-- Invariant of the loop of `runAStar` with ceiling `B`; `os` is the open set. -/
structure AStarInv {R C : Nat} (B : Nat) (g0 : Grid R C) (s : Point) (g : Grid R C)
    (os : List Point) : Prop where
  wf : WF g
  static : SameStatic g0 g
  s_valid : inGrid R C s
  s_g : (nodeAt g s).g_cost = 0
  s_par : (nodeAt g s).parent = none
  s_first : (nodeAt g s).visited = true ∨
    (os = [s] ∧ ∀ p, inGrid R C p → (nodeAt g p).visited = false ∧ (nodeAt g p).parent = none)
  os_ok : ∀ p ∈ os, inGrid R C p ∧ (p = s ∨ (nodeAt g p).parent ≠ none)
  g_nonneg : ∀ p, inGrid R C p → 0 ≤ (nodeAt g p).g_cost
  g_le : ∀ p, inGrid R C p → (nodeAt g p).g_cost ≤ (B : Int)
  par_ok : ∀ p q, inGrid R C p → (nodeAt g p).parent = some q →
    inGrid R C q ∧ (nodeAt g q).visited = true ∧ StepTo q p ∧ Free g0 p ∧
      (nodeAt g q).g_cost + 1 ≤ (nodeAt g p).g_cost
  vis_par : ∀ p, inGrid R C p → (nodeAt g p).visited = true → p ≠ s →
    (nodeAt g p).parent ≠ none
  os_has : ∀ p, inGrid R C p → (nodeAt g p).visited = false → (nodeAt g p).parent ≠ none →
    p ∈ os
  g_bound : ∀ p, inGrid R C p →
    (nodeAt g p).g_cost + (unvisited g).card + (if (nodeAt g p).visited then 1 else 0)
      ≤ ((R * C : Nat) : Int)

/-- Every free neighbour of a closed cell is closed or waits in the open set `os` (state of
`runAStar` between two iterations when no relaxation has been rejected by the ceiling). -/
def FrontierClosed {R C : Nat} (g0 g : Grid R C) (os : List Point) : Prop :=
  ∀ c, inGrid R C c → (nodeAt g c).visited = true → ∀ n, StepTo c n → Free g0 n →
    (nodeAt g n).visited = true ∨ n ∈ os

/-- Progress of `runAStar` along the route `l0`: the cells before `cur` are closed, `cur` and
the cells after it are not, and `cur` waits in the open set with the number of steps that
lead to it as `g_cost`. -/
def RouteProgress {R C : Nat} (l0 : List Point) (g : Grid R C) (os : List Point) : Prop :=
  ∃ pre cur suf, l0 = pre ++ cur :: suf ∧ (∀ x ∈ pre, (nodeAt g x).visited = true) ∧
    (∀ x ∈ cur :: suf, (nodeAt g x).visited = false) ∧ cur ∈ os ∧
    (nodeAt g cur).g_cost = (pre.length : Int)

/-! ## Concrete inputs -/

/-- The 20 × 20 grid whose start `(0, 0)` is walled in by obstacles at `(0, 1)` and `(1, 0)`,
and whose cell `(2, 2)` is marked `START`. -/
def walledGrid : Grid ROWS COLS :=
  setStart (setObstacle (setObstacle (initGrid ROWS COLS) 0 1) 1 0) ⟨2, 2⟩

/-- The 20 × 20 grid whose only obstacle is the cell `(0, 0)`. -/
def blockedStartGrid : Grid ROWS COLS :=
  setObstacle (initGrid ROWS COLS) 0 0

/-- Grid with the given obstacle cells, every other cell `EMPTY` (what `initGrid` followed by
`setObstacle` calls builds). -/
def gridWith (R C : Nat) (obstacles : List (Int × Int)) : Grid R C :=
  fun i j => ⟨⟨(i.val : Int), (j.val : Int)⟩,
    if obstacles.contains ((i.val : Int), (j.val : Int)) then CellType.OBSTACLE
    else CellType.EMPTY, 0, 0, 0, none, false⟩

/-- Grid state left dirty by earlier runs: the given obstacles, every other cell `EMPTY`, and
every cell marked visited with stale costs and a stale parent link. -/
def staleGrid (R C : Nat) (obstacles : List (Int × Int)) : Grid R C :=
  fun i j => ⟨⟨(i.val : Int), (j.val : Int)⟩,
    if obstacles.contains ((i.val : Int), (j.val : Int)) then CellType.OBSTACLE
    else CellType.EMPTY, 7, 5, 12, some ⟨0, 0⟩, true⟩

/-- Free cells of `corridorGrid`: the room of rows 0 to 5 and columns 14 to 19 without
its cells `(0, 14)`, `(0, 15)`, `(0, 17)`, `(0, 19)`, `(1, 18)`, `(2, 18)`, `(3, 18)`, and a
corridor of 89 cells that winds from `(15, 9)` along rows 15, 13, 11, 9 and 7 and up column 12
to the door `(1, 13)` of the room. -/
def corridorFree (r c : Nat) : Bool :=
  (decide (r ≤ 5) && decide (14 ≤ c) &&
    !((decide (r = 0) && (decide (c = 14) || decide (c = 15) || decide (c = 17) ||
        decide (c = 19))) ||
      (decide (c = 18) && decide (1 ≤ r) && decide (r ≤ 3)))) ||
  (decide (r = 1) && (decide (c = 12) || decide (c = 13))) ||
  (decide (c = 12) && decide (2 ≤ r) && decide (r ≤ 7)) ||
  (decide (r = 7) && decide (13 ≤ c)) ||
  (decide (r = 8) && decide (c = 19)) || decide (r = 9) ||
  (decide (r = 10) && decide (c = 0)) || decide (r = 11) ||
  (decide (r = 12) && decide (c = 19)) || decide (r = 13) ||
  (decide (r = 14) && decide (c = 0)) || (decide (r = 15) && decide (c ≤ 9))

/-- The 20 × 20 grid whose cells outside `corridorFree` are obstacles: the cell `(1, 14)` of
the room lies 89 steps from `(15, 9)`, so that 11 of the 100 steps of `MAX_BATTERY` are left
inside the room. -/
def corridorGrid : Grid ROWS COLS :=
  fun i j => ⟨⟨(i.val : Int), (j.val : Int)⟩,
    if corridorFree i.val j.val then CellType.EMPTY else CellType.OBSTACLE, 0, 0, 0, none, false⟩

/-! ## Grid access -/

theorem isValid_iff {R C : Nat} {r c : Int} :
    isValid R C r c = true ↔ 0 ≤ r ∧ r < (R : Int) ∧ 0 ≤ c ∧ c < (C : Int) := by
  simp [isValid, and_assoc]

theorem toIndex_of_valid {R C : Nat} {r c : Int} (h : isValid R C r c = true) :
    ∃ ij : Fin R × Fin C,
      toIndex R C r c = some ij ∧ (ij.1.val : Int) = r ∧ (ij.2.val : Int) = c := by
  rw [isValid_iff] at h
  have h1 : r.toNat < R ∧ c.toNat < C := by omega
  refine ⟨(⟨r.toNat, h1.1⟩, ⟨c.toNat, h1.2⟩), ?_, ?_, ?_⟩
  · simp [toIndex, h1, h.1, h.2.2.1]
  · simp; omega
  · simp; omega

theorem toIndex_some {R C : Nat} {r c : Int} {ij : Fin R × Fin C}
    (h : toIndex R C r c = some ij) :
    isValid R C r c = true ∧ (ij.1.val : Int) = r ∧ (ij.2.val : Int) = c := by
  unfold toIndex at h
  split at h
  · split at h
    · rename_i h1 h2
      simp at h
      subst h
      refine ⟨?_, ?_, ?_⟩
      · rw [isValid_iff]; omega
      · simp; omega
      · simp; omega
    · simp at h
  · simp at h

theorem toIndex_fin {R C : Nat} (i : Fin R) (j : Fin C) :
    toIndex R C (i.val : Int) (j.val : Int) = some (i, j) := by
  have hv : isValid R C (i.val : Int) (j.val : Int) = true := by
    rw [isValid_iff]
    have := i.isLt
    have := j.isLt
    omega
  obtain ⟨ij, h1, h2, h3⟩ := toIndex_of_valid hv
  rw [h1]
  congr 1
  apply Prod.ext
  · apply Fin.ext; simp; omega
  · apply Fin.ext; simp; omega

theorem getNode_fin {R C : Nat} (g : Grid R C) (i : Fin R) (j : Fin C) :
    getNode g (i.val : Int) (j.val : Int) = g i j := by
  simp [getNode, toIndex_fin]

theorem getNode_setNode {R C : Nat} (g : Grid R C) (r c r' c' : Int) (n : Node) :
    getNode (setNode g r c n) r' c' =
      if isValid R C r c = true ∧ r' = r ∧ c' = c then n else getNode g r' c' := by
  unfold getNode setNode
  cases h : toIndex R C r c with
  | none =>
    have : isValid R C r c = false := by
      cases hv : isValid R C r c with
      | false => rfl
      | true =>
        obtain ⟨ij, h1, _⟩ := toIndex_of_valid hv
        rw [h] at h1; simp at h1
    simp [this]
  | some ij =>
    obtain ⟨hv, hr, hc⟩ := toIndex_some h
    cases h' : toIndex R C r' c' with
    | none =>
      have : ¬ (r' = r ∧ c' = c) := by
        rintro ⟨rfl, rfl⟩
        rw [h] at h'; simp at h'
      simp [this]
    | some ij' =>
      obtain ⟨hv', hr', hc'⟩ := toIndex_some h'
      simp only [hv, true_and]
      by_cases e : r' = r ∧ c' = c
      · have : ij' = ij := by
          obtain ⟨rfl, rfl⟩ := e
          rw [h] at h'; simpa using h'.symm
        simp [e, this]
      · have : ¬ (ij'.1 = ij.1 ∧ ij'.2 = ij.2) := by
          rintro ⟨e1, e2⟩
          apply e
          rw [← hr, ← hr', ← hc, ← hc', e1, e2]
          exact ⟨rfl, rfl⟩
        simp [e, this]

theorem nodeAt_setNode {R C : Nat} (g : Grid R C) (q p : Point) (n : Node) :
    nodeAt (setNode g q.x q.y n) p = if inGrid R C q ∧ p = q then n else nodeAt g p := by
  simp only [nodeAt, getNode_setNode, inGrid]
  have : (p.x = q.x ∧ p.y = q.y) ↔ p = q := by
    cases p; cases q; simp
  simp only [this]

theorem nodeAt_setNode_same {R C : Nat} (g : Grid R C) (q : Point) (n : Node)
    (h : inGrid R C q) : nodeAt (setNode g q.x q.y n) q = n := by
  rw [nodeAt_setNode]; simp [h]

theorem nodeAt_setNode_ne {R C : Nat} (g : Grid R C) (q p : Point) (n : Node)
    (h : p ≠ q) : nodeAt (setNode g q.x q.y n) p = nodeAt g p := by
  rw [nodeAt_setNode]; simp [h]

theorem WF.pos_eq {R C : Nat} {g : Grid R C} (w : WF g) {p : Point} (h : inGrid R C p) :
    (nodeAt g p).pos = p := by
  obtain ⟨ij, h1, h2, h3⟩ := toIndex_of_valid h
  simp only [nodeAt, getNode, h1]
  rw [w ij.1 ij.2]
  cases p
  simp at h2 h3 ⊢
  exact ⟨h2, h3⟩

theorem setNode_apply {R C : Nat} (g : Grid R C) (r c : Int) (n : Node) (i : Fin R)
    (j : Fin C) :
    setNode g r c n i j = if r = (i.val : Int) ∧ c = (j.val : Int) then n else g i j := by
  rw [← getNode_fin (setNode g r c n) i j, getNode_setNode, getNode_fin]
  by_cases e : r = (i.val : Int) ∧ c = (j.val : Int)
  · obtain ⟨rfl, rfl⟩ := e
    have hv : isValid R C (i.val : Int) (j.val : Int) = true := by
      rw [isValid_iff]
      have := i.isLt
      have := j.isLt
      omega
    simp [hv]
  · have : ¬ (isValid R C r c = true ∧ (i.val : Int) = r ∧ (j.val : Int) = c) := by
      rintro ⟨_, e1, e2⟩
      exact e ⟨e1.symm, e2.symm⟩
    simp [e, this]

theorem SameStatic.refl_static {R C : Nat} (g : Grid R C) : SameStatic g g :=
  fun _ _ => ⟨rfl, rfl⟩

theorem SameStatic.trans_static {R C : Nat} {g1 g2 g3 : Grid R C} (h1 : SameStatic g1 g2)
    (h2 : SameStatic g2 g3) : SameStatic g1 g3 :=
  fun i j => ⟨(h2 i j).1.trans (h1 i j).1, (h2 i j).2.trans (h1 i j).2⟩

theorem SameStatic.symm_static {R C : Nat} {g1 g2 : Grid R C} (h1 : SameStatic g1 g2) :
    SameStatic g2 g1 :=
  fun i j => ⟨(h1 i j).1.symm, (h1 i j).2.symm⟩

theorem SameStatic.setNode_static {R C : Nat} (g : Grid R C) (r c : Int) (n : Node)
    (hp : n.pos = (getNode g r c).pos) (ht : n.type = (getNode g r c).type) :
    SameStatic g (setNode g r c n) := by
  intro i j
  rw [setNode_apply]
  by_cases e : r = (i.val : Int) ∧ c = (j.val : Int)
  · obtain ⟨rfl, rfl⟩ := e
    rw [getNode_fin] at hp ht
    simp [hp, ht]
  · simp [e]

theorem SameStatic.wf_of {R C : Nat} {g g' : Grid R C} (h : SameStatic g g') (w : WF g) :
    WF g' :=
  fun i j => (h i j).1.trans (w i j)

theorem SameStatic.nodeAt_type {R C : Nat} {g g' : Grid R C} (h : SameStatic g g')
    (r c : Int) : (getNode g' r c).type = (getNode g r c).type := by
  unfold getNode
  cases toIndex R C r c with
  | none => rfl
  | some ij => exact (h ij.1 ij.2).2

theorem SameStatic.nodeAt_pos {R C : Nat} {g g' : Grid R C} (h : SameStatic g g')
    (r c : Int) : (getNode g' r c).pos = (getNode g r c).pos := by
  unfold getNode
  cases toIndex R C r c with
  | none => rfl
  | some ij => exact (h ij.1 ij.2).1

theorem SameStatic.isBlocked_eq {R C : Nat} {g g' : Grid R C} (h : SameStatic g g')
    (r c : Int) : isBlocked g' r c = isBlocked g r c := by
  simp only [Warehouse.isBlocked, h.nodeAt_type]

theorem SameStatic.free_congr {R C : Nat} {g g' : Grid R C} (h : SameStatic g g')
    (q : Point) : Free g' q ↔ Free g q := by
  simp only [Free, h.isBlocked_eq]

theorem resetGridState_static {R C : Nat} (g : Grid R C) :
    SameStatic g (resetGridState g) :=
  fun _ _ => ⟨rfl, rfl⟩

theorem resetGridState_congr {R C : Nat} {g g' : Grid R C} (h : SameStatic g g') :
    resetGridState g' = resetGridState g := by
  funext i j
  simp only [resetGridState]
  rw [(h i j).1, (h i j).2]

theorem nodeAt_reset {R C : Nat} (g : Grid R C) (p : Point) :
    (nodeAt (resetGridState g) p).visited = false ∧
    (nodeAt (resetGridState g) p).parent = none ∧
    (nodeAt (resetGridState g) p).g_cost = 0 ∧
    (nodeAt (resetGridState g) p).h_cost = 0 ∧
    (nodeAt (resetGridState g) p).f_cost = 0 := by
  simp only [nodeAt, getNode]
  cases toIndex R C p.x p.y with
  | none => simp [Node.blank]
  | some ij => simp [resetGridState]

/-! ## Counting unvisited cells -/

theorem mem_unvisited {R C : Nat} (g : Grid R C) (ij : Fin R × Fin C) :
    ij ∈ unvisited g ↔ (g ij.1 ij.2).visited = false := by
  simp [unvisited]

theorem unvisited_card_le {R C : Nat} (g : Grid R C) : (unvisited g).card ≤ R * C := by
  have h := Finset.card_le_univ (unvisited g)
  simpa using h

theorem unvisited_card_lt {R C : Nat} (g : Grid R C) {p : Point} (hp : inGrid R C p)
    (hv : (nodeAt g p).visited = true) : (unvisited g).card < R * C := by
  obtain ⟨ij, h1, h2, h3⟩ := toIndex_of_valid hp
  have hn : ij ∉ unvisited g := by
    rw [mem_unvisited]
    simp only [nodeAt, getNode, h1] at hv
    simp [hv]
  have hss : unvisited g ⊂ Finset.univ := by
    rw [Finset.ssubset_univ_iff]
    intro e
    rw [e] at hn
    exact hn (Finset.mem_univ _)
  have := Finset.card_lt_card hss
  simpa using this

theorem unvisited_setNode_same {R C : Nat} (g : Grid R C) (p : Point) (n : Node)
    (h : n.visited = (nodeAt g p).visited) :
    unvisited (setNode g p.x p.y n) = unvisited g := by
  ext ij
  rw [mem_unvisited, mem_unvisited, setNode_apply]
  by_cases e : p.x = (ij.1.val : Int) ∧ p.y = (ij.2.val : Int)
  · simp only [e, and_self, if_true, h, nodeAt]
    rw [getNode_fin]
  · simp [e]

theorem unvisited_setNode_visit {R C : Nat} (g : Grid R C) (p : Point) (n : Node)
    (hp : inGrid R C p) (hv : (nodeAt g p).visited = false) (hn : n.visited = true) :
    (unvisited (setNode g p.x p.y n)).card + 1 ≤ (unvisited g).card := by
  obtain ⟨ij, h1, h2, h3⟩ := toIndex_of_valid hp
  have hmem : ij ∈ unvisited g := by
    rw [mem_unvisited]
    simpa only [nodeAt, getNode, h1] using hv
  have hsub : unvisited (setNode g p.x p.y n) ⊆ (unvisited g).erase ij := by
    intro kl hkl
    rw [mem_unvisited, setNode_apply] at hkl
    rw [Finset.mem_erase, mem_unvisited]
    by_cases e : p.x = (kl.1.val : Int) ∧ p.y = (kl.2.val : Int)
    · simp [e, hn] at hkl
    · simp only [e, if_false] at hkl
      refine ⟨?_, hkl⟩
      rintro rfl
      exact e ⟨h2.symm, h3.symm⟩
  have := Finset.card_le_card hsub
  rw [Finset.card_erase_of_mem hmem] at this
  have hpos : 0 < (unvisited g).card := Finset.card_pos.mpr ⟨ij, hmem⟩
  omega

/-! ## The open set: `push` and `pop` permute the heap array -/

theorem swapAt_length (h : List Point) (i j : Nat) : (swapAt h i j).length = h.length := by
  simp [swapAt]

theorem swapAt_perm (h : List Point) (i j : Nat) (hi : i < h.length) (hj : j < h.length) :
    (swapAt h i j).Perm h := by
  rw [List.perm_iff_count]
  intro a
  unfold swapAt
  have hj' : j < (h.set i (h.getD j ⟨0, 0⟩)).length := by simpa using hj
  rw [List.count_set _ a _ j hj', List.count_set _ a _ i hi]
  have e1 : h.getD j ⟨0, 0⟩ = h[j] := List.getD_eq_getElem h ⟨0, 0⟩ hj
  have e2 : h.getD i ⟨0, 0⟩ = h[i] := List.getD_eq_getElem h ⟨0, 0⟩ hi
  have e3 : (h.set i (h.getD j ⟨0, 0⟩))[j] = h[j] := by
    rw [List.getElem_set]
    split
    · exact e1
    · rfl
  rw [e3, e1, e2]
  have b1 : (if h[i] == a then 1 else 0) ≤ h.count a := by
    have := List.boole_getElem_le_countP (fun x => x == a) h i hi
    simpa [List.count_eq_countP] using this
  generalize (if (h[i] == a) = true then 1 else 0) = x at b1 ⊢
  generalize (if (h[j] == a) = true then 1 else 0) = y
  generalize List.count a h = n at b1 ⊢
  omega

theorem siftUp_perm {R C : Nat} (g : Grid R C) (fuel : Nat) (h : List Point) (hole : Nat)
    (hh : hole < h.length) : (siftUp g fuel h hole).Perm h := by
  induction fuel generalizing h hole with
  | zero => simp [siftUp]
  | succ n ih =>
    unfold siftUp
    split
    · have hp : (hole - 1) / 2 < h.length := by omega
      refine (ih _ _ ?_).trans (swapAt_perm h hole _ hh hp)
      rw [swapAt_length]; exact hp
    · exact List.Perm.refl _

theorem siftHole_perm {R C : Nat} (g : Grid R C) (fuel : Nat) (h : List Point) (hole : Nat)
    (hh : hole < h.length) :
    (siftHole g h.length fuel h hole).1.Perm h ∧ (siftHole g h.length fuel h hole).2 < h.length := by
  induction fuel generalizing h hole with
  | zero => simp [siftHole, hh]
  | succ n ih =>
    unfold siftHole
    split
    · rename_i hlt
      have h2 : 2 * (hole + 1) < h.length := by omega
      have hc : (if cmp g (h.getD (2 * (hole + 1)) ⟨0, 0⟩) (h.getD (2 * (hole + 1) - 1) ⟨0, 0⟩) = true
          then 2 * (hole + 1) - 1 else 2 * (hole + 1)) < h.length := by
        split <;> omega
      simp only
      have hl := swapAt_length h hole
        (if cmp g (h.getD (2 * (hole + 1)) ⟨0, 0⟩) (h.getD (2 * (hole + 1) - 1) ⟨0, 0⟩) = true
          then 2 * (hole + 1) - 1 else 2 * (hole + 1))
      have := ih (swapAt h hole
        (if cmp g (h.getD (2 * (hole + 1)) ⟨0, 0⟩) (h.getD (2 * (hole + 1) - 1) ⟨0, 0⟩) = true
          then 2 * (hole + 1) - 1 else 2 * (hole + 1))) _ (by rw [hl]; exact hc)
      rw [hl] at this
      exact ⟨this.1.trans (swapAt_perm h hole _ hh hc), this.2⟩
    · exact ⟨List.Perm.refl _, hh⟩

theorem adjustHeap_perm {R C : Nat} (g : Grid R C) (h : List Point) (hne : h ≠ []) :
    (adjustHeap g h).Perm h := by
  have hpos : 0 < h.length := List.length_pos.mpr hne
  obtain ⟨p1, p2⟩ := siftHole_perm g h.length h 0 hpos
  unfold adjustHeap
  simp only
  split
  · rename_i hc
    have hidx : 2 * ((siftHole g h.length h.length h 0).2 + 1) - 1 < h.length := by
      obtain ⟨c1, c2, c3⟩ := hc
      rw [c2]; omega
    have hl1 : (siftHole g h.length h.length h 0).1.length = h.length := p1.length_eq
    refine (siftUp_perm g _ _ _ ?_).trans ?_
    · rw [swapAt_length, hl1]; exact hidx
    · exact (swapAt_perm _ _ _ (by rw [hl1]; exact p2) (by rw [hl1]; exact hidx)).trans p1
  · refine (siftUp_perm g _ _ _ ?_).trans p1
    rw [p1.length_eq]; exact p2

theorem pqPush_perm {R C : Nat} (g : Grid R C) (h : List Point) (p : Point) :
    (pqPush g h p).Perm (p :: h) := by
  unfold pqPush
  refine (siftUp_perm g _ _ _ (by simp)).trans ?_
  exact List.perm_append_singleton p h

theorem pqPop_perm {R C : Nat} (g : Grid R C) (a : Point) (h : List Point) :
    (pqPop g (a :: h)).Perm h := by
  cases h with
  | nil => simp [pqPop]
  | cons b rest =>
    simp only [pqPop]
    refine (adjustHeap_perm g _ (by simp)).trans ?_
    have h1 : ((b :: rest).getLast (List.cons_ne_nil b rest) :: (b :: rest).dropLast).Perm
        ((b :: rest).dropLast ++ [(b :: rest).getLast (List.cons_ne_nil b rest)]) :=
      (List.perm_append_singleton _ _).symm
    rw [List.dropLast_append_getLast] at h1
    exact h1

theorem pqPush_nil {R C : Nat} (g : Grid R C) (p : Point) : pqPush g [] p = [p] := by
  simp [pqPush, siftUp]

/-! ## The neighbour loop of `runBFS` / `runDFS` -/

/-- The neighbour of `c` in direction `i`. -/
theorem stepTo_dir (c : Point) (i : Nat) (hi : i < 4) :
    StepTo c ⟨c.x + dx i, c.y + dy i⟩ := by
  unfold StepTo
  have : i = 0 ∨ i = 1 ∨ i = 2 ∨ i = 3 := by omega
  rcases this with rfl | rfl | rfl | rfl <;> simp [dx, dy] <;> omega

theorem stepTo_exists_dir {c q : Point} (h : StepTo c q) :
    ∃ i, i < 4 ∧ q = ⟨c.x + dx i, c.y + dy i⟩ := by
  cases q with
  | mk qx qy =>
    simp only [StepTo] at h
    rcases h with ⟨h1, h2⟩ | ⟨h1, h2⟩ | ⟨h1, h2⟩ | ⟨h1, h2⟩
    · exact ⟨0, by omega, by simp [dx, dy, h1, h2]; omega⟩
    · exact ⟨1, by omega, by simp [dx, dy, h1, h2]⟩
    · exact ⟨2, by omega, by simp [dx, dy, h1, h2]; omega⟩
    · exact ⟨3, by omega, by simp [dx, dy, h1, h2]⟩

theorem stepTo_ne {c q : Point} (h : StepTo c q) : q ≠ c := by
  rintro rfl
  simp only [StepTo] at h
  omega

theorem free_iff {R C : Nat} (g : Grid R C) (q : Point) :
    (isValid R C q.x q.y && !isBlocked g q.x q.y) = true ↔ Free g q := by
  simp [Free]

theorem visitNeighbor_eq {R C : Nat} (push : List Point → Point → List Point) (c : Point)
    (g : Grid R C) (fr : List Point) (i : Nat) (w : WF g) (hc : inGrid R C c) :
    visitNeighbor push c (g, fr) i =
      if Free g ⟨c.x + dx i, c.y + dy i⟩ ∧
          (nodeAt g ⟨c.x + dx i, c.y + dy i⟩).visited = false then
        (setNode g (c.x + dx i) (c.y + dy i)
          { nodeAt g ⟨c.x + dx i, c.y + dy i⟩ with visited := true, parent := some c },
          push fr ⟨c.x + dx i, c.y + dy i⟩)
      else (g, fr) := by
  have hp : (getNode g c.x c.y).pos = c := w.pos_eq hc
  unfold visitNeighbor
  simp only [hp]
  by_cases hf : Free g ⟨c.x + dx i, c.y + dy i⟩
  · have hf' := (free_iff g ⟨c.x + dx i, c.y + dy i⟩).mpr hf
    simp only at hf'
    simp only [hf', if_true, hf, true_and]
    by_cases hv : (nodeAt g ⟨c.x + dx i, c.y + dy i⟩).visited = false
    · simp only [nodeAt] at hv
      simp [hv, nodeAt]
    · simp only [nodeAt] at hv
      simp [hv, nodeAt]
  · have hf' : ¬ ((isValid R C (c.x + dx i) (c.y + dy i) &&
        !isBlocked g (c.x + dx i) (c.y + dy i)) = true) := by
      intro h
      exact hf ((free_iff g ⟨c.x + dx i, c.y + dy i⟩).mp h)
    simp [hf', hf]


theorem visitNeighbor_inv {R C : Nat} {ord : Prop} (push : List Point → Point → List Point)
    (hpush : ∀ q p, (push q p).Perm (p :: q)) (hord : ord → push = queuePush)
    {g0 g : Grid R C} {s t c : Point} {f : List Point} {d : Point → Nat} {k : Nat}
    {ks : List Nat}
    (inv : SearchInv ord g0 s t g (c :: f) d) (hh : Handled g0 g c ks) :
    ∃ d', SearchInv ord g0 s t (visitNeighbor push c (g, f) k).1
        (c :: (visitNeighbor push c (g, f) k).2) d' ∧
      Handled g0 (visitNeighbor push c (g, f) k).1 c (k :: ks) ∧
      (unvisited (visitNeighbor push c (g, f) k).1).card +
          (visitNeighbor push c (g, f) k).2.length ≤ (unvisited g).card + f.length := by
  have hc := inv.ext_ok c (List.mem_cons_self _ _)
  rw [visitNeighbor_eq push c g f k inv.wf hc.1]
  by_cases hcond : Free g ⟨c.x + dx k, c.y + dy k⟩ ∧
      (nodeAt g ⟨c.x + dx k, c.y + dy k⟩).visited = false
  · rw [if_pos hcond]
    obtain ⟨hfree, hunv⟩ := hcond
    generalize hn : (⟨c.x + dx k, c.y + dy k⟩ : Point) = n at hfree hunv ⊢
    have hnx : c.x + dx k = n.x := by rw [← hn]
    have hny : c.y + dy k = n.y := by rw [← hn]
    rw [hnx, hny]
    dsimp only
    generalize hnode : ({ nodeAt g n with visited := true, parent := some c } : Node) = nn
    have nn_vis : nn.visited = true := by rw [← hnode]
    have nn_par : nn.parent = some c := by rw [← hnode]
    have nn_pos : nn.pos = (getNode g n.x n.y).pos := by rw [← hnode]
    have nn_type : nn.type = (getNode g n.x n.y).type := by rw [← hnode]
    have hnv : inGrid R C n := hfree.1
    have key : ∀ p, nodeAt (setNode g n.x n.y nn) p = if p = n then nn else nodeAt g p := by
      intro p
      rw [nodeAt_setNode]
      by_cases e : p = n
      · rw [if_pos ⟨hnv, e⟩, if_pos e]
      · rw [if_neg (fun h => e h.2), if_neg e]
    have key_ne : ∀ p, p ≠ n → nodeAt (setNode g n.x n.y nn) p = nodeAt g p := by
      intro p hp
      rw [key, if_neg hp]
    have key_n : nodeAt (setNode g n.x n.y nn) n = nn := by
      rw [key, if_pos rfl]
    have vis_ne : ∀ p, (nodeAt g p).visited = true → p ≠ n := by
      rintro p hp rfl
      rw [hunv] at hp
      exact Bool.noConfusion hp
    have vis_mono : ∀ p, (nodeAt g p).visited = true →
        (nodeAt (setNode g n.x n.y nn) p).visited = true := by
      intro p hp
      rw [key_ne p (vis_ne p hp)]
      exact hp
    have vis_old : ∀ p, (nodeAt (setNode g n.x n.y nn) p).visited = true → p ≠ n →
        (nodeAt g p).visited = true := by
      intro p hp hpn
      rw [key_ne p hpn] at hp
      exact hp
    have hcn : c ≠ n := vis_ne c hc.2
    have hsn : s ≠ n := vis_ne s inv.s_vis
    have ext_ne : ∀ p ∈ c :: f, p ≠ n := fun p hp => vis_ne p (inv.ext_ok p hp).2
    have mem_push : ∀ p, p ∈ push f n ↔ p = n ∨ p ∈ f := fun p =>
      (hpush f n).mem_iff.trans List.mem_cons
    have mem_ext : ∀ p, p ∈ c :: push f n ↔ p = n ∨ p ∈ c :: f := by
      intro p
      simp only [List.mem_cons, mem_push]
      tauto
    have hfree0 : Free g0 n := (inv.static.free_congr n).mp hfree
    have hstat : SameStatic g (setNode g n.x n.y nn) :=
      SameStatic.setNode_static g n.x n.y nn nn_pos nn_type
    have hunvc := unvisited_setNode_visit g n nn hnv hunv nn_vis
    have dn : Function.update d n (d c + 1) n = d c + 1 := Function.update_same _ _ _
    have dne : ∀ p, p ≠ n → Function.update d n (d c + 1) p = d p := fun p hp =>
      Function.update_noteq hp _ _
    refine ⟨Function.update d n (d c + 1), ?_, ?_, ?_⟩
    · constructor
      · exact hstat.wf_of inv.wf
      · exact inv.static.trans_static hstat
      · exact inv.s_valid
      · exact vis_mono s inv.s_vis
      · rw [key_ne s hsn]; exact inv.s_par
      · rw [dne s hsn]; exact inv.s_d
      · intro p hp
        rcases (mem_ext p).mp hp with rfl | hp'
        · exact ⟨hnv, by rw [key_n]; exact nn_vis⟩
        · exact ⟨(inv.ext_ok p hp').1, vis_mono p (inv.ext_ok p hp').2⟩
      · intro p hp hv hps
        by_cases hpn : p = n
        · subst hpn
          refine ⟨c, by rw [key_n]; exact nn_par, hc.1, vis_mono c hc.2, ?_, hfree0, ?_⟩
          · rw [← hn]; exact stepTo_dir c k (by
              by_contra hk
              have h0 : dx k = 0 := by
                unfold dx
                split <;> omega
              have h1 : dy k = 0 := by
                unfold dy
                split <;> omega
              apply hcn
              rw [← hn, h0, h1]
              simp)
          · rw [dn, dne c hcn]
        · obtain ⟨q, h1, h2, h3, h4, h5, h6⟩ := inv.par_ok p hp (vis_old p hv hpn) hps
          refine ⟨q, by rw [key_ne p hpn]; exact h1, h2, vis_mono q h3, h4, h5, ?_⟩
          rw [dne p hpn, dne q (vis_ne q h3)]
          exact h6
      · intro p hp hv
        have hpn : p ≠ n := by
          rintro rfl
          rw [key_n, nn_vis] at hv
          exact Bool.noConfusion hv
        rw [key_ne p hpn] at hv ⊢
        exact inv.unv_par p hp hv
      · intro p hp hv hpe
        have hpn : p ≠ n := fun e => hpe ((mem_ext p).mpr (Or.inl e))
        have hpe' : p ∉ c :: f := fun e => hpe ((mem_ext p).mpr (Or.inr e))
        obtain ⟨h1, h2⟩ := inv.done_ok p hp (vis_old p hv hpn) hpe'
        exact ⟨h1, fun q hq hf => vis_mono q (h2 q hq hf)⟩
      · intro p hp hv
        by_cases hpn : p = n
        · subst hpn
          have := inv.d_bound c hc.1 hc.2
          rw [dn]
          omega
        · have := inv.d_bound p hp (vis_old p hv hpn)
          rw [dne p hpn]
          omega
      · intro ho
        have hq : push f n = f ++ [n] := by rw [hord ho]; rfl
        rw [hq, ← List.cons_append, List.pairwise_append]
        refine ⟨?_, List.pairwise_singleton _ _, ?_⟩
        · refine List.Pairwise.imp_of_mem ?_ (inv.sorted ho)
          intro a b ha hb hab
          rw [dne a (ext_ne a ha), dne b (ext_ne b hb)]
          exact hab
        · intro a ha b hb
          rw [List.mem_singleton] at hb
          subst hb
          rw [dn, dne a (ext_ne a ha)]
          exact inv.close ho c (List.mem_cons_self _ _) a ha
      · intro ho a ha b hb
        have hsort := inv.sorted ho
        rw [List.pairwise_cons] at hsort
        have hca : ∀ x ∈ c :: f, d c ≤ d x := by
          intro x hx
          rcases List.mem_cons.mp hx with rfl | hx'
          · exact le_refl _
          · exact hsort.1 x hx'
        rcases (mem_ext a).mp ha with rfl | ha' <;> rcases (mem_ext b).mp hb with rfl | hb'
        · omega
        · rw [dn, dne b (ext_ne b hb')]
          have := inv.close ho c (List.mem_cons_self _ _) b hb'
          omega
        · rw [dn, dne a (ext_ne a ha')]
          have := hca a ha'
          omega
        · rw [dne a (ext_ne a ha'), dne b (ext_ne b hb')]
          exact inv.close ho a ha' b hb'
      · intro ho p hp hv hpe b hb
        have hpn : p ≠ n := fun e => hpe ((mem_ext p).mpr (Or.inl e))
        have hpe' : p ∉ c :: f := fun e => hpe ((mem_ext p).mpr (Or.inr e))
        have hv' := vis_old p hv hpn
        rw [dne p hpn]
        rcases (mem_ext b).mp hb with rfl | hb'
        · rw [dn]
          have := inv.done_le ho p hp hv' hpe' c (List.mem_cons_self _ _)
          omega
        · rw [dne b (ext_ne b hb')]
          exact inv.done_le ho p hp hv' hpe' b hb'
      · intro ho p hp hv hpe q hq hf
        have hpn : p ≠ n := fun e => hpe ((mem_ext p).mpr (Or.inl e))
        have hpe' : p ∉ c :: f := fun e => hpe ((mem_ext p).mpr (Or.inr e))
        have hv' := vis_old p hv hpn
        have hqv := (inv.done_ok p hp hv' hpe').2 q hq hf
        rw [dne p hpn, dne q (vis_ne q hqv)]
        exact inv.done_nb ho p hp hv' hpe' q hq hf
    · intro i hi hf
      rcases List.mem_cons.mp hi with rfl | h
      · rw [hn, key_n]
        exact nn_vis
      · exact vis_mono _ (hh i h hf)
    · have hl : (push f n).length = f.length + 1 := by
        rw [(hpush f n).length_eq]
        rfl
      simp only [hl]
      omega
  · rw [if_neg hcond]
    refine ⟨d, inv, ?_, le_refl _⟩
    intro i hi hf
    rcases List.mem_cons.mp hi with rfl | h
    · have hfg : Free g ⟨c.x + dx i, c.y + dy i⟩ := (inv.static.free_congr _).mpr hf
      by_contra hv
      exact hcond ⟨hfg, by simpa using hv⟩
    · exact hh i h hf


/-- The neighbour steps keep the invariant and examine every direction of the list. -/
theorem visitFold_inv {R C : Nat} {ord : Prop} (push : List Point → Point → List Point)
    (hpush : ∀ f p, (push f p).Perm (p :: f)) (hord : ord → push = queuePush)
    {g0 : Grid R C} {s t c : Point} (l : List Nat) :
    ∀ (st : Grid R C × List Point) (d : Point → Nat) (ks : List Nat),
      SearchInv ord g0 s t st.1 (c :: st.2) d → Handled g0 st.1 c ks →
      ∃ d', SearchInv ord g0 s t (l.foldl (visitNeighbor push c) st).1
          (c :: (l.foldl (visitNeighbor push c) st).2) d' ∧
        Handled g0 (l.foldl (visitNeighbor push c) st).1 c (l.reverse ++ ks) ∧
        (unvisited (l.foldl (visitNeighbor push c) st).1).card +
            (l.foldl (visitNeighbor push c) st).2.length
          ≤ (unvisited st.1).card + st.2.length := by
  induction l with
  | nil =>
    intro st d ks inv hh
    exact ⟨d, inv, by simpa using hh, le_refl _⟩
  | cons k l ih =>
    intro st d ks inv hh
    obtain ⟨d1, i1, k1, m1⟩ := visitNeighbor_inv push hpush hord (g := st.1) (f := st.2)
      (k := k) inv hh
    obtain ⟨d2, i2, k2, m2⟩ := ih (visitNeighbor push c st k) d1 (k :: ks) i1 k1
    refine ⟨d2, i2, ?_, ?_⟩
    · simpa using k2
    · exact le_trans m2 m1

/-- Once its four directions are examined, the expanded cell leaves the frontier. -/
theorem searchInv_finish {R C : Nat} {ord : Prop} {g0 g : Grid R C} {s t c : Point}
    {fr : List Point} {d : Point → Nat} (inv : SearchInv ord g0 s t g (c :: fr) d)
    (hh : Handled g0 g c [3, 2, 1, 0]) (hct : c ≠ t) : SearchInv ord g0 s t g fr d := by
  have hc := inv.ext_ok c (List.mem_cons_self _ _)
  have hnb : ∀ q, StepTo c q → Free g0 q → (nodeAt g q).visited = true := by
    intro q hq hf
    obtain ⟨i, hi, rfl⟩ := stepTo_exists_dir hq
    refine hh i ?_ hf
    have : i = 0 ∨ i = 1 ∨ i = 2 ∨ i = 3 := by omega
    rcases this with rfl | rfl | rfl | rfl <;> simp
  constructor
  · exact inv.wf
  · exact inv.static
  · exact inv.s_valid
  · exact inv.s_vis
  · exact inv.s_par
  · exact inv.s_d
  · exact fun p hp => inv.ext_ok p (List.mem_cons_of_mem _ hp)
  · exact inv.par_ok
  · exact inv.unv_par
  · intro p hp hv hpe
    by_cases hpc : p = c
    · subst hpc
      exact ⟨hct, hnb⟩
    · exact inv.done_ok p hp hv (by simp [hpc, hpe])
  · exact inv.d_bound
  · intro ho
    exact (List.pairwise_cons.mp (inv.sorted ho)).2
  · intro ho a ha b hb
    exact inv.close ho a (List.mem_cons_of_mem _ ha) b (List.mem_cons_of_mem _ hb)
  · intro ho p hp hv hpe b hb
    by_cases hpc : p = c
    · subst hpc
      exact (List.pairwise_cons.mp (inv.sorted ho)).1 b hb
    · exact inv.done_le ho p hp hv (by simp [hpc, hpe]) b (List.mem_cons_of_mem _ hb)
  · intro ho p hp hv hpe q hq hf
    by_cases hpc : p = c
    · subst hpc
      have hqv := hnb q hq hf
      have hqf : inGrid R C q := hf.1
      by_cases hqe : q ∈ p :: fr
      · exact inv.close ho p (List.mem_cons_self _ _) q hqe
      · have := inv.done_le ho q hqf hqv hqe p (List.mem_cons_self _ _)
        omega
    · exact inv.done_nb ho p hp hv (by simp [hpc, hpe]) q hq hf

/-- The loop of `runBFS` / `runDFS` returns, and leaves the invariant with the goal at the
head of the frontier (found) or with an empty frontier (not found). -/
theorem searchLoop_spec {R C : Nat} {ord : Prop} (push : List Point → Point → List Point)
    (hpush : ∀ f p, (push f p).Perm (p :: f)) (hord : ord → push = queuePush)
    {g0 : Grid R C} {s t : Point} (fuel : Nat) :
    ∀ (g : Grid R C) (fr : List Point) (d : Point → Nat),
      SearchInv ord g0 s t g fr d → (unvisited g).card + fr.length < fuel →
      ∃ b g' d' ext, searchLoop push fuel t g fr = some (b, g') ∧
        SearchInv ord g0 s t g' ext d' ∧
        (b = true → ∃ rest, ext = t :: rest) ∧ (b = false → ext = []) := by
  induction fuel with
  | zero => intro g fr d _ h; omega
  | succ n ih =>
    intro g fr d inv hm
    cases fr with
    | nil =>
      exact ⟨false, g, d, [], by simp [searchLoop], inv, by simp, by simp⟩
    | cons c rest =>
      have hc := inv.ext_ok c (List.mem_cons_self _ _)
      have hpos : (getNode g c.x c.y).pos = c := inv.wf.pos_eq hc.1
      by_cases hg : c = t
      · subst hg
        exact ⟨true, g, d, c :: rest, by simp [searchLoop, hpos], inv, fun _ => ⟨rest, rfl⟩,
          by simp⟩
      · obtain ⟨d', i', k', m'⟩ := visitFold_inv push hpush hord [0, 1, 2, 3] (g, rest) d []
          inv (fun i hi => absurd hi (List.not_mem_nil i))
        have fin := searchInv_finish i' k' hg
        have hm' : (unvisited ([0, 1, 2, 3].foldl (visitNeighbor push c) (g, rest)).1).card +
            ([0, 1, 2, 3].foldl (visitNeighbor push c) (g, rest)).2.length < n := by
          simp only [List.length_cons] at hm
          dsimp only at m'
          omega
        obtain ⟨b, g', d'', ext, e, r1, r2, r3⟩ := ih _ _ d' fin hm'
        refine ⟨b, g', d'', ext, ?_, r1, r2, r3⟩
        rw [← e]
        simp only [searchLoop, hpos, if_neg hg]

/-- The state `runBFS` / `runDFS` enter their loop with satisfies the invariant. -/
theorem searchInv_init {R C : Nat} (ord : Prop) (g : Grid R C) (s t : Point) (w : WF g)
    (hs : inGrid R C s) :
    SearchInv ord g s t
      (setNode (resetGridState g) s.x s.y
        { getNode (resetGridState g) s.x s.y with visited := true }) [s] (fun _ => 0) := by
  generalize hnode : ({ getNode (resetGridState g) s.x s.y with visited := true } : Node) = nn
  have nn_vis : nn.visited = true := by rw [← hnode]
  have nn_par : nn.parent = none := by rw [← hnode]; exact (nodeAt_reset g s).2.1
  have nn_pos : nn.pos = (getNode (resetGridState g) s.x s.y).pos := by rw [← hnode]
  have nn_type : nn.type = (getNode (resetGridState g) s.x s.y).type := by rw [← hnode]
  have hstat : SameStatic g (setNode (resetGridState g) s.x s.y nn) :=
    (resetGridState_static g).trans_static (SameStatic.setNode_static _ _ _ _ nn_pos nn_type)
  have key : ∀ p, nodeAt (setNode (resetGridState g) s.x s.y nn) p =
      if p = s then nn else nodeAt (resetGridState g) p := by
    intro p
    rw [nodeAt_setNode]
    by_cases e : p = s
    · rw [if_pos ⟨hs, e⟩, if_pos e]
    · rw [if_neg (fun h => e h.2), if_neg e]
  have key_s : nodeAt (setNode (resetGridState g) s.x s.y nn) s = nn := by
    rw [key, if_pos rfl]
  have vis_s : ∀ p, (nodeAt (setNode (resetGridState g) s.x s.y nn) p).visited = true →
      p = s := by
    intro p hp
    by_contra e
    rw [key, if_neg e, (nodeAt_reset g p).1] at hp
    exact Bool.noConfusion hp
  constructor
  · exact hstat.wf_of w
  · exact hstat
  · exact hs
  · rw [key_s]; exact nn_vis
  · rw [key_s]; exact nn_par
  · rfl
  · intro p hp
    rw [List.mem_singleton] at hp
    subst hp
    exact ⟨hs, by rw [key_s]; exact nn_vis⟩
  · intro p _ hv hps
    exact absurd (vis_s p hv) hps
  · intro p _ hv
    have e : p ≠ s := by
      rintro rfl
      rw [key_s, nn_vis] at hv
      exact Bool.noConfusion hv
    rw [key, if_neg e]
    exact (nodeAt_reset g p).2.1
  · intro p _ hv hpe
    exact absurd (vis_s p hv) (by simpa using hpe)
  · intro p _ hv
    have := unvisited_card_lt (setNode (resetGridState g) s.x s.y nn) hs
      (by rw [key_s]; exact nn_vis)
    omega
  · intro _
    exact List.pairwise_singleton _ _
  · intro _ a _ b _
    omega
  · intro _ p _ hv hpe
    exact absurd (vis_s p hv) (by simpa using hpe)
  · intro _ p _ hv hpe
    exact absurd (vis_s p hv) (by simpa using hpe)

theorem queuePush_perm (f : List Point) (p : Point) : (queuePush f p).Perm (p :: f) :=
  List.perm_append_singleton p f

theorem stackPush_perm (f : List Point) (p : Point) : (stackPush f p).Perm (p :: f) :=
  List.Perm.refl _

/-- Run summary of `runBFS`: it returns, with the FIFO invariant on the final grid. -/
theorem runBFS_spec {R C : Nat} (g : Grid R C) (s t : Point) (w : WF g) (hs : inGrid R C s) :
    ∃ b g' d ext, runBFS s t g = some (b, g') ∧ SearchInv True g s t g' ext d ∧
      (b = true → ∃ rest, ext = t :: rest) ∧ (b = false → ext = []) := by
  have inv := searchInv_init True g s t w hs
  refine searchLoop_spec queuePush queuePush_perm (fun _ => rfl) (R * C + 1) _ _ _ inv ?_
  exact Nat.add_lt_add_right (unvisited_card_lt _ inv.s_valid inv.s_vis) 1

/-- Run summary of `runDFS`: it returns, with the invariant on the final grid. -/
theorem runDFS_spec {R C : Nat} (g : Grid R C) (s t : Point) (w : WF g) (hs : inGrid R C s) :
    ∃ b g' d ext, runDFS s t g = some (b, g') ∧ SearchInv False g s t g' ext d ∧
      (b = true → ∃ rest, ext = t :: rest) ∧ (b = false → ext = []) := by
  have inv := searchInv_init False g s t w hs
  refine searchLoop_spec stackPush stackPush_perm (fun h => h.elim) (R * C + 1) _ _ _ inv ?_
  exact Nat.add_lt_add_right (unvisited_card_lt _ inv.s_valid inv.s_vis) 1

/-! ## Path reconstruction along the parent links -/

theorem isRoute_iff_chain' {R C : Nat} (g : Grid R C) (l : List Point) :
    IsRoute g l ↔ List.Chain' (fun p q => StepTo p q ∧ Free g q) l := by
  induction l with
  | nil => simp [IsRoute]
  | cons p l ih =>
    cases l with
    | nil => simp [IsRoute]
    | cons q l' =>
      rw [List.chain'_cons, ← ih]
      rfl

/-- Parent links that descend in a rank reach the start; `getPath`'s loop collects the route
they trace.  `Good` is the set of cells the links start from, `V` a property of the cells they
lead to. -/
theorem chain_route {R C : Nat} (ex : Prop) (g0 g : Grid R C) (s : Point) (rk : Point → Nat)
    (Good V : Point → Prop) (w : WF g)
    (hG : ∀ p, Good p → inGrid R C p ∧
      ((p = s ∧ (nodeAt g p).parent = none) ∨
        ∃ q, (nodeAt g p).parent = some q ∧ (Good q ∧ V q) ∧ StepTo q p ∧ Free g0 p ∧
          rk q < rk p ∧ (ex → rk p = rk q + 1)))
    (hs : ex → rk s = 0) :
    ∀ n p, Good p → rk p ≤ n →
      ∃ l : List Point, RouteFromTo g0 s p l ∧ l.length ≤ rk p + 1 ∧
        (ex → l.length = rk p + 1) ∧
        (∀ fuel acc, l.length ≤ fuel →
          getPathLoop g fuel (some p) acc = some (acc ++ l.reverse)) ∧
        l.Nodup ∧ (∀ x ∈ l, rk x ≤ rk p) ∧ (∀ x ∈ l, x = p ∨ V x) := by
  intro n
  induction n with
  | zero =>
    intro p hp hr
    obtain ⟨hv, h | ⟨q, _, _, _, _, hlt, _⟩⟩ := hG p hp
    · obtain ⟨rfl, hpar⟩ := h
      refine ⟨[p], ⟨rfl, rfl, trivial⟩, by simp, fun e => by simp [hs e], ?_, by simp,
        by simp, by simp⟩
      intro fuel acc hf
      cases fuel with
      | zero => simp at hf
      | succ k =>
        have hpos : (getNode g p.x p.y).pos = p := w.pos_eq hv
        have hpar' : (getNode g p.x p.y).parent = none := hpar
        simp [getPathLoop, hpos, hpar']
    · omega
  | succ n ih =>
    intro p hp hr
    obtain ⟨hv, h | ⟨q, hpar, hq, hstep, hfree, hlt, hex⟩⟩ := hG p hp
    · obtain ⟨rfl, hpar⟩ := h
      refine ⟨[p], ⟨rfl, rfl, trivial⟩, by simp, fun e => by simp [hs e], ?_, by simp,
        by simp, by simp⟩
      intro fuel acc hf
      cases fuel with
      | zero => simp at hf
      | succ k =>
        have hpos : (getNode g p.x p.y).pos = p := w.pos_eq hv
        have hpar' : (getNode g p.x p.y).parent = none := hpar
        simp [getPathLoop, hpos, hpar']
    · obtain ⟨l, ⟨hh, hl, hc⟩, hlen, hexl, hloop, hnd, hrk, hV⟩ := ih q hq.1 (by omega)
      have hql : q ∈ l := List.mem_of_mem_getLast? hl
      refine ⟨l ++ [p], ⟨?_, ?_, ?_⟩, ?_, ?_, ?_, ?_, ?_, ?_⟩
      · rw [List.head?_append, hh]; rfl
      · exact List.getLast?_concat l
      · rw [isRoute_iff_chain'] at hc ⊢
        refine List.Chain'.append hc (List.chain'_singleton _) ?_
        intro x hx y hy
        rw [hl] at hx
        simp at hx hy
        subst hx hy
        exact ⟨hstep, hfree⟩
      · simp only [List.length_append, List.length_singleton]
        omega
      · intro e
        simp only [List.length_append, List.length_singleton]
        rw [hexl e, hex e]
      · intro fuel acc hf
        cases fuel with
        | zero => simp at hf
        | succ k =>
          have hpos : (getNode g p.x p.y).pos = p := w.pos_eq hv
          have hpar' : (getNode g p.x p.y).parent = some q := hpar
          simp only [getPathLoop, hpos, hpar']
          rw [hloop k (acc ++ [p]) (by simpa using hf)]
          simp
      · rw [List.nodup_append]
        refine ⟨hnd, List.nodup_singleton p, ?_⟩
        intro x hx hx'
        rw [List.mem_singleton] at hx'
        subst hx'
        have := hrk x hx
        omega
      · intro x hx
        rcases List.mem_append.mp hx with h | h
        · have := hrk x h
          omega
        · rw [List.mem_singleton] at h
          subst h
          exact le_refl _
      · intro x hx
        rcases List.mem_append.mp hx with h | h
        · right
          rcases hV x h with e | e
          · subst e
            exact hq.2
          · exact e
        · left
          exact List.mem_singleton.mp h

/-- What `getPath` returns on a cell that is neither visited nor linked to a parent. -/
theorem getPath_unvisited {R C : Nat} (g : Grid R C) (p : Point) (w : WF g)
    (hp : inGrid R C p) (hv : (nodeAt g p).visited = false)
    (hpar : (nodeAt g p).parent = none) :
    getPath p g = if (nodeAt g p).type = CellType.START then some [p] else some [] := by
  have hpos : (getNode g p.x p.y).pos = p := w.pos_eq hp
  have hv' : (getNode g p.x p.y).visited = false := hv
  have hpar' : (getNode g p.x p.y).parent = none := hpar
  have hRC : 0 < R * C := by
    have := isValid_iff.mp hp
    have h1 : 0 < R := by omega
    have h2 : 0 < C := by omega
    exact Nat.mul_pos h1 h2
  obtain ⟨k, hk⟩ : ∃ k, R * C = k + 1 := ⟨R * C - 1, by omega⟩
  unfold getPath
  by_cases ht : (getNode g p.x p.y).type = CellType.START
  · simp [hv', ht, hk, getPathLoop, hpos, hpar', nodeAt]
  · simp [hv', ht, nodeAt]

/-- On a visited cell, `getPath` returns the route the search tree holds, of the cell's
depth. -/
theorem search_getPath {R C : Nat} {ord : Prop} {g0 g : Grid R C} {s t : Point}
    {ext : List Point} {d : Point → Nat} (inv : SearchInv ord g0 s t g ext d) (p : Point)
    (hp : inGrid R C p) (hv : (nodeAt g p).visited = true) :
    ∃ l, getPath p g = some l ∧ RouteFromTo g0 s p l ∧ l.length = d p + 1 ∧ l.Nodup := by
  have hG : ∀ p, (inGrid R C p ∧ (nodeAt g p).visited = true) → inGrid R C p ∧
      ((p = s ∧ (nodeAt g p).parent = none) ∨
        ∃ q, (nodeAt g p).parent = some q ∧
          ((inGrid R C q ∧ (nodeAt g q).visited = true) ∧ True) ∧
          StepTo q p ∧ Free g0 p ∧ d q < d p ∧ (True → d p = d q + 1)) := by
    rintro p ⟨h1, h2⟩
    refine ⟨h1, ?_⟩
    by_cases e : p = s
    · subst e
      exact Or.inl ⟨rfl, inv.s_par⟩
    · obtain ⟨q, a1, a2, a3, a4, a5, a6⟩ := inv.par_ok p h1 h2 e
      exact Or.inr ⟨q, a1, ⟨⟨a2, a3⟩, trivial⟩, a4, a5, by omega, fun _ => a6⟩
  obtain ⟨l, hr, _, hlen, hloop, hnd, _, _⟩ := chain_route True g0 g s d
    (fun p => inGrid R C p ∧ (nodeAt g p).visited = true) (fun _ => True) inv.wf hG
    (fun _ => inv.s_d) (d p) p ⟨hp, hv⟩ (le_refl _)
  refine ⟨l, ?_, hr, hlen trivial, hnd⟩
  have hb := inv.d_bound p hp hv
  have hv' : (getNode g p.x p.y).visited = true := hv
  unfold getPath
  simp only [hv', Bool.not_true, Bool.false_and, Bool.false_eq_true, if_false]
  rw [hloop (R * C) [] (by rw [hlen trivial]; omega)]
  simp

/-! ## The loop of `runAStar` -/

/-- The node `runAStar` writes into a relaxed neighbour `n` of `c`. -/
theorem relaxNeighbor_eq {R C : Nat} (B : Nat) (t c : Point) (g : Grid R C) (os : List Point)
    (i : Nat) (w : WF g) (hc : inGrid R C c) :
    relaxNeighbor B t c (g, os) i =
      if Free g ⟨c.x + dx i, c.y + dy i⟩ ∧ (nodeAt g c).g_cost + 1 ≤ (B : Int) ∧
          ((nodeAt g ⟨c.x + dx i, c.y + dy i⟩).visited = false ∨
            (nodeAt g c).g_cost + 1 < (nodeAt g ⟨c.x + dx i, c.y + dy i⟩).g_cost) then
        (setNode g (c.x + dx i) (c.y + dy i)
          { nodeAt g ⟨c.x + dx i, c.y + dy i⟩ with
            g_cost := (nodeAt g c).g_cost + 1,
            h_cost := calculateHeuristic ⟨c.x + dx i, c.y + dy i⟩ t,
            f_cost := (nodeAt g c).g_cost + 1 + calculateHeuristic ⟨c.x + dx i, c.y + dy i⟩ t,
            parent := some c },
          pqPush (setNode g (c.x + dx i) (c.y + dy i)
            { nodeAt g ⟨c.x + dx i, c.y + dy i⟩ with
              g_cost := (nodeAt g c).g_cost + 1,
              h_cost := calculateHeuristic ⟨c.x + dx i, c.y + dy i⟩ t,
              f_cost := (nodeAt g c).g_cost + 1 +
                calculateHeuristic ⟨c.x + dx i, c.y + dy i⟩ t,
              parent := some c }) os ⟨c.x + dx i, c.y + dy i⟩)
      else (g, os) := by
  have hp : (getNode g c.x c.y).pos = c := w.pos_eq hc
  unfold relaxNeighbor
  simp only [hp]
  by_cases hf : Free g ⟨c.x + dx i, c.y + dy i⟩
  · have hf' := (free_iff g ⟨c.x + dx i, c.y + dy i⟩).mpr hf
    have hpn : (getNode g (c.x + dx i) (c.y + dy i)).pos = ⟨c.x + dx i, c.y + dy i⟩ :=
      w.pos_eq (p := ⟨c.x + dx i, c.y + dy i⟩) hf.1
    simp only at hf'
    simp only [hf', if_true, hf, true_and, hpn, nodeAt]
    by_cases hb : (getNode g c.x c.y).g_cost + 1 ≤ (B : Int)
    · have hb' : ¬ ((getNode g c.x c.y).g_cost + 1 > (B : Int)) := by omega
      simp only [hb', if_false, hb, true_and]
      by_cases hv : (getNode g (c.x + dx i) (c.y + dy i)).visited = false
      · simp [hv]
      · simp only [Bool.not_eq_false] at hv
        simp [hv]
    · have hb' : (getNode g c.x c.y).g_cost + 1 > (B : Int) := by omega
      simp [hb', hb]
  · have hf' : ¬ ((isValid R C (c.x + dx i) (c.y + dy i) &&
        !isBlocked g (c.x + dx i) (c.y + dy i)) = true) := by
      intro h
      exact hf ((free_iff g ⟨c.x + dx i, c.y + dy i⟩).mp h)
    simp [hf', hf]


/-- One relaxation step keeps the invariant, the visited flags and adds at most one entry to
the open set. -/
theorem relaxNeighbor_inv {R C : Nat} {B : Nat} {g0 g : Grid R C} {s t c : Point}
    {o : List Point} (k : Nat) (inv : AStarInv B g0 s g o) (hc : inGrid R C c)
    (hcv : (nodeAt g c).visited = true) :
    AStarInv B g0 s (relaxNeighbor B t c (g, o) k).1 (relaxNeighbor B t c (g, o) k).2 ∧
      unvisited (relaxNeighbor B t c (g, o) k).1 = unvisited g ∧
      (relaxNeighbor B t c (g, o) k).2.length ≤ o.length + 1 ∧
      (∀ p, (nodeAt (relaxNeighbor B t c (g, o) k).1 p).visited = (nodeAt g p).visited) := by
  rw [relaxNeighbor_eq B t c g o k inv.wf hc]
  have hsv : (nodeAt g s).visited = true := by
    rcases inv.s_first with h | ⟨_, h⟩
    · exact h
    · rw [(h c hc).1] at hcv
      exact Bool.noConfusion hcv
  split
  · rename_i hcond
    obtain ⟨hfree, hB, hrel⟩ := hcond
    have hstep : StepTo c ⟨c.x + dx k, c.y + dy k⟩ := by
      apply stepTo_dir
      by_contra hk
      have h0 : dx k = 0 := by
        unfold dx
        split <;> omega
      have h1 : dy k = 0 := by
        unfold dy
        split <;> omega
      rw [h0, h1] at hrel
      simp only [add_zero] at hrel
      have hcc : (⟨c.x, c.y⟩ : Point) = c := rfl
      rw [hcc] at hrel
      rcases hrel with h | h
      · rw [hcv] at h
        exact Bool.noConfusion h
      · omega
    generalize hn : (⟨c.x + dx k, c.y + dy k⟩ : Point) = n at hfree hrel hstep ⊢
    have hnx : c.x + dx k = n.x := by rw [← hn]
    have hny : c.y + dy k = n.y := by rw [← hn]
    rw [hnx, hny]
    dsimp only
    generalize hnode : ({ nodeAt g n with
      g_cost := (nodeAt g c).g_cost + 1, h_cost := calculateHeuristic n t,
      f_cost := (nodeAt g c).g_cost + 1 + calculateHeuristic n t,
      parent := some c } : Node) = nn
    have nn_vis : nn.visited = (nodeAt g n).visited := by rw [← hnode]
    have nn_par : nn.parent = some c := by rw [← hnode]
    have nn_g : nn.g_cost = (nodeAt g c).g_cost + 1 := by rw [← hnode]
    have nn_pos : nn.pos = (getNode g n.x n.y).pos := by rw [← hnode]
    have nn_type : nn.type = (getNode g n.x n.y).type := by rw [← hnode]
    have hnv : inGrid R C n := hfree.1
    have hnc : n ≠ c := stepTo_ne hstep
    have key : ∀ p, nodeAt (setNode g n.x n.y nn) p = if p = n then nn else nodeAt g p := by
      intro p
      rw [nodeAt_setNode]
      by_cases e : p = n
      · rw [if_pos ⟨hnv, e⟩, if_pos e]
      · rw [if_neg (fun h => e h.2), if_neg e]
    have key_ne : ∀ p, p ≠ n → nodeAt (setNode g n.x n.y nn) p = nodeAt g p := by
      intro p hp
      rw [key, if_neg hp]
    have key_n : nodeAt (setNode g n.x n.y nn) n = nn := by
      rw [key, if_pos rfl]
    have vis_eq : ∀ p, (nodeAt (setNode g n.x n.y nn) p).visited = (nodeAt g p).visited := by
      intro p
      by_cases e : p = n
      · subst e
        rw [key_n, nn_vis]
      · rw [key_ne p e]
    have hgc := inv.g_nonneg c hc
    have hsn : s ≠ n := by
      rintro rfl
      rcases hrel with h | h
      · rw [hsv] at h
        exact Bool.noConfusion h
      · rw [inv.s_g] at h
        omega
    have hfree0 : Free g0 n := (inv.static.free_congr n).mp hfree
    have hstat : SameStatic g (setNode g n.x n.y nn) :=
      SameStatic.setNode_static g n.x n.y nn nn_pos nn_type
    have mem_push : ∀ p, p ∈ pqPush (setNode g n.x n.y nn) o n ↔ p = n ∨ p ∈ o := fun p =>
      (pqPush_perm _ o n).mem_iff.trans List.mem_cons
    have hunv : unvisited (setNode g n.x n.y nn) = unvisited g :=
      unvisited_setNode_same g n nn nn_vis
    refine ⟨?_, hunv, ?_, vis_eq⟩
    · constructor
      · exact hstat.wf_of inv.wf
      · exact inv.static.trans_static hstat
      · exact inv.s_valid
      · rw [key_ne s hsn]; exact inv.s_g
      · rw [key_ne s hsn]; exact inv.s_par
      · left
        rw [vis_eq]; exact hsv
      · intro p hp
        rcases (mem_push p).mp hp with rfl | hp'
        · refine ⟨hnv, Or.inr ?_⟩
          rw [key_n, nn_par]
          simp
        · refine ⟨(inv.os_ok p hp').1, ?_⟩
          by_cases e : p = n
          · subst e
            right
            rw [key_n, nn_par]
            simp
          · rw [key_ne p e]
            exact (inv.os_ok p hp').2
      · intro p hp
        by_cases e : p = n
        · subst e
          rw [key_n, nn_g]
          omega
        · rw [key_ne p e]
          exact inv.g_nonneg p hp
      · intro p hp
        by_cases e : p = n
        · subst e
          rw [key_n, nn_g]
          exact hB
        · rw [key_ne p e]
          exact inv.g_le p hp
      · intro p q hp hpar
        by_cases e : p = n
        · subst e
          rw [key_n, nn_par] at hpar
          simp only [Option.some.injEq] at hpar
          subst hpar
          refine ⟨hc, by rw [vis_eq]; exact hcv, hstep, hfree0, ?_⟩
          rw [key_n, nn_g, key_ne _ (Ne.symm hnc)]
        · rw [key_ne p e] at hpar ⊢
          obtain ⟨a1, a2, a3, a4, a5⟩ := inv.par_ok p q hp hpar
          refine ⟨a1, by rw [vis_eq]; exact a2, a3, a4, ?_⟩
          by_cases e' : q = n
          · subst e'
            rw [key_n, nn_g]
            rcases hrel with h | h
            · rw [a2] at h
              exact Bool.noConfusion h
            · omega
          · rw [key_ne q e']
            exact a5
      · intro p hp hv hps
        by_cases e : p = n
        · subst e
          rw [key_n, nn_par]
          simp
        · rw [key_ne p e] at hv ⊢
          exact inv.vis_par p hp hv hps
      · intro p hp hv hpar
        rw [mem_push]
        by_cases e : p = n
        · exact Or.inl e
        · rw [key_ne p e] at hv hpar
          exact Or.inr (inv.os_has p hp hv hpar)
      · intro p hp
        rw [hunv, vis_eq]
        by_cases e : p = n
        · subst e
          rw [key_n, nn_g]
          have h1 := inv.g_bound c hc
          have h2 := inv.g_bound p hp
          rw [hcv] at h1
          simp only [if_true] at h1
          rcases hrel with h | h
          · rw [h]
            simp only [Bool.false_eq_true, if_false]
            omega
          · split at h2 <;> split <;> omega
        · rw [key_ne p e]
          exact inv.g_bound p hp
    · rw [(pqPush_perm _ o n).length_eq]
      rfl
  · exact ⟨inv, rfl, Nat.le_succ _, fun _ => rfl⟩

/-- The four relaxation steps keep the invariant. -/
theorem relaxFold_inv {R C : Nat} {B : Nat} {g0 : Grid R C} {s t c : Point}
    (hc : inGrid R C c) (l : List Nat) :
    ∀ (st : Grid R C × List Point), AStarInv B g0 s st.1 st.2 →
      (nodeAt st.1 c).visited = true →
      AStarInv B g0 s (l.foldl (relaxNeighbor B t c) st).1
          (l.foldl (relaxNeighbor B t c) st).2 ∧
        unvisited (l.foldl (relaxNeighbor B t c) st).1 = unvisited st.1 ∧
        (l.foldl (relaxNeighbor B t c) st).2.length ≤ st.2.length + l.length ∧
        (∀ p, (nodeAt (l.foldl (relaxNeighbor B t c) st).1 p).visited =
          (nodeAt st.1 p).visited) := by
  induction l with
  | nil =>
    intro st inv _
    exact ⟨inv, rfl, le_refl _, fun _ => rfl⟩
  | cons k l ih =>
    intro st inv hcv
    obtain ⟨i1, u1, m1, v1⟩ := relaxNeighbor_inv (t := t) (g := st.1) (o := st.2) k inv hc hcv
    obtain ⟨i2, u2, m2, v2⟩ := ih (relaxNeighbor B t c st k) i1 (by rw [v1]; exact hcv)
    refine ⟨i2, u2.trans u1, ?_, fun p => (v2 p).trans (v1 p)⟩
    simp only [List.foldl_cons, List.length_cons]
    have m2' : (l.foldl (relaxNeighbor B t c) (relaxNeighbor B t c st k)).2.length ≤
        (relaxNeighbor B t c st k).2.length + l.length := m2
    have m1' : (relaxNeighbor B t c st k).2.length ≤ st.2.length + 1 := m1
    omega

/-- Closing the popped cell keeps the invariant. -/
theorem astarInv_close {R C : Nat} {B : Nat} {g0 g : Grid R C} {s c : Point}
    {rest : List Point} (inv : AStarInv B g0 s g (c :: rest))
    (hcv : (nodeAt g c).visited = false) :
    AStarInv B g0 s (setNode g c.x c.y { getNode g c.x c.y with visited := true })
        (pqPop g (c :: rest)) ∧
      (unvisited (setNode g c.x c.y { getNode g c.x c.y with visited := true })).card + 1
        ≤ (unvisited g).card ∧
      (∀ p, p ≠ c →
        (nodeAt (setNode g c.x c.y { getNode g c.x c.y with visited := true }) p).visited =
          (nodeAt g p).visited) ∧
      (nodeAt (setNode g c.x c.y { getNode g c.x c.y with visited := true }) c).visited
        = true := by
  have hc := (inv.os_ok c (List.mem_cons_self _ _))
  generalize hnode : ({ getNode g c.x c.y with visited := true } : Node) = nn
  have nn_vis : nn.visited = true := by rw [← hnode]
  have nn_par : nn.parent = (nodeAt g c).parent := by rw [← hnode]
  have nn_g : nn.g_cost = (nodeAt g c).g_cost := by rw [← hnode]
  have nn_pos : nn.pos = (getNode g c.x c.y).pos := by rw [← hnode]
  have nn_type : nn.type = (getNode g c.x c.y).type := by rw [← hnode]
  have key : ∀ p, nodeAt (setNode g c.x c.y nn) p = if p = c then nn else nodeAt g p := by
    intro p
    rw [nodeAt_setNode]
    by_cases e : p = c
    · rw [if_pos ⟨hc.1, e⟩, if_pos e]
    · rw [if_neg (fun h => e h.2), if_neg e]
  have key_ne : ∀ p, p ≠ c → nodeAt (setNode g c.x c.y nn) p = nodeAt g p := by
    intro p hp
    rw [key, if_neg hp]
  have key_c : nodeAt (setNode g c.x c.y nn) c = nn := by
    rw [key, if_pos rfl]
  have par_eq : ∀ p, (nodeAt (setNode g c.x c.y nn) p).parent = (nodeAt g p).parent := by
    intro p
    by_cases e : p = c
    · subst e
      rw [key_c, nn_par]
    · rw [key_ne p e]
  have g_eq : ∀ p, (nodeAt (setNode g c.x c.y nn) p).g_cost = (nodeAt g p).g_cost := by
    intro p
    by_cases e : p = c
    · subst e
      rw [key_c, nn_g]
    · rw [key_ne p e]
  have vis_mono : ∀ p, (nodeAt g p).visited = true →
      (nodeAt (setNode g c.x c.y nn) p).visited = true := by
    intro p hp
    by_cases e : p = c
    · subst e
      rw [key_c]; exact nn_vis
    · rw [key_ne p e]; exact hp
  have hstat : SameStatic g (setNode g c.x c.y nn) :=
    SameStatic.setNode_static g c.x c.y nn nn_pos nn_type
  have mem_pop : ∀ p, p ∈ pqPop g (c :: rest) ↔ p ∈ rest := fun p =>
    (pqPop_perm g c rest).mem_iff
  have hunv := unvisited_setNode_visit g c nn hc.1 hcv nn_vis
  refine ⟨?_, hunv, fun p hp => by rw [key_ne p hp], ?_⟩
  · constructor
    · exact hstat.wf_of inv.wf
    · exact inv.static.trans_static hstat
    · exact inv.s_valid
    · rw [g_eq]; exact inv.s_g
    · rw [par_eq]; exact inv.s_par
    · left
      rcases inv.s_first with h | ⟨h, _⟩
      · exact vis_mono s h
      · simp only [List.cons.injEq] at h
        rw [← h.1, key_c]
        exact nn_vis
    · intro p hp
      rw [mem_pop] at hp
      rw [par_eq]
      exact inv.os_ok p (List.mem_cons_of_mem _ hp)
    · intro p hp
      rw [g_eq]; exact inv.g_nonneg p hp
    · intro p hp
      rw [g_eq]; exact inv.g_le p hp
    · intro p q hp hpar
      rw [par_eq] at hpar
      obtain ⟨a1, a2, a3, a4, a5⟩ := inv.par_ok p q hp hpar
      exact ⟨a1, vis_mono q a2, a3, a4, by rw [g_eq, g_eq]; exact a5⟩
    · intro p hp hv hps
      rw [par_eq]
      by_cases e : p = c
      · subst e
        rcases hc.2 with h | h
        · exact absurd h hps
        · exact h
      · rw [key_ne p e] at hv
        exact inv.vis_par p hp hv hps
    · intro p hp hv hpar
      have e : p ≠ c := by
        rintro rfl
        rw [key_c, nn_vis] at hv
        exact Bool.noConfusion hv
      rw [key_ne p e] at hv
      rw [par_eq] at hpar
      rw [mem_pop]
      have := inv.os_has p hp hv hpar
      rcases List.mem_cons.mp this with h | h
      · exact absurd h e
      · exact h
    · intro p hp
      rw [g_eq]
      have h2 := inv.g_bound p hp
      by_cases e : p = c
      · subst e
        rw [key_c, nn_vis]
        rw [hcv] at h2
        simp only [Bool.false_eq_true, if_false, if_true] at h2 ⊢
        omega
      · rw [key_ne p e]
        omega
  · rw [key_c]; exact nn_vis


/-- Dropping a popped entry that is already closed keeps the invariant. -/
theorem astarInv_skip {R C : Nat} {B : Nat} {g0 g : Grid R C} {s c : Point}
    {rest : List Point} (inv : AStarInv B g0 s g (c :: rest))
    (hcv : (nodeAt g c).visited = true) : AStarInv B g0 s g (pqPop g (c :: rest)) := by
  have mem_pop : ∀ p, p ∈ pqPop g (c :: rest) ↔ p ∈ rest := fun p =>
    (pqPop_perm g c rest).mem_iff
  constructor
  · exact inv.wf
  · exact inv.static
  · exact inv.s_valid
  · exact inv.s_g
  · exact inv.s_par
  · left
    rcases inv.s_first with h | ⟨_, h⟩
    · exact h
    · have hc := (inv.os_ok c (List.mem_cons_self _ _)).1
      rw [(h c hc).1] at hcv
      exact Bool.noConfusion hcv
  · intro p hp
    rw [mem_pop] at hp
    exact inv.os_ok p (List.mem_cons_of_mem _ hp)
  · exact inv.g_nonneg
  · exact inv.g_le
  · exact inv.par_ok
  · exact inv.vis_par
  · intro p hp hv hpar
    rw [mem_pop]
    rcases List.mem_cons.mp (inv.os_has p hp hv hpar) with h | h
    · subst h
      rw [hcv] at hv
      exact Bool.noConfusion hv
    · exact h
  · exact inv.g_bound

/-- The loop of `runAStar` returns; it leaves the invariant, with the goal closed (found) or
with an empty open set and the goal not closed (not found). -/
theorem astarLoop_spec {R C : Nat} {B : Nat} {g0 : Grid R C} {s t : Point} (fuel : Nat) :
    ∀ (g : Grid R C) (os : List Point), AStarInv B g0 s g os →
      (nodeAt g t).visited = false → 5 * (unvisited g).card + os.length < fuel →
      ∃ b g' os', astarLoop B fuel t g os = some (b, g') ∧ AStarInv B g0 s g' os' ∧
        (b = true → (nodeAt g' t).visited = true ∧ inGrid R C t) ∧
        (b = false → os' = [] ∧ (nodeAt g' t).visited = false) := by
  induction fuel with
  | zero => intro g os _ _ h; omega
  | succ n ih =>
    intro g os inv ht hm
    cases os with
    | nil =>
      exact ⟨false, g, [], by simp [astarLoop], inv, by simp, fun _ => ⟨rfl, ht⟩⟩
    | cons c rest =>
      have hc := inv.os_ok c (List.mem_cons_self _ _)
      have hlen : (pqPop g (c :: rest)).length = rest.length :=
        (pqPop_perm g c rest).length_eq
      by_cases hcv : (nodeAt g c).visited = true
      · have hcv' : (getNode g c.x c.y).visited = true := hcv
        have inv' := astarInv_skip inv hcv
        obtain ⟨b, g', os', e, r1, r2, r3⟩ := ih g _ inv' ht (by
          rw [hlen]
          simp only [List.length_cons] at hm
          omega)
        refine ⟨b, g', os', ?_, r1, r2, r3⟩
        rw [← e]
        simp only [astarLoop, hcv', if_true]
      · have hcv0 : (nodeAt g c).visited = false := by simpa using hcv
        have hcv' : (getNode g c.x c.y).visited = false := hcv0
        obtain ⟨inv1, u1, v1, vc⟩ := astarInv_close inv hcv0
        have hpos : (getNode (setNode g c.x c.y { getNode g c.x c.y with visited := true })
            c.x c.y).pos = c := inv1.wf.pos_eq hc.1
        by_cases hg : c = t
        · subst hg
          refine ⟨true, _, _, ?_, inv1, fun _ => ⟨vc, hc.1⟩, by simp⟩
          simp only [astarLoop, hcv', Bool.false_eq_true, if_false, hpos, if_true]
        · obtain ⟨i2, u2, m2, v2⟩ := relaxFold_inv (t := t) hc.1 [0, 1, 2, 3]
            (setNode g c.x c.y { getNode g c.x c.y with visited := true }, pqPop g (c :: rest))
            inv1 vc
          have ht2 : (nodeAt ([0, 1, 2, 3].foldl (relaxNeighbor B t c)
              (setNode g c.x c.y { getNode g c.x c.y with visited := true },
                pqPop g (c :: rest))).1 t).visited = false := by
            rw [v2, v1 t (Ne.symm hg)]
            exact ht
          obtain ⟨b, g', os', e, r1, r2, r3⟩ := ih _ _ i2 ht2 (by
            rw [u2]
            dsimp only at m2 u1 ⊢
            rw [hlen] at m2
            simp only [List.length_cons, List.length_nil] at hm m2
            omega)
          refine ⟨b, g', os', ?_, r1, r2, r3⟩
          rw [← e]
          simp only [astarLoop, hcv', Bool.false_eq_true, if_false, hpos, if_neg hg]

/-- The state `runAStar` enters its loop with satisfies the invariant. -/
theorem astarInv_init {R C : Nat} (B : Nat) (g : Grid R C) (s : Point) (hc : Int) (w : WF g)
    (hs : inGrid R C s) :
    AStarInv B g s
      (setNode (resetGridState g) s.x s.y
        { getNode (resetGridState g) s.x s.y with g_cost := 0, h_cost := hc, f_cost := 0 + hc })
      [s] := by
  generalize hnode : ({ getNode (resetGridState g) s.x s.y with
    g_cost := 0, h_cost := hc, f_cost := 0 + hc } : Node) = nn
  have nn_vis : nn.visited = false := by rw [← hnode]; exact (nodeAt_reset g s).1
  have nn_par : nn.parent = none := by rw [← hnode]; exact (nodeAt_reset g s).2.1
  have nn_g : nn.g_cost = 0 := by rw [← hnode]
  have nn_pos : nn.pos = (getNode (resetGridState g) s.x s.y).pos := by rw [← hnode]
  have nn_type : nn.type = (getNode (resetGridState g) s.x s.y).type := by rw [← hnode]
  have hstat : SameStatic g (setNode (resetGridState g) s.x s.y nn) :=
    (resetGridState_static g).trans_static (SameStatic.setNode_static _ _ _ _ nn_pos nn_type)
  have key : ∀ p, nodeAt (setNode (resetGridState g) s.x s.y nn) p =
      if p = s then nn else nodeAt (resetGridState g) p := by
    intro p
    rw [nodeAt_setNode]
    by_cases e : p = s
    · rw [if_pos ⟨hs, e⟩, if_pos e]
    · rw [if_neg (fun h => e h.2), if_neg e]
  have hvis : ∀ p, (nodeAt (setNode (resetGridState g) s.x s.y nn) p).visited = false := by
    intro p
    rw [key]
    split
    · exact nn_vis
    · exact (nodeAt_reset g p).1
  have hpar : ∀ p, (nodeAt (setNode (resetGridState g) s.x s.y nn) p).parent = none := by
    intro p
    rw [key]
    split
    · exact nn_par
    · exact (nodeAt_reset g p).2.1
  have hg : ∀ p, (nodeAt (setNode (resetGridState g) s.x s.y nn) p).g_cost = 0 := by
    intro p
    rw [key]
    split
    · exact nn_g
    · exact (nodeAt_reset g p).2.2.1
  constructor
  · exact hstat.wf_of w
  · exact hstat
  · exact hs
  · exact hg s
  · exact hpar s
  · exact Or.inr ⟨rfl, fun p _ => ⟨hvis p, hpar p⟩⟩
  · intro p hp
    rw [List.mem_singleton] at hp
    subst hp
    exact ⟨hs, Or.inl rfl⟩
  · intro p _
    rw [hg]
  · intro p _
    rw [hg]
    exact Int.ofNat_nonneg B
  · intro p q _ h
    rw [hpar] at h
    exact Option.noConfusion h
  · intro p _ h
    rw [hvis] at h
    exact Bool.noConfusion h
  · intro p _ _ h
    exact absurd (hpar p) h
  · intro p _
    rw [hg, hvis]
    have := unvisited_card_le (setNode (resetGridState g) s.x s.y nn)
    simp only [Bool.false_eq_true, if_false]
    omega

/-- Run summary of `runAStar`: it returns, with the invariant on the final grid. -/
theorem runAStar_spec {R C : Nat} (B : Nat) (g : Grid R C) (s t : Point) (w : WF g)
    (hs : inGrid R C s) :
    ∃ b g' os, runAStar B s t g = some (b, g') ∧ AStarInv B g s g' os ∧
      (b = true → (nodeAt g' t).visited = true ∧ inGrid R C t) ∧
      (b = false → os = [] ∧ (nodeAt g' t).visited = false) := by
  have inv := astarInv_init B g s
    (calculateHeuristic (getNode (resetGridState g) s.x s.y).pos t) w hs
  have ht : (nodeAt (setNode (resetGridState g) s.x s.y
      { getNode (resetGridState g) s.x s.y with
        g_cost := 0,
        h_cost := calculateHeuristic (getNode (resetGridState g) s.x s.y).pos t,
        f_cost := 0 + calculateHeuristic (getNode (resetGridState g) s.x s.y).pos t })
      t).visited = false := by
    rcases inv.s_first with h | ⟨_, h⟩
    · rw [nodeAt_setNode_same _ _ _ hs] at h
      have := (nodeAt_reset g s).1
      simp only [nodeAt] at this
      rw [this] at h
      exact Bool.noConfusion h
    · by_cases e : t = s
      · subst e
        exact (h t hs).1
      · rw [nodeAt_setNode_ne _ _ _ _ e]
        exact (nodeAt_reset g t).1
  have hm : 5 * (unvisited (setNode (resetGridState g) s.x s.y
      { getNode (resetGridState g) s.x s.y with
        g_cost := 0,
        h_cost := calculateHeuristic (getNode (resetGridState g) s.x s.y).pos t,
        f_cost := 0 + calculateHeuristic (getNode (resetGridState g) s.x s.y).pos t })).card +
      [s].length < 5 * (R * C) + 2 := by
    have := unvisited_card_le (setNode (resetGridState g) s.x s.y
      { getNode (resetGridState g) s.x s.y with
        g_cost := 0,
        h_cost := calculateHeuristic (getNode (resetGridState g) s.x s.y).pos t,
        f_cost := 0 + calculateHeuristic (getNode (resetGridState g) s.x s.y).pos t })
    simp only [List.length_singleton]
    dsimp only at this
    omega
  obtain ⟨b, g', os', e, r⟩ := astarLoop_spec (5 * (R * C) + 2) _ _ inv ht hm
  refine ⟨b, g', os', ?_, r⟩
  rw [← e]
  simp only [runAStar, pqPush_nil]

/-- The parent links of a cell that is the start or has a parent trace a route from the start
without repetition, all of whose cells but the last are closed. -/
theorem astar_chain {R C : Nat} {B : Nat} {g0 g : Grid R C} {s : Point} {os : List Point}
    (inv : AStarInv B g0 s g os) (p : Point) (hp : inGrid R C p)
    (hgood : p = s ∨ (nodeAt g p).parent ≠ none) :
    ∃ l, RouteFromTo g0 s p l ∧ (l.length : Int) ≤ (nodeAt g p).g_cost + 1 ∧
      (∀ fuel acc, l.length ≤ fuel →
        getPathLoop g fuel (some p) acc = some (acc ++ l.reverse)) ∧
      l.Nodup ∧ (∀ x ∈ l, x = p ∨ (nodeAt g x).visited = true) := by
  have hG : ∀ p, (inGrid R C p ∧ (p = s ∨ (nodeAt g p).parent ≠ none)) → inGrid R C p ∧
      ((p = s ∧ (nodeAt g p).parent = none) ∨
        ∃ q, (nodeAt g p).parent = some q ∧
          ((inGrid R C q ∧ (q = s ∨ (nodeAt g q).parent ≠ none)) ∧
            (nodeAt g q).visited = true) ∧
          StepTo q p ∧ Free g0 p ∧ (nodeAt g q).g_cost.toNat < (nodeAt g p).g_cost.toNat ∧
          (False → (nodeAt g p).g_cost.toNat = (nodeAt g q).g_cost.toNat + 1)) := by
    rintro p ⟨h1, h2⟩
    refine ⟨h1, ?_⟩
    by_cases e : p = s
    · subst e
      exact Or.inl ⟨rfl, inv.s_par⟩
    · have hne : (nodeAt g p).parent ≠ none := by
        rcases h2 with h | h
        · exact absurd h e
        · exact h
      obtain ⟨q, hq⟩ := Option.ne_none_iff_exists'.mp hne
      obtain ⟨a1, a2, a3, a4, a5⟩ := inv.par_ok p q h1 hq
      have := inv.g_nonneg q a1
      have hq' : q = s ∨ (nodeAt g q).parent ≠ none := by
        by_cases e' : q = s
        · exact Or.inl e'
        · exact Or.inr (inv.vis_par q a1 a2 e')
      exact Or.inr ⟨q, hq, ⟨⟨a1, hq'⟩, a2⟩, a3, a4, by omega, fun h => h.elim⟩
  obtain ⟨l, hr, hlen, _, hloop, hnd, _, hV⟩ := chain_route False g0 g s
    (fun p => (nodeAt g p).g_cost.toNat)
    (fun p => inGrid R C p ∧ (p = s ∨ (nodeAt g p).parent ≠ none))
    (fun p => (nodeAt g p).visited = true) inv.wf hG (fun h => h.elim)
    ((nodeAt g p).g_cost.toNat) p ⟨hp, hgood⟩ (le_refl _)
  have hnn := inv.g_nonneg p hp
  exact ⟨l, hr, by omega, hloop, hnd, hV⟩

/-- On a closed cell, `getPath` returns a route from the start, without repetition, with at
most `g_cost + 1` cells. -/
theorem astar_getPath {R C : Nat} {B : Nat} {g0 g : Grid R C} {s : Point} {os : List Point}
    (inv : AStarInv B g0 s g os) (p : Point) (hp : inGrid R C p)
    (hv : (nodeAt g p).visited = true) :
    ∃ l, getPath p g = some l ∧ RouteFromTo g0 s p l ∧
      (l.length : Int) ≤ (nodeAt g p).g_cost + 1 ∧ l.Nodup := by
  have hgood : p = s ∨ (nodeAt g p).parent ≠ none := by
    by_cases e : p = s
    · exact Or.inl e
    · exact Or.inr (inv.vis_par p hp hv e)
  obtain ⟨l, hr, hlen, hloop, hnd, _⟩ := astar_chain inv p hp hgood
  have hb := inv.g_bound p hp
  rw [hv] at hb
  simp only [if_true] at hb
  refine ⟨l, ?_, hr, hlen, hnd⟩
  have hv' : (getNode g p.x p.y).visited = true := hv
  unfold getPath
  simp only [hv', Bool.not_true, Bool.false_and, Bool.false_eq_true, if_false]
  rw [hloop (R * C) [] (by omega)]
  simp

/-! ## Consequences of the invariants -/

theorem foundOf_some {R C : Nat} (b : Bool) (g : Grid R C) : foundOf (some (b, g)) = some b :=
  rfl

theorem pathOf_some {R C : Nat} (t : Point) (b : Bool) (g : Grid R C) :
    pathOf t (some (b, g)) = getPath t g :=
  rfl

/-- A route starts with its first cell. -/
theorem route_cases {R C : Nat} {g : Grid R C} {s t : Point} {l : List Point}
    (h : RouteFromTo g s t l) :
    ∃ l', l = s :: l' ∧ List.Chain (fun p q => StepTo p q ∧ Free g q) s l' ∧
      (s :: l').getLast (List.cons_ne_nil s l') = t := by
  obtain ⟨hh, hl, hc⟩ := h
  cases l with
  | nil => simp at hh
  | cons a l' =>
    simp only [List.head?_cons, Option.some.injEq] at hh
    subst hh
    refine ⟨l', rfl, (isRoute_iff_chain' g _).mp hc, ?_⟩
    rw [List.getLast?_eq_getLast _ (List.cons_ne_nil a l')] at hl
    exact Option.some.inj hl

/-- In the FIFO search, when the goal is at the head of the queue no route to it is shorter
than its depth. -/
theorem bfs_walk {R C : Nat} {g0 g : Grid R C} {s t : Point} {rest : List Point}
    {d : Point → Nat} (inv : SearchInv True g0 s t g (t :: rest) d) :
    ∀ (l : List Point) (p : Point) (i : Nat),
      List.Chain (fun a b => StepTo a b ∧ Free g0 b) p l →
      (d t ≤ i ∨ (inGrid R C p ∧ (nodeAt g p).visited = true ∧ d p ≤ i)) →
      (d t ≤ i + l.length ∨
        d ((p :: l).getLast (List.cons_ne_nil p l)) ≤ i + l.length) := by
  intro l
  induction l with
  | nil =>
    intro p i _ h
    rcases h with h | ⟨_, _, h⟩
    · exact Or.inl (by simpa using h)
    · exact Or.inr (by simpa using h)
  | cons a l' ih =>
    intro p i hc h
    rw [List.chain_cons] at hc
    obtain ⟨⟨hstep, hfree⟩, hc'⟩ := hc
    have hnext : d t ≤ i + 1 ∨ (inGrid R C a ∧ (nodeAt g a).visited = true ∧ d a ≤ i + 1) := by
      rcases h with h | ⟨hp, hv, hd⟩
      · exact Or.inl (by omega)
      · by_cases hlt : d t ≤ i
        · exact Or.inl (by omega)
        · have hpe : p ∉ t :: rest := by
            intro hmem
            have hsort := List.pairwise_cons.mp (inv.sorted trivial)
            rcases List.mem_cons.mp hmem with rfl | hm
            · omega
            · have := hsort.1 p hm
              omega
          have h1 := (inv.done_ok p hp hv hpe).2 a hstep hfree
          have h2 := inv.done_nb trivial p hp hv hpe a hstep hfree
          exact Or.inr ⟨hfree.1, h1, by omega⟩
    have := ih a (i + 1) hc' hnext
    simp only [List.length_cons]
    rw [List.getLast_cons (List.cons_ne_nil a l')]
    rcases this with h | h
    · exact Or.inl (by omega)
    · exact Or.inr (by omega)

theorem bfs_shortest {R C : Nat} {g0 g : Grid R C} {s t : Point} {rest : List Point}
    {d : Point → Nat} (inv : SearchInv True g0 s t g (t :: rest) d) (l : List Point)
    (hl : RouteFromTo g0 s t l) : d t + 1 ≤ l.length := by
  obtain ⟨l', rfl, hc, hlast⟩ := route_cases hl
  have := bfs_walk inv l' s 0 hc (Or.inr ⟨inv.s_valid, inv.s_vis, by rw [inv.s_d]⟩)
  rw [hlast] at this
  simp only [List.length_cons]
  omega

/-- With an empty frontier, every cell a route from the start leads to is visited. -/
theorem search_closed {R C : Nat} {ord : Prop} {g0 g : Grid R C} {s t : Point}
    {d : Point → Nat} (inv : SearchInv ord g0 s t g [] d) :
    ∀ (l : List Point) (p : Point),
      List.Chain (fun a b => StepTo a b ∧ Free g0 b) p l →
      inGrid R C p → (nodeAt g p).visited = true →
      inGrid R C ((p :: l).getLast (List.cons_ne_nil p l)) ∧
        (nodeAt g ((p :: l).getLast (List.cons_ne_nil p l))).visited = true := by
  intro l
  induction l with
  | nil =>
    intro p _ hp hv
    exact ⟨by simpa using hp, by simpa using hv⟩
  | cons a l' ih =>
    intro p hc hp hv
    rw [List.chain_cons] at hc
    obtain ⟨⟨hstep, hfree⟩, hc'⟩ := hc
    have h1 := (inv.done_ok p hp hv (List.not_mem_nil p)).2 a hstep hfree
    rw [List.getLast_cons (List.cons_ne_nil a l')]
    exact ih a hc' hfree.1 h1

/-- The uninformed searches find every reachable goal. -/
theorem search_complete {R C : Nat} {ord : Prop} {g0 g : Grid R C} {s t : Point}
    {d : Point → Nat} (inv : SearchInv ord g0 s t g [] d) : ¬ Reachable g0 s t := by
  rintro ⟨l, hl⟩
  obtain ⟨l', rfl, hc, hlast⟩ := route_cases hl
  have := search_closed inv l' s hc inv.s_valid inv.s_vis
  rw [hlast] at this
  exact (inv.done_ok t this.1 this.2 (List.not_mem_nil t)).1 rfl

/-- With an empty frontier the goal is not visited. -/
theorem search_goal_unvisited {R C : Nat} {ord : Prop} {g0 g : Grid R C} {s t : Point}
    {d : Point → Nat} (inv : SearchInv ord g0 s t g [] d) (ht : inGrid R C t) :
    (nodeAt g t).visited = false := by
  by_contra h
  have hv : (nodeAt g t).visited = true := by simpa using h
  exact (inv.done_ok t ht hv (List.not_mem_nil t)).1 rfl

/-- Summary of a run of `runBFS` or `runDFS` in terms of what a caller observes. -/
theorem search_outcome {R C : Nat} {ord : Prop} {g0 g' : Grid R C} {s t : Point}
    {ext : List Point} {d : Point → Nat} {b : Bool} (ht : inGrid R C t)
    (inv : SearchInv ord g0 s t g' ext d)
    (h1 : b = true → ∃ rest, ext = t :: rest) (h2 : b = false → ext = []) :
    (b = true → ∃ l, getPath t g' = some l ∧ RouteFromTo g0 s t l ∧ l.length = d t + 1 ∧
      l.Nodup) ∧
    (b = false → ¬ Reachable g0 s t ∧
      getPath t g' = if (nodeAt g0 t).type = CellType.START then some [t] else some []) := by
  constructor
  · intro hb
    obtain ⟨rest, rfl⟩ := h1 hb
    have hv := (inv.ext_ok t (List.mem_cons_self _ _)).2
    exact search_getPath inv t ht hv
  · intro hb
    have he := h2 hb
    subst he
    have hv := search_goal_unvisited inv ht
    refine ⟨search_complete inv, ?_⟩
    rw [getPath_unvisited g' t inv.wf ht hv (inv.unv_par t ht hv)]
    have : (nodeAt g' t).type = (nodeAt g0 t).type := inv.static.nodeAt_type t.x t.y
    rw [this]

/-- Summary of a run of `runAStar` in terms of what a caller observes. -/
theorem astar_outcome {R C : Nat} {B : Nat} {g0 g' : Grid R C} {s t : Point}
    {os : List Point} {b : Bool} (ht : inGrid R C t) (inv : AStarInv B g0 s g' os)
    (h1 : b = true → (nodeAt g' t).visited = true ∧ inGrid R C t)
    (h2 : b = false → os = [] ∧ (nodeAt g' t).visited = false) :
    (b = true → ∃ l, getPath t g' = some l ∧ RouteFromTo g0 s t l ∧
      (l.length : Int) ≤ (nodeAt g' t).g_cost + 1 ∧ (nodeAt g' t).g_cost ≤ (B : Int) ∧
      l.Nodup) ∧
    (b = false →
      getPath t g' = if (nodeAt g0 t).type = CellType.START then some [t] else some []) := by
  constructor
  · intro hb
    obtain ⟨l, a1, a2, a3, a4⟩ := astar_getPath inv t ht (h1 hb).1
    exact ⟨l, a1, a2, a3, inv.g_le t ht, a4⟩
  · intro hb
    obtain ⟨he, hv⟩ := h2 hb
    subst he
    have hpar : (nodeAt g' t).parent = none := by
      by_contra h
      exact List.not_mem_nil t (inv.os_has t ht hv h)
    rw [getPath_unvisited g' t inv.wf ht hv hpar]
    have : (nodeAt g' t).type = (nodeAt g0 t).type := inv.static.nodeAt_type t.x t.y
    rw [this]

/-! ## Well-formed concrete grids -/

theorem WF_initGrid (R C : Nat) : WF (initGrid R C) :=
  fun _ _ => rfl

theorem WF_gridWith (R C : Nat) (obs : List (Int × Int)) : WF (gridWith R C obs) :=
  fun _ _ => rfl

theorem WF.setNode_wf {R C : Nat} {g : Grid R C} (w : WF g) (r c : Int) (n : Node)
    (hp : n.pos = (getNode g r c).pos) : WF (setNode g r c n) := by
  intro i j
  rw [setNode_apply]
  split
  · rename_i e
    obtain ⟨rfl, rfl⟩ := e
    rw [hp, getNode_fin]
    exact w i j
  · exact w i j

theorem WF.setObstacle_wf {R C : Nat} {g : Grid R C} (w : WF g) (r c : Int) :
    WF (setObstacle g r c) := by
  unfold Warehouse.setObstacle
  split
  · exact w.setNode_wf r c _ rfl
  · exact w

theorem WF.setStart_wf {R C : Nat} {g : Grid R C} (w : WF g) (p : Point) : WF (setStart g p) :=
  w.setNode_wf p.x p.y _ rfl

theorem WF_walledGrid : WF walledGrid :=
  (((WF_initGrid ROWS COLS).setObstacle_wf 0 1).setObstacle_wf 1 0).setStart_wf ⟨2, 2⟩

theorem WF_blockedStartGrid : WF blockedStartGrid :=
  (WF_initGrid ROWS COLS).setObstacle_wf 0 0

/-! ## Claims about `runBFS`, `runDFS`, `runAStar` and `getPath` -/

/-- C1: on every well-formed grid and every in-bounds start and goal, when `runBFS` returns
true the sequence `getPath(goal)` returns right after it is a route from start to goal, and no
route from start to goal (consecutive cells one step apart, every cell after the first in
bounds and not an obstacle) has fewer cells. -/
theorem bfs_path_is_shortest {R C : Nat} (g : Grid R C) (s t : Point) (w : WF g)
    (hs : inGrid R C s) (ht : inGrid R C t) (hfound : foundOf (runBFS s t g) = some true) :
    ∃ path, pathOf t (runBFS s t g) = some path ∧ RouteFromTo g s t path ∧
      ∀ l, RouteFromTo g s t l → path.length ≤ l.length := by
  obtain ⟨b, g', d, ext, e, inv, h1, h2⟩ := runBFS_spec g s t w hs
  rw [e, foundOf_some] at hfound
  have hb : b = true := Option.some.inj hfound
  obtain ⟨l, a1, a2, a3, _⟩ := (search_outcome ht inv h1 h2).1 hb
  obtain ⟨rest, rfl⟩ := h1 hb
  refine ⟨l, by rw [e, pathOf_some]; exact a1, a2, ?_⟩
  intro l' hl'
  have := bfs_shortest inv l' hl'
  omega

/-- Witness of C1 on the 3 × 3 grid with an obstacle in the middle. -/
theorem bfs_path_is_shortest_witness :
    WF (gridWith 3 3 [(1, 1)]) ∧ inGrid 3 3 ⟨0, 0⟩ ∧ inGrid 3 3 ⟨2, 2⟩ ∧
    foundOf (runBFS ⟨0, 0⟩ ⟨2, 2⟩ (gridWith 3 3 [(1, 1)])) = some true ∧
    ∃ path, pathOf ⟨2, 2⟩ (runBFS ⟨0, 0⟩ ⟨2, 2⟩ (gridWith 3 3 [(1, 1)])) = some path ∧
      RouteFromTo (gridWith 3 3 [(1, 1)]) ⟨0, 0⟩ ⟨2, 2⟩ path ∧
      ∀ l, RouteFromTo (gridWith 3 3 [(1, 1)]) ⟨0, 0⟩ ⟨2, 2⟩ l → path.length ≤ l.length :=
  ⟨WF_gridWith 3 3 _, by decide, by decide, by decide,
    bfs_path_is_shortest _ _ _ (WF_gridWith 3 3 _) (by decide) (by decide) (by decide)⟩

/-- C5: for each of `runBFS`, `runDFS` and `runAStar` (any ceiling), when the run returns true
the sequence `getPath(goal)` returns right after it starts with the start, ends with the goal,
moves one step up, down, left or right between consecutive positions, and every position
after the first is in bounds and not an obstacle. -/
theorem found_path_is_route {R C : Nat} (g : Grid R C) (s t : Point) (w : WF g)
    (hs : inGrid R C s) (ht : inGrid R C t) :
    (foundOf (runBFS s t g) = some true →
      ∃ path, pathOf t (runBFS s t g) = some path ∧ RouteFromTo g s t path) ∧
    (foundOf (runDFS s t g) = some true →
      ∃ path, pathOf t (runDFS s t g) = some path ∧ RouteFromTo g s t path) ∧
    (∀ B, foundOf (runAStar B s t g) = some true →
      ∃ path, pathOf t (runAStar B s t g) = some path ∧ RouteFromTo g s t path) := by
  refine ⟨?_, ?_, ?_⟩
  · intro hfound
    obtain ⟨b, g', d, ext, e, inv, h1, h2⟩ := runBFS_spec g s t w hs
    rw [e, foundOf_some] at hfound
    obtain ⟨l, a1, a2, _⟩ := (search_outcome ht inv h1 h2).1 (Option.some.inj hfound)
    exact ⟨l, by rw [e, pathOf_some]; exact a1, a2⟩
  · intro hfound
    obtain ⟨b, g', d, ext, e, inv, h1, h2⟩ := runDFS_spec g s t w hs
    rw [e, foundOf_some] at hfound
    obtain ⟨l, a1, a2, _⟩ := (search_outcome ht inv h1 h2).1 (Option.some.inj hfound)
    exact ⟨l, by rw [e, pathOf_some]; exact a1, a2⟩
  · intro B hfound
    obtain ⟨b, g', os, e, inv, h1, h2⟩ := runAStar_spec B g s t w hs
    rw [e, foundOf_some] at hfound
    obtain ⟨l, a1, a2, _⟩ := (astar_outcome ht inv h1 h2).1 (Option.some.inj hfound)
    exact ⟨l, by rw [e, pathOf_some]; exact a1, a2⟩

/-- Witness of C5 on the 3 × 3 grid with an obstacle in the middle. -/
theorem found_path_is_route_witness :
    WF (gridWith 3 3 [(1, 1)]) ∧ inGrid 3 3 ⟨0, 0⟩ ∧ inGrid 3 3 ⟨2, 2⟩ ∧
    foundOf (runBFS ⟨0, 0⟩ ⟨2, 2⟩ (gridWith 3 3 [(1, 1)])) = some true ∧
    foundOf (runDFS ⟨0, 0⟩ ⟨2, 2⟩ (gridWith 3 3 [(1, 1)])) = some true ∧
    foundOf (runAStar 9 ⟨0, 0⟩ ⟨2, 2⟩ (gridWith 3 3 [(1, 1)])) = some true ∧
    ((foundOf (runBFS ⟨0, 0⟩ ⟨2, 2⟩ (gridWith 3 3 [(1, 1)])) = some true →
      ∃ path, pathOf ⟨2, 2⟩ (runBFS ⟨0, 0⟩ ⟨2, 2⟩ (gridWith 3 3 [(1, 1)])) = some path ∧
        RouteFromTo (gridWith 3 3 [(1, 1)]) ⟨0, 0⟩ ⟨2, 2⟩ path) ∧
    (foundOf (runDFS ⟨0, 0⟩ ⟨2, 2⟩ (gridWith 3 3 [(1, 1)])) = some true →
      ∃ path, pathOf ⟨2, 2⟩ (runDFS ⟨0, 0⟩ ⟨2, 2⟩ (gridWith 3 3 [(1, 1)])) = some path ∧
        RouteFromTo (gridWith 3 3 [(1, 1)]) ⟨0, 0⟩ ⟨2, 2⟩ path) ∧
    (∀ B, foundOf (runAStar B ⟨0, 0⟩ ⟨2, 2⟩ (gridWith 3 3 [(1, 1)])) = some true →
      ∃ path, pathOf ⟨2, 2⟩ (runAStar B ⟨0, 0⟩ ⟨2, 2⟩ (gridWith 3 3 [(1, 1)])) = some path ∧
        RouteFromTo (gridWith 3 3 [(1, 1)]) ⟨0, 0⟩ ⟨2, 2⟩ path)) :=
  ⟨WF_gridWith 3 3 _, by decide, by decide, by decide, by decide, by decide,
    found_path_is_route _ _ _ (WF_gridWith 3 3 _) (by decide) (by decide)⟩

/-- C6: on every well-formed grid and every in-bounds start and goal, if some route leads from
start to goal (every cell after the first in bounds and not an obstacle), `runBFS` returns
true and `runDFS` returns true. -/
theorem uninformed_complete {R C : Nat} (g : Grid R C) (s t : Point) (w : WF g)
    (hs : inGrid R C s) (ht : inGrid R C t) (hr : Reachable g s t) :
    foundOf (runBFS s t g) = some true ∧ foundOf (runDFS s t g) = some true := by
  constructor
  · obtain ⟨b, g', d, ext, e, inv, h1, h2⟩ := runBFS_spec g s t w hs
    rw [e, foundOf_some]
    cases b with
    | true => rfl
    | false => exact absurd hr ((search_outcome ht inv h1 h2).2 rfl).1
  · obtain ⟨b, g', d, ext, e, inv, h1, h2⟩ := runDFS_spec g s t w hs
    rw [e, foundOf_some]
    cases b with
    | true => rfl
    | false => exact absurd hr ((search_outcome ht inv h1 h2).2 rfl).1

/-- Witness of C6 on the 3 × 3 grid with an obstacle in the middle. -/
theorem uninformed_complete_witness :
    WF (gridWith 3 3 [(1, 1)]) ∧ inGrid 3 3 ⟨0, 0⟩ ∧ inGrid 3 3 ⟨2, 2⟩ ∧
    Reachable (gridWith 3 3 [(1, 1)]) ⟨0, 0⟩ ⟨2, 2⟩ ∧
    foundOf (runBFS ⟨0, 0⟩ ⟨2, 2⟩ (gridWith 3 3 [(1, 1)])) = some true ∧
    foundOf (runDFS ⟨0, 0⟩ ⟨2, 2⟩ (gridWith 3 3 [(1, 1)])) = some true :=
  ⟨WF_gridWith 3 3 _, by decide, by decide,
    ⟨[⟨0, 0⟩, ⟨0, 1⟩, ⟨0, 2⟩, ⟨1, 2⟩, ⟨2, 2⟩], by decide⟩,
    uninformed_complete _ _ _ (WF_gridWith 3 3 _) (by decide) (by decide)
      ⟨[⟨0, 0⟩, ⟨0, 1⟩, ⟨0, 2⟩, ⟨1, 2⟩, ⟨2, 2⟩], by decide⟩⟩

set_option maxRecDepth 100000

theorem route_ne_nil {R C : Nat} {g : Grid R C} {s t : Point} {l : List Point}
    (h : RouteFromTo g s t l) : l ≠ [] := by
  rintro rfl
  simp [RouteFromTo] at h

/-- Outcome of `runBFS` / `runDFS` (whichever `r` is the result of) as a caller sees it. -/
theorem search_observed {R C : Nat} {ord : Prop} {g g' : Grid R C} {s t : Point}
    {ext : List Point} {d : Point → Nat} {b : Bool} (ht : inGrid R C t)
    (inv : SearchInv ord g s t g' ext d)
    (h1 : b = true → ∃ rest, ext = t :: rest) (h2 : b = false → ext = []) :
    (getPath t g' = some [] ↔ (b = false ∧ (nodeAt g t).type ≠ CellType.START)) ∧
    (Reachable g s t ↔ b = true) := by
  have ho := search_outcome ht inv h1 h2
  cases b with
  | true =>
    obtain ⟨l, a1, a2, _⟩ := ho.1 rfl
    refine ⟨?_, ?_⟩
    · rw [a1]
      constructor
      · intro h
        exact absurd (Option.some.inj h) (route_ne_nil a2)
      · rintro ⟨h, _⟩
        exact Bool.noConfusion h
    · exact ⟨fun _ => rfl, fun _ => ⟨l, a2⟩⟩
  | false =>
    obtain ⟨a1, a2⟩ := ho.2 rfl
    refine ⟨?_, ?_⟩
    · rw [a2]
      by_cases hty : (nodeAt g t).type = CellType.START
      · simp [hty]
      · simp [hty]
    · exact ⟨fun h => absurd h a1, fun h => Bool.noConfusion h⟩

/-- Outcome of `runAStar` as a caller sees it. -/
theorem astar_observed {R C : Nat} {B : Nat} {g g' : Grid R C} {s t : Point}
    {os : List Point} {b : Bool} (ht : inGrid R C t) (inv : AStarInv B g s g' os)
    (h1 : b = true → (nodeAt g' t).visited = true ∧ inGrid R C t)
    (h2 : b = false → os = [] ∧ (nodeAt g' t).visited = false) :
    (getPath t g' = some [] ↔ (b = false ∧ (nodeAt g t).type ≠ CellType.START)) ∧
    (b = true → Reachable g s t) := by
  have ho := astar_outcome ht inv h1 h2
  cases b with
  | true =>
    obtain ⟨l, a1, a2, _⟩ := ho.1 rfl
    refine ⟨?_, fun _ => ⟨l, a2⟩⟩
    rw [a1]
    constructor
    · intro h
      exact absurd (Option.some.inj h) (route_ne_nil a2)
    · rintro ⟨h, _⟩
      exact Bool.noConfusion h
  | false =>
    have a2 := ho.2 rfl
    refine ⟨?_, fun h => Bool.noConfusion h⟩
    rw [a2]
    by_cases hty : (nodeAt g t).type = CellType.START
    · simp [hty]
    · simp [hty]

/-- C7 (amended): on every well-formed grid and every in-bounds start and goal such that no
route leads from start to goal (every cell after the first in bounds and not an obstacle),
`runBFS`, `runDFS` and `runAStar` (any ceiling) return false, and `getPath(goal)` after each of
them returns the empty sequence when the goal cell is not of type `START`, and the one-cell
sequence `[goal]` when it is. -/
theorem separated_goal_not_found {R C : Nat} (g : Grid R C) (s t : Point) (w : WF g)
    (hs : inGrid R C s) (ht : inGrid R C t) (hsep : ¬ Reachable g s t) :
    (foundOf (runBFS s t g) = some false ∧
      pathOf t (runBFS s t g) =
        some (if (nodeAt g t).type = CellType.START then [t] else [])) ∧
    (foundOf (runDFS s t g) = some false ∧
      pathOf t (runDFS s t g) =
        some (if (nodeAt g t).type = CellType.START then [t] else [])) ∧
    (∀ B, foundOf (runAStar B s t g) = some false ∧
      pathOf t (runAStar B s t g) =
        some (if (nodeAt g t).type = CellType.START then [t] else [])) := by
  refine ⟨?_, ?_, ?_⟩
  · obtain ⟨b, g', d, ext, e, inv, h1, h2⟩ := runBFS_spec g s t w hs
    have ho := search_outcome ht inv h1 h2
    have hb : b = false := by
      cases hb : b with
      | false => rfl
      | true =>
        obtain ⟨l, _, a2, _⟩ := ho.1 hb
        exact absurd ⟨l, a2⟩ hsep
    rw [e, foundOf_some, pathOf_some, hb, (ho.2 hb).2]
    refine ⟨rfl, ?_⟩
    split <;> rfl
  · obtain ⟨b, g', d, ext, e, inv, h1, h2⟩ := runDFS_spec g s t w hs
    have ho := search_outcome ht inv h1 h2
    have hb : b = false := by
      cases hb : b with
      | false => rfl
      | true =>
        obtain ⟨l, _, a2, _⟩ := ho.1 hb
        exact absurd ⟨l, a2⟩ hsep
    rw [e, foundOf_some, pathOf_some, hb, (ho.2 hb).2]
    refine ⟨rfl, ?_⟩
    split <;> rfl
  · intro B
    obtain ⟨b, g', os, e, inv, h1, h2⟩ := runAStar_spec B g s t w hs
    have ho := astar_outcome ht inv h1 h2
    have hb : b = false := by
      cases hb : b with
      | false => rfl
      | true =>
        obtain ⟨l, _, a2, _⟩ := ho.1 hb
        exact absurd ⟨l, a2⟩ hsep
    rw [e, foundOf_some, pathOf_some, hb, ho.2 hb]
    refine ⟨rfl, ?_⟩
    split <;> rfl

/-- No route leaves a start whose four neighbours are all blocked. -/
theorem not_reachable_of_walled {R C : Nat} (g : Grid R C) (s t : Point) (hst : s ≠ t)
    (hw : ∀ i, i < 4 → ¬ Free g ⟨s.x + dx i, s.y + dy i⟩) : ¬ Reachable g s t := by
  rintro ⟨l, hl⟩
  obtain ⟨l', rfl, hc, hlast⟩ := route_cases hl
  cases l' with
  | nil => exact hst (by simpa using hlast)
  | cons a l'' =>
    rw [List.chain_cons] at hc
    obtain ⟨i, hi, rfl⟩ := stepTo_exists_dir hc.1.1
    exact hw i hi hc.1.2

/-- A sequence of free cells one step apart is a route. -/
theorem isRoute_of_free {R C : Nat} (g : Grid R C) (l : List Point)
    (hc : List.Chain' StepTo l) (hf : ∀ p ∈ l, Free g p) : IsRoute g l := by
  induction l with
  | nil => trivial
  | cons a l ih =>
    cases l with
    | nil => trivial
    | cons b l' =>
      rw [List.chain'_cons] at hc
      exact ⟨⟨hc.1, hf b (by simp)⟩, ih hc.2 (fun p hp => hf p (List.mem_cons_of_mem _ hp))⟩

theorem walledGrid_walled :
    ∀ i, i < 4 → ¬ Free walledGrid ⟨(⟨0, 0⟩ : Point).x + dx i, (⟨0, 0⟩ : Point).y + dy i⟩ := by
  intro i hi
  have : i = 0 ∨ i = 1 ∨ i = 2 ∨ i = 3 := by omega
  rcases this with rfl | rfl | rfl | rfl <;> decide

/-- Witness of the amended C7 on the 20 × 20 grid `walledGrid`, whose start `(0, 0)` is walled
in and whose goal `(2, 2)` is of type `START`. -/
theorem separated_goal_not_found_witness :
    WF walledGrid ∧ inGrid ROWS COLS ⟨0, 0⟩ ∧ inGrid ROWS COLS ⟨2, 2⟩ ∧
    ¬ Reachable walledGrid ⟨0, 0⟩ ⟨2, 2⟩ ∧
    ((foundOf (runBFS ⟨0, 0⟩ ⟨2, 2⟩ walledGrid) = some false ∧
      pathOf ⟨2, 2⟩ (runBFS ⟨0, 0⟩ ⟨2, 2⟩ walledGrid) =
        some (if (nodeAt walledGrid ⟨2, 2⟩).type = CellType.START then [⟨2, 2⟩] else [])) ∧
    (foundOf (runDFS ⟨0, 0⟩ ⟨2, 2⟩ walledGrid) = some false ∧
      pathOf ⟨2, 2⟩ (runDFS ⟨0, 0⟩ ⟨2, 2⟩ walledGrid) =
        some (if (nodeAt walledGrid ⟨2, 2⟩).type = CellType.START then [⟨2, 2⟩] else [])) ∧
    (∀ B, foundOf (runAStar B ⟨0, 0⟩ ⟨2, 2⟩ walledGrid) = some false ∧
      pathOf ⟨2, 2⟩ (runAStar B ⟨0, 0⟩ ⟨2, 2⟩ walledGrid) =
        some (if (nodeAt walledGrid ⟨2, 2⟩).type = CellType.START then [⟨2, 2⟩] else []))) :=
  have hsep : ¬ Reachable walledGrid ⟨0, 0⟩ ⟨2, 2⟩ :=
    not_reachable_of_walled _ _ _ (by decide) walledGrid_walled
  ⟨WF_walledGrid, by decide, by decide, hsep,
    separated_goal_not_found _ _ _ WF_walledGrid (by decide) (by decide) hsep⟩

/-- C7 as stated fails.  On the 20 × 20 grid `walledGrid` obstacles separate the start
`(0, 0)` from the goal `(2, 2)`, every run returns false, yet `getPath(goal)` returns
`[(2, 2)]` because the goal cell is of type `START`.  On `blockedStartGrid` the start
`(0, 0)` is itself an obstacle, so no sequence of non-obstacle cells leads from it to the goal
`(0, 1)`, yet every run returns true. -/
theorem separated_goal_counterexample :
    (WF walledGrid ∧ inGrid ROWS COLS ⟨0, 0⟩ ∧ inGrid ROWS COLS ⟨2, 2⟩ ∧
      (¬ ∃ l, FreeSequence walledGrid ⟨0, 0⟩ ⟨2, 2⟩ l) ∧
      ¬ Reachable walledGrid ⟨0, 0⟩ ⟨2, 2⟩ ∧
      foundOf (runBFS ⟨0, 0⟩ ⟨2, 2⟩ walledGrid) = some false ∧
      pathOf ⟨2, 2⟩ (runBFS ⟨0, 0⟩ ⟨2, 2⟩ walledGrid) = some [⟨2, 2⟩] ∧
      foundOf (runDFS ⟨0, 0⟩ ⟨2, 2⟩ walledGrid) = some false ∧
      pathOf ⟨2, 2⟩ (runDFS ⟨0, 0⟩ ⟨2, 2⟩ walledGrid) = some [⟨2, 2⟩] ∧
      foundOf (runAStar MAX_BATTERY ⟨0, 0⟩ ⟨2, 2⟩ walledGrid) = some false ∧
      pathOf ⟨2, 2⟩ (runAStar MAX_BATTERY ⟨0, 0⟩ ⟨2, 2⟩ walledGrid) = some [⟨2, 2⟩]) ∧
    (WF blockedStartGrid ∧ inGrid ROWS COLS ⟨0, 0⟩ ∧ inGrid ROWS COLS ⟨0, 1⟩ ∧
      (¬ ∃ l, FreeSequence blockedStartGrid ⟨0, 0⟩ ⟨0, 1⟩ l) ∧
      foundOf (runBFS ⟨0, 0⟩ ⟨0, 1⟩ blockedStartGrid) = some true ∧
      foundOf (runDFS ⟨0, 0⟩ ⟨0, 1⟩ blockedStartGrid) = some true ∧
      foundOf (runAStar MAX_BATTERY ⟨0, 0⟩ ⟨0, 1⟩ blockedStartGrid) = some true) := by
  have hsep : ¬ Reachable walledGrid ⟨0, 0⟩ ⟨2, 2⟩ :=
    not_reachable_of_walled _ _ _ (by decide) walledGrid_walled
  refine ⟨⟨WF_walledGrid, by decide, by decide, ?_, hsep, by decide, by decide, by decide,
    by decide, by decide, by decide⟩,
    ⟨WF_blockedStartGrid, by decide, by decide, ?_, by decide, by decide, by decide⟩⟩
  · rintro ⟨l, hh, hl, hc, hf⟩
    apply hsep
    exact ⟨l, hh, hl, isRoute_of_free _ l hc hf⟩
  · rintro ⟨l, hh, _, _, hf⟩
    have hmem : (⟨0, 0⟩ : Point) ∈ l := by
      cases l with
      | nil => simp at hh
      | cons a l' =>
        simp only [List.head?_cons, Option.some.injEq] at hh
        subst hh
        exact List.mem_cons_self _ _
    exact absurd (hf _ hmem) (by decide)

set_option maxRecDepth 100000

/-- C8 (amended): for each of `runBFS`, `runDFS` and `runAStar` (any ceiling), on every
well-formed grid and every in-bounds start and goal, `getPath(goal)` called right after the
run returns the empty sequence if and only if the run returned false and the goal cell is not
of type `START`. -/
theorem empty_path_iff_not_found {R C : Nat} (g : Grid R C) (s t : Point) (w : WF g)
    (hs : inGrid R C s) (ht : inGrid R C t) :
    (pathOf t (runBFS s t g) = some [] ↔
      (foundOf (runBFS s t g) = some false ∧ (nodeAt g t).type ≠ CellType.START)) ∧
    (pathOf t (runDFS s t g) = some [] ↔
      (foundOf (runDFS s t g) = some false ∧ (nodeAt g t).type ≠ CellType.START)) ∧
    (∀ B, pathOf t (runAStar B s t g) = some [] ↔
      (foundOf (runAStar B s t g) = some false ∧ (nodeAt g t).type ≠ CellType.START)) := by
  refine ⟨?_, ?_, ?_⟩
  · obtain ⟨b, g', d, ext, e, inv, h1, h2⟩ := runBFS_spec g s t w hs
    rw [e, foundOf_some, pathOf_some, (search_observed ht inv h1 h2).1]
    simp
  · obtain ⟨b, g', d, ext, e, inv, h1, h2⟩ := runDFS_spec g s t w hs
    rw [e, foundOf_some, pathOf_some, (search_observed ht inv h1 h2).1]
    simp
  · intro B
    obtain ⟨b, g', os, e, inv, h1, h2⟩ := runAStar_spec B g s t w hs
    rw [e, foundOf_some, pathOf_some, (astar_observed ht inv h1 h2).1]
    simp

/-- Witness of the amended C8 on the 3 × 3 grid whose start corner is walled in. -/
theorem empty_path_iff_not_found_witness :
    WF (gridWith 3 3 [(0, 1), (1, 0)]) ∧ inGrid 3 3 ⟨0, 0⟩ ∧ inGrid 3 3 ⟨2, 2⟩ ∧
    pathOf ⟨2, 2⟩ (runBFS ⟨0, 0⟩ ⟨2, 2⟩ (gridWith 3 3 [(0, 1), (1, 0)])) = some [] ∧
    ((pathOf ⟨2, 2⟩ (runBFS ⟨0, 0⟩ ⟨2, 2⟩ (gridWith 3 3 [(0, 1), (1, 0)])) = some [] ↔
      (foundOf (runBFS ⟨0, 0⟩ ⟨2, 2⟩ (gridWith 3 3 [(0, 1), (1, 0)])) = some false ∧
        (nodeAt (gridWith 3 3 [(0, 1), (1, 0)]) ⟨2, 2⟩).type ≠ CellType.START)) ∧
    (pathOf ⟨2, 2⟩ (runDFS ⟨0, 0⟩ ⟨2, 2⟩ (gridWith 3 3 [(0, 1), (1, 0)])) = some [] ↔
      (foundOf (runDFS ⟨0, 0⟩ ⟨2, 2⟩ (gridWith 3 3 [(0, 1), (1, 0)])) = some false ∧
        (nodeAt (gridWith 3 3 [(0, 1), (1, 0)]) ⟨2, 2⟩).type ≠ CellType.START)) ∧
    (∀ B, pathOf ⟨2, 2⟩ (runAStar B ⟨0, 0⟩ ⟨2, 2⟩ (gridWith 3 3 [(0, 1), (1, 0)])) = some [] ↔
      (foundOf (runAStar B ⟨0, 0⟩ ⟨2, 2⟩ (gridWith 3 3 [(0, 1), (1, 0)])) = some false ∧
        (nodeAt (gridWith 3 3 [(0, 1), (1, 0)]) ⟨2, 2⟩).type ≠ CellType.START))) :=
  ⟨WF_gridWith 3 3 _, by decide, by decide, by decide,
    empty_path_iff_not_found _ _ _ (WF_gridWith 3 3 _) (by decide) (by decide)⟩

/-- C8 as stated fails on the 20 × 20 grid `walledGrid` with start `(0, 0)` and goal `(2, 2)`,
a cell of type `START`: each run returns false, and `getPath(goal)` returns `[(2, 2)]`, not the
empty sequence. -/
theorem empty_path_counterexample :
    WF walledGrid ∧ inGrid ROWS COLS ⟨0, 0⟩ ∧ inGrid ROWS COLS ⟨2, 2⟩ ∧
    ¬ (pathOf ⟨2, 2⟩ (runBFS ⟨0, 0⟩ ⟨2, 2⟩ walledGrid) = some [] ↔
      foundOf (runBFS ⟨0, 0⟩ ⟨2, 2⟩ walledGrid) = some false) ∧
    ¬ (pathOf ⟨2, 2⟩ (runDFS ⟨0, 0⟩ ⟨2, 2⟩ walledGrid) = some [] ↔
      foundOf (runDFS ⟨0, 0⟩ ⟨2, 2⟩ walledGrid) = some false) ∧
    ¬ (pathOf ⟨2, 2⟩ (runAStar MAX_BATTERY ⟨0, 0⟩ ⟨2, 2⟩ walledGrid) = some [] ↔
      foundOf (runAStar MAX_BATTERY ⟨0, 0⟩ ⟨2, 2⟩ walledGrid) = some false) :=
  ⟨WF_walledGrid, by decide, by decide, by decide, by decide, by decide⟩

/-- C9: for each of `runBFS`, `runDFS` and `runAStar` (any ceiling), on every well-formed grid
and every in-bounds position `p`, whatever the type of its cell, the run with start = goal =
`p` returns true and `getPath(p)` afterwards returns exactly `[p]`. -/
theorem start_is_goal {R C : Nat} (g : Grid R C) (p : Point) (w : WF g)
    (hp : inGrid R C p) :
    (foundOf (runBFS p p g) = some true ∧ pathOf p (runBFS p p g) = some [p]) ∧
    (foundOf (runDFS p p g) = some true ∧ pathOf p (runDFS p p g) = some [p]) ∧
    (∀ B, foundOf (runAStar B p p g) = some true ∧
      pathOf p (runAStar B p p g) = some [p]) := by
  have hreach : Reachable g p p := ⟨[p], rfl, rfl, trivial⟩
  have single : ∀ l : List Point, RouteFromTo g p p l → l.length ≤ 1 → l = [p] := by
    intro l hl hlen
    obtain ⟨l', rfl, _, _⟩ := route_cases hl
    cases l' with
    | nil => rfl
    | cons a l'' => simp at hlen
  refine ⟨?_, ?_, ?_⟩
  · obtain ⟨b, g', d, ext, e, inv, h1, h2⟩ := runBFS_spec g p p w hp
    have hb : b = true := ((search_observed hp inv h1 h2).2).mp hreach
    obtain ⟨l, a1, a2, a3, _⟩ := (search_outcome hp inv h1 h2).1 hb
    rw [e, foundOf_some, pathOf_some, hb, a1, single l a2 (by rw [a3, inv.s_d])]
    exact ⟨rfl, rfl⟩
  · obtain ⟨b, g', d, ext, e, inv, h1, h2⟩ := runDFS_spec g p p w hp
    have hb : b = true := ((search_observed hp inv h1 h2).2).mp hreach
    obtain ⟨l, a1, a2, a3, _⟩ := (search_outcome hp inv h1 h2).1 hb
    rw [e, foundOf_some, pathOf_some, hb, a1, single l a2 (by rw [a3, inv.s_d])]
    exact ⟨rfl, rfl⟩
  · intro B
    obtain ⟨b, g', os, e, inv, h1, h2⟩ := runAStar_spec B g p p w hp
    have hb : b = true := by
      cases b with
      | true => rfl
      | false =>
        obtain ⟨he, hv⟩ := h2 rfl
        rcases inv.s_first with h | ⟨h, _⟩
        · rw [hv] at h
          exact Bool.noConfusion h
        · rw [he] at h
          exact List.noConfusion h
    obtain ⟨l, a1, a2, a3, _⟩ := (astar_outcome hp inv h1 h2).1 hb
    rw [inv.s_g] at a3
    rw [e, foundOf_some, pathOf_some, hb, a1, single l a2 (by omega)]
    exact ⟨rfl, rfl⟩

/-- Witness of C9 at the obstacle cell `(1, 1)` of a 3 × 3 grid. -/
theorem start_is_goal_witness :
    WF (gridWith 3 3 [(1, 1)]) ∧ inGrid 3 3 ⟨1, 1⟩ ∧
    ((foundOf (runBFS ⟨1, 1⟩ ⟨1, 1⟩ (gridWith 3 3 [(1, 1)])) = some true ∧
      pathOf ⟨1, 1⟩ (runBFS ⟨1, 1⟩ ⟨1, 1⟩ (gridWith 3 3 [(1, 1)])) = some [⟨1, 1⟩]) ∧
    (foundOf (runDFS ⟨1, 1⟩ ⟨1, 1⟩ (gridWith 3 3 [(1, 1)])) = some true ∧
      pathOf ⟨1, 1⟩ (runDFS ⟨1, 1⟩ ⟨1, 1⟩ (gridWith 3 3 [(1, 1)])) = some [⟨1, 1⟩]) ∧
    (∀ B, foundOf (runAStar B ⟨1, 1⟩ ⟨1, 1⟩ (gridWith 3 3 [(1, 1)])) = some true ∧
      pathOf ⟨1, 1⟩ (runAStar B ⟨1, 1⟩ ⟨1, 1⟩ (gridWith 3 3 [(1, 1)])) = some [⟨1, 1⟩])) :=
  ⟨WF_gridWith 3 3 _, by decide,
    start_is_goal _ _ (WF_gridWith 3 3 _) (by decide)⟩

/-- C10: for each of `runBFS`, `runDFS` and `runAStar` (any ceiling), on every well-formed
grid state, whatever its transient fields, and every in-bounds start: the run returns, and
running it again on the grid it leaves returns the same found flag and leaves the same grid,
hence the same `getPath(goal)`; moreover a run from any other well-formed state with the same
cell types gives the same found flag and the same `getPath(goal)`. -/
theorem rerun_is_idempotent {R C : Nat} (g : Grid R C) (s t : Point) (w : WF g)
    (hs : inGrid R C s) :
    ((∃ b g1, runBFS s t g = some (b, g1) ∧ runBFS s t g1 = some (b, g1)) ∧
      (∃ b g1, runDFS s t g = some (b, g1) ∧ runDFS s t g1 = some (b, g1)) ∧
      (∀ B, ∃ b g1, runAStar B s t g = some (b, g1) ∧ runAStar B s t g1 = some (b, g1))) ∧
    (∀ g2 : Grid R C, WF g2 → (∀ i j, (g2 i j).type = (g i j).type) →
      (foundOf (runBFS s t g2) = foundOf (runBFS s t g) ∧
        pathOf t (runBFS s t g2) = pathOf t (runBFS s t g)) ∧
      (foundOf (runDFS s t g2) = foundOf (runDFS s t g) ∧
        pathOf t (runDFS s t g2) = pathOf t (runDFS s t g)) ∧
      (∀ B, foundOf (runAStar B s t g2) = foundOf (runAStar B s t g) ∧
        pathOf t (runAStar B s t g2) = pathOf t (runAStar B s t g))) := by
  have hbfs : ∀ g2 : Grid R C, SameStatic g g2 → runBFS s t g2 = runBFS s t g := by
    intro g2 h
    simp only [runBFS, resetGridState_congr h]
  have hdfs : ∀ g2 : Grid R C, SameStatic g g2 → runDFS s t g2 = runDFS s t g := by
    intro g2 h
    simp only [runDFS, resetGridState_congr h]
  have hast : ∀ B, ∀ g2 : Grid R C, SameStatic g g2 →
      runAStar B s t g2 = runAStar B s t g := by
    intro B g2 h
    simp only [runAStar, resetGridState_congr h]
  refine ⟨⟨?_, ?_, ?_⟩, ?_⟩
  · obtain ⟨b, g', d, ext, e, inv, _, _⟩ := runBFS_spec g s t w hs
    exact ⟨b, g', e, by rw [hbfs g' inv.static, e]⟩
  · obtain ⟨b, g', d, ext, e, inv, _, _⟩ := runDFS_spec g s t w hs
    exact ⟨b, g', e, by rw [hdfs g' inv.static, e]⟩
  · intro B
    obtain ⟨b, g', os, e, inv, _, _⟩ := runAStar_spec B g s t w hs
    exact ⟨b, g', e, by rw [hast B g' inv.static, e]⟩
  · intro g2 w2 hty
    have hst : SameStatic g g2 := fun i j => ⟨(w2 i j).trans (w i j).symm, hty i j⟩
    refine ⟨?_, ?_, ?_⟩
    · rw [hbfs g2 hst]
      exact ⟨rfl, rfl⟩
    · rw [hdfs g2 hst]
      exact ⟨rfl, rfl⟩
    · intro B
      rw [hast B g2 hst]
      exact ⟨rfl, rfl⟩


/-- Witness of C10 on a 3 × 3 grid state whose transient fields are stale. -/
theorem rerun_is_idempotent_witness :
    WF (staleGrid 3 3 [(1, 1)]) ∧ inGrid 3 3 ⟨0, 0⟩ ∧
    (((∃ b g1, runBFS ⟨0, 0⟩ ⟨2, 2⟩ (staleGrid 3 3 [(1, 1)]) = some (b, g1) ∧
        runBFS ⟨0, 0⟩ ⟨2, 2⟩ g1 = some (b, g1)) ∧
      (∃ b g1, runDFS ⟨0, 0⟩ ⟨2, 2⟩ (staleGrid 3 3 [(1, 1)]) = some (b, g1) ∧
        runDFS ⟨0, 0⟩ ⟨2, 2⟩ g1 = some (b, g1)) ∧
      (∀ B, ∃ b g1, runAStar B ⟨0, 0⟩ ⟨2, 2⟩ (staleGrid 3 3 [(1, 1)]) = some (b, g1) ∧
        runAStar B ⟨0, 0⟩ ⟨2, 2⟩ g1 = some (b, g1))) ∧
    (∀ g2 : Grid 3 3, WF g2 →
      (∀ i j, (g2 i j).type = (staleGrid 3 3 [(1, 1)] i j).type) →
      (foundOf (runBFS ⟨0, 0⟩ ⟨2, 2⟩ g2) =
          foundOf (runBFS ⟨0, 0⟩ ⟨2, 2⟩ (staleGrid 3 3 [(1, 1)])) ∧
        pathOf ⟨2, 2⟩ (runBFS ⟨0, 0⟩ ⟨2, 2⟩ g2) =
          pathOf ⟨2, 2⟩ (runBFS ⟨0, 0⟩ ⟨2, 2⟩ (staleGrid 3 3 [(1, 1)]))) ∧
      (foundOf (runDFS ⟨0, 0⟩ ⟨2, 2⟩ g2) =
          foundOf (runDFS ⟨0, 0⟩ ⟨2, 2⟩ (staleGrid 3 3 [(1, 1)])) ∧
        pathOf ⟨2, 2⟩ (runDFS ⟨0, 0⟩ ⟨2, 2⟩ g2) =
          pathOf ⟨2, 2⟩ (runDFS ⟨0, 0⟩ ⟨2, 2⟩ (staleGrid 3 3 [(1, 1)]))) ∧
      (∀ B, foundOf (runAStar B ⟨0, 0⟩ ⟨2, 2⟩ g2) =
          foundOf (runAStar B ⟨0, 0⟩ ⟨2, 2⟩ (staleGrid 3 3 [(1, 1)])) ∧
        pathOf ⟨2, 2⟩ (runAStar B ⟨0, 0⟩ ⟨2, 2⟩ g2) =
          pathOf ⟨2, 2⟩ (runAStar B ⟨0, 0⟩ ⟨2, 2⟩ (staleGrid 3 3 [(1, 1)]))))) :=
  ⟨fun _ _ => rfl, by decide,
    rerun_is_idempotent (staleGrid 3 3 [(1, 1)]) ⟨0, 0⟩ ⟨2, 2⟩ (fun _ _ => rfl) (by decide)⟩

set_option maxRecDepth 100000

/-- C2 fails on the code: on the obstacle-free 20 × 20 grid with start `(1, 2)` and goal
`(5, 0)`, `runBFS` and `runAStar` both return true, with the ceiling of the source
(`MAX_BATTERY` = 100) as with the unconstrained ceiling 400 = `ROWS * COLS`; `getPath(goal)`
has 7 cells after `runBFS` and 9 cells after `runAStar`. -/
theorem astar_path_longer_than_bfs :
    WF (initGrid ROWS COLS) ∧ inGrid ROWS COLS ⟨1, 2⟩ ∧ inGrid ROWS COLS ⟨5, 0⟩ ∧
    ROWS * COLS ≤ 400 ∧
    foundOf (runBFS ⟨1, 2⟩ ⟨5, 0⟩ (initGrid ROWS COLS)) = some true ∧
    pathOf ⟨5, 0⟩ (runBFS ⟨1, 2⟩ ⟨5, 0⟩ (initGrid ROWS COLS)) =
      some [⟨1, 2⟩, ⟨2, 2⟩, ⟨3, 2⟩, ⟨4, 2⟩, ⟨5, 2⟩, ⟨5, 1⟩, ⟨5, 0⟩] ∧
    foundOf (runAStar 400 ⟨1, 2⟩ ⟨5, 0⟩ (initGrid ROWS COLS)) = some true ∧
    pathOf ⟨5, 0⟩ (runAStar 400 ⟨1, 2⟩ ⟨5, 0⟩ (initGrid ROWS COLS)) =
      some [⟨1, 2⟩, ⟨1, 1⟩, ⟨1, 0⟩, ⟨2, 0⟩, ⟨3, 0⟩, ⟨4, 0⟩, ⟨4, 1⟩, ⟨5, 1⟩, ⟨5, 0⟩] ∧
    foundOf (runAStar MAX_BATTERY ⟨1, 2⟩ ⟨5, 0⟩ (initGrid ROWS COLS)) = some true ∧
    pathOf ⟨5, 0⟩ (runAStar MAX_BATTERY ⟨1, 2⟩ ⟨5, 0⟩ (initGrid ROWS COLS)) =
      some [⟨1, 2⟩, ⟨1, 1⟩, ⟨1, 0⟩, ⟨2, 0⟩, ⟨3, 0⟩, ⟨4, 0⟩, ⟨4, 1⟩, ⟨5, 1⟩, ⟨5, 0⟩] :=
  ⟨WF_initGrid ROWS COLS, by decide, by decide, by decide, by decide, by decide, by decide,
    by decide, by decide, by decide⟩

/-- C3 fails on the code: on the obstacle-free 20 × 20 grid with start `(2, 2)` and goal
`(6, 0)`, `runAStar` returns true, so the goal is the cell popped and closed last, and the
`g_cost` it is closed with is 8, while a route of 6 steps (7 cells) leads from the start to
it. -/
theorem astar_closes_goal_above_shortest :
    WF (initGrid ROWS COLS) ∧ inGrid ROWS COLS ⟨2, 2⟩ ∧ inGrid ROWS COLS ⟨6, 0⟩ ∧
    foundOf (runAStar MAX_BATTERY ⟨2, 2⟩ ⟨6, 0⟩ (initGrid ROWS COLS)) = some true ∧
    (runAStar MAX_BATTERY ⟨2, 2⟩ ⟨6, 0⟩ (initGrid ROWS COLS)).map
      (fun r => ((nodeAt r.2 ⟨6, 0⟩).visited, (nodeAt r.2 ⟨6, 0⟩).g_cost)) = some (true, 8) ∧
    RouteFromTo (initGrid ROWS COLS) ⟨2, 2⟩ ⟨6, 0⟩
      [⟨2, 2⟩, ⟨3, 2⟩, ⟨4, 2⟩, ⟨5, 2⟩, ⟨6, 2⟩, ⟨6, 1⟩, ⟨6, 0⟩] :=
  ⟨WF_initGrid ROWS COLS, by decide, by decide, by decide, by decide, by decide⟩

/-! ## `runAStar` along a unique route -/

theorem dir_inj (c : Point) {i j : Nat} (hi : i < 4) (hj : j < 4)
    (h : (⟨c.x + dx i, c.y + dy i⟩ : Point) = ⟨c.x + dx j, c.y + dy j⟩) : i = j := by
  simp only [Point.mk.injEq] at h
  have h1 : i = 0 ∨ i = 1 ∨ i = 2 ∨ i = 3 := by omega
  have h2 : j = 0 ∨ j = 1 ∨ j = 2 ∨ j = 3 := by omega
  rcases h1 with rfl | rfl | rfl | rfl <;> rcases h2 with rfl | rfl | rfl | rfl <;>
    simp [dx, dy] at h ⊢

/-- What one relaxation step changes. -/
theorem relaxNeighbor_effect {R C : Nat} {B : Nat} {g : Grid R C} (t c : Point)
    (os : List Point) (k : Nat) (w : WF g) (hc : inGrid R C c) :
    (∀ p, p ≠ ⟨c.x + dx k, c.y + dy k⟩ →
      nodeAt (relaxNeighbor B t c (g, os) k).1 p = nodeAt g p) ∧
    (∀ p ∈ os, p ∈ (relaxNeighbor B t c (g, os) k).2) ∧
    (Free g ⟨c.x + dx k, c.y + dy k⟩ → (nodeAt g c).g_cost + 1 ≤ (B : Int) →
      (nodeAt g ⟨c.x + dx k, c.y + dy k⟩).visited = false →
      (⟨c.x + dx k, c.y + dy k⟩ : Point) ∈ (relaxNeighbor B t c (g, os) k).2 ∧
      (nodeAt (relaxNeighbor B t c (g, os) k).1 ⟨c.x + dx k, c.y + dy k⟩).g_cost =
        (nodeAt g c).g_cost + 1) := by
  rw [relaxNeighbor_eq B t c g os k w hc]
  split
  · rename_i hcond
    generalize hn : (⟨c.x + dx k, c.y + dy k⟩ : Point) = n at hcond ⊢
    have hnx : c.x + dx k = n.x := by rw [← hn]
    have hny : c.y + dy k = n.y := by rw [← hn]
    rw [hnx, hny]
    dsimp only
    refine ⟨?_, ?_, ?_⟩
    · intro p hp
      exact nodeAt_setNode_ne _ _ _ _ hp
    · intro p hp
      exact (pqPush_perm _ os n).mem_iff.mpr (List.mem_cons_of_mem _ hp)
    · intro _ _ _
      refine ⟨(pqPush_perm _ os n).mem_iff.mpr (List.mem_cons_self _ _), ?_⟩
      rw [nodeAt_setNode_same _ _ _ hcond.1.1]
  · rename_i hcond
    refine ⟨fun _ _ => rfl, fun _ hp => hp, ?_⟩
    intro h1 h2 h3
    exact absurd ⟨h1, h2, Or.inl h3⟩ hcond

/-- What the neighbour loop of `runAStar` changes. -/
theorem relaxFold_effect {R C : Nat} {B : Nat} {g0 : Grid R C} {s t c : Point}
    (hc : inGrid R C c) (l : List Nat) :
    ∀ (st : Grid R C × List Point), AStarInv B g0 s st.1 st.2 →
      (nodeAt st.1 c).visited = true →
      (∀ p, (∀ k ∈ l, p ≠ ⟨c.x + dx k, c.y + dy k⟩) →
        nodeAt (l.foldl (relaxNeighbor B t c) st).1 p = nodeAt st.1 p) ∧
      (∀ p ∈ st.2, p ∈ (l.foldl (relaxNeighbor B t c) st).2) ∧
      (∀ k ∈ l, l.Nodup → (∀ j ∈ l, j < 4) → Free g0 ⟨c.x + dx k, c.y + dy k⟩ →
        (nodeAt st.1 c).g_cost + 1 ≤ (B : Int) →
        (nodeAt st.1 ⟨c.x + dx k, c.y + dy k⟩).visited = false →
        (⟨c.x + dx k, c.y + dy k⟩ : Point) ∈ (l.foldl (relaxNeighbor B t c) st).2 ∧
        (nodeAt (l.foldl (relaxNeighbor B t c) st).1 ⟨c.x + dx k, c.y + dy k⟩).g_cost =
          (nodeAt st.1 c).g_cost + 1) := by
  induction l with
  | nil =>
    intro st _ _
    exact ⟨fun _ _ => rfl, fun _ hp => hp, fun k hk => absurd hk (List.not_mem_nil k)⟩
  | cons k0 l ih =>
    intro st inv hcv
    obtain ⟨e1, e2, e3⟩ := relaxNeighbor_effect (B := B) t c st.2 k0 inv.wf hc
    obtain ⟨i1, _, _, v1⟩ := relaxNeighbor_inv (t := t) (g := st.1) (o := st.2) k0 inv hc hcv
    obtain ⟨f1, f2, f3⟩ := ih (relaxNeighbor B t c st k0) i1 (by rw [v1]; exact hcv)
    simp only [List.foldl_cons]
    refine ⟨?_, ?_, ?_⟩
    · intro p hp
      rw [f1 p (fun k hk => hp k (List.mem_cons_of_mem _ hk))]
      exact e1 p (hp k0 (List.mem_cons_self _ _))
    · intro p hp
      exact f2 p (e2 p hp)
    · intro k hk hnd hlt hfree hB hunv
      have hk0 : k0 < 4 := hlt k0 (List.mem_cons_self _ _)
      have hcne : c ≠ ⟨c.x + dx k0, c.y + dy k0⟩ := (stepTo_ne (stepTo_dir c k0 hk0)).symm
      have hgc : (nodeAt (relaxNeighbor B t c st k0).1 c).g_cost = (nodeAt st.1 c).g_cost := by
        rw [show relaxNeighbor B t c st k0 = relaxNeighbor B t c (st.1, st.2) k0 from rfl,
          e1 c hcne]
      rw [List.nodup_cons] at hnd
      rcases List.mem_cons.mp hk with rfl | hkl
      · have hfree' : Free st.1 ⟨c.x + dx k, c.y + dy k⟩ := (inv.static.free_congr _).mpr hfree
        obtain ⟨m1, m2⟩ := e3 hfree' hB hunv
        have hne : ∀ j ∈ l, (⟨c.x + dx k, c.y + dy k⟩ : Point) ≠ ⟨c.x + dx j, c.y + dy j⟩ := by
          intro j hj e
          have := dir_inj c hk0 (hlt j (List.mem_cons_of_mem _ hj)) e
          subst this
          exact hnd.1 hj
        refine ⟨f2 _ m1, ?_⟩
        rw [f1 _ hne]
        exact m2
      · have := f3 k hkl hnd.2 (fun j hj => hlt j (List.mem_cons_of_mem _ hj)) hfree
          (by rw [hgc]; exact hB) (by rw [v1]; exact hunv)
        rw [hgc] at this
        exact this


/-- If a property of the loop state that holds for no empty open set is kept by every
iteration, the loop of `runAStar` returns true. -/
theorem astarLoop_progress {R C : Nat} {B : Nat} {g0 : Grid R C} {s t : Point}
    (P : Grid R C → List Point → Prop) (hnil : ∀ g, ¬ P g [])
    (hskip : ∀ g c rest, AStarInv B g0 s g (c :: rest) → P g (c :: rest) →
      (nodeAt g c).visited = true → P g (pqPop g (c :: rest)))
    (hexp : ∀ g c rest, AStarInv B g0 s g (c :: rest) → P g (c :: rest) →
      (nodeAt g c).visited = false → c ≠ t →
      P ([0, 1, 2, 3].foldl (relaxNeighbor B t c)
          (setNode g c.x c.y { getNode g c.x c.y with visited := true },
            pqPop g (c :: rest))).1
        ([0, 1, 2, 3].foldl (relaxNeighbor B t c)
          (setNode g c.x c.y { getNode g c.x c.y with visited := true },
            pqPop g (c :: rest))).2)
    (fuel : Nat) :
    ∀ (g : Grid R C) (os : List Point), AStarInv B g0 s g os →
      (nodeAt g t).visited = false → P g os → 5 * (unvisited g).card + os.length < fuel →
      ∃ g', astarLoop B fuel t g os = some (true, g') := by
  induction fuel with
  | zero => intro g os _ _ _ h; omega
  | succ n ih =>
    intro g os inv ht hP hm
    cases os with
    | nil => exact absurd hP (hnil g)
    | cons c rest =>
      have hc := inv.os_ok c (List.mem_cons_self _ _)
      have hlen : (pqPop g (c :: rest)).length = rest.length :=
        (pqPop_perm g c rest).length_eq
      by_cases hcv : (nodeAt g c).visited = true
      · have hcv' : (getNode g c.x c.y).visited = true := hcv
        obtain ⟨g', e⟩ := ih g _ (astarInv_skip inv hcv) ht (hskip g c rest inv hP hcv) (by
          rw [hlen]
          simp only [List.length_cons] at hm
          omega)
        refine ⟨g', ?_⟩
        rw [← e]
        simp only [astarLoop, hcv', if_true]
      · have hcv0 : (nodeAt g c).visited = false := by simpa using hcv
        have hcv' : (getNode g c.x c.y).visited = false := hcv0
        obtain ⟨inv1, u1, v1, vc⟩ := astarInv_close inv hcv0
        have hpos : (getNode (setNode g c.x c.y { getNode g c.x c.y with visited := true })
            c.x c.y).pos = c := inv1.wf.pos_eq hc.1
        by_cases hg : c = t
        · subst hg
          refine ⟨setNode g c.x c.y { getNode g c.x c.y with visited := true }, ?_⟩
          simp only [astarLoop, hcv', Bool.false_eq_true, if_false, hpos, if_true]
        · obtain ⟨i2, u2, m2, v2⟩ := relaxFold_inv (t := t) hc.1 [0, 1, 2, 3]
            (setNode g c.x c.y { getNode g c.x c.y with visited := true }, pqPop g (c :: rest))
            inv1 vc
          have ht2 : (nodeAt ([0, 1, 2, 3].foldl (relaxNeighbor B t c)
              (setNode g c.x c.y { getNode g c.x c.y with visited := true },
                pqPop g (c :: rest))).1 t).visited = false := by
            rw [v2, v1 t (Ne.symm hg)]
            exact ht
          obtain ⟨g', e⟩ := ih _ _ i2 ht2 (hexp g c rest inv hP hcv0 hg) (by
            rw [u2]
            dsimp only at m2 u1 ⊢
            rw [hlen] at m2
            simp only [List.length_cons, List.length_nil] at hm m2
            omega)
          refine ⟨g', ?_⟩
          rw [← e]
          simp only [astarLoop, hcv', Bool.false_eq_true, if_false, hpos, if_neg hg]

/-! ### Routes as lists -/

theorem route_suffix {R C : Nat} {g : Grid R C} (a b : List Point)
    (h : IsRoute g (a ++ b)) : IsRoute g b := by
  rw [isRoute_iff_chain'] at h ⊢
  exact h.right_of_append

theorem route_step {R C : Nat} {g : Grid R C} (a b : List Point) (x y : Point)
    (h : IsRoute g (a ++ x :: y :: b)) : StepTo x y ∧ Free g y :=
  (route_suffix a _ h).1

theorem route_free_of_not_first {R C : Nat} {g : Grid R C} (a b : List Point) (n : Point)
    (h : IsRoute g (a ++ n :: b)) (ha : a ≠ []) : Free g n := by
  rw [isRoute_iff_chain', List.chain'_append] at h
  have hl : a.getLast? = some (a.getLast ha) := List.getLast?_eq_getLast a ha
  exact (h.2.2 (a.getLast ha) (by rw [hl]; rfl) n (by simp)).2

theorem route_append {R C : Nat} {g : Grid R C} (l1 l2 : List Point) (c n : Point)
    (h1 : IsRoute g l1) (hl : l1.getLast? = some c) (h2 : IsRoute g (n :: l2))
    (hj : StepTo c n ∧ Free g n) : IsRoute g (l1 ++ n :: l2) := by
  rw [isRoute_iff_chain'] at h1 h2 ⊢
  refine List.Chain'.append h1 h2 ?_
  intro x hx y hy
  rw [hl] at hx
  simp at hx hy
  subst hx hy
  exact hj

theorem route_overlap {R C : Nat} {g : Grid R C} (l1 b : List Point) (c : Point)
    (h1 : IsRoute g l1) (hl : l1.getLast? = some c) (h2 : IsRoute g (c :: b)) :
    IsRoute g (l1 ++ b) := by
  have e : l1.dropLast ++ [c] = l1 := List.dropLast_append_getLast? c (by rw [hl]; rfl)
  rw [isRoute_iff_chain'] at h1 h2 ⊢
  rw [← e] at h1 ⊢
  have := List.Chain'.append_overlap h1 (by simpa using h2) (by simp)
  simpa using this

theorem getLast?_append_cons_eq (a b : List Point) (n : Point) :
    (a ++ n :: b).getLast? = (n :: b).getLast? := by
  rw [List.getLast?_append]
  cases h : (n :: b).getLast? with
  | none => simp at h
  | some x => simp


/-! ### Cells off the unique route -/

/-- When the route `l0` from `s` to `t` is the only one without repetition, a cell `c` that
waits in the open set, is not closed and is not the next route cell `cur`, lies off the route
and is not next to any route cell that is still to be closed. -/
theorem off_route_cell {R C : Nat} {B : Nat} {g0 g : Grid R C} {s t c : Point}
    {rest l0 pre suf : List Point} {cur : Point}
    (hroute : RouteFromTo g0 s t l0) (hnd : l0.Nodup)
    (huniq : ∀ l, RouteFromTo g0 s t l → l.Nodup → l = l0)
    (inv : AStarInv B g0 s g (c :: rest)) (hsplit : l0 = pre ++ cur :: suf)
    (hpre : ∀ x ∈ pre, (nodeAt g x).visited = true)
    (hsuf : ∀ x ∈ cur :: suf, (nodeAt g x).visited = false)
    (hcv : (nodeAt g c).visited = false) (hne : c ≠ cur) :
    c ∉ l0 ∧ ∀ n ∈ cur :: suf, ¬ StepTo c n := by
  have hc := inv.os_ok c (List.mem_cons_self _ _)
  obtain ⟨lc, ⟨hlh, hll, hlr⟩, _, _, hlnd, hlvis⟩ := astar_chain inv c hc.1 hc.2
  obtain ⟨h0h, h0l, h0r⟩ := hroute
  have hlc_ne : lc ≠ [] := by
    rintro rfl
    simp at hll
  have hcl : c ∈ lc := List.mem_of_mem_getLast? hll
  have hhead : ∀ b : List Point, (lc ++ b).head? = some s := by
    intro b
    rw [List.head?_append_of_ne_nil lc hlc_ne]
    exact hlh
  have hcur_unv : (nodeAt g cur).visited = false := hsuf cur (List.mem_cons_self _ _)
  have hcur_lc : cur ∉ lc := by
    intro h
    rcases hlvis cur h with e | e
    · exact hne e.symm
    · rw [hcur_unv] at e
      exact Bool.noConfusion e
  -- the cell is not a later route cell
  have hc_suf : c ∉ suf := by
    intro hmem
    obtain ⟨a, b, hab⟩ := List.append_of_mem hmem
    have hl0 : l0 = (pre ++ cur :: a) ++ c :: b := by
      rw [hsplit, hab]
      simp
    have hcb_nd : (c :: b).Nodup := by
      rw [hl0] at hnd
      exact (List.nodup_append.mp hnd).2.1
    have hW : RouteFromTo g0 s t (lc ++ b) := by
      refine ⟨hhead b, ?_, ?_⟩
      · have e : lc.dropLast ++ [c] = lc := List.dropLast_append_getLast? c (by rw [hll]; rfl)
        rw [← h0l, hl0, getLast?_append_cons_eq, ← e, List.append_assoc, List.singleton_append,
          getLast?_append_cons_eq]
      · refine route_overlap lc b c hlr hll ?_
        rw [hl0] at h0r
        exact route_suffix _ _ h0r
    have hWnd : (lc ++ b).Nodup := by
      rw [List.nodup_append]
      refine ⟨hlnd, (List.nodup_cons.mp hcb_nd).2, ?_⟩
      intro x hx hxb
      rcases hlvis x hx with e | e
      · subst e
        exact (List.nodup_cons.mp hcb_nd).1 hxb
      · have : x ∈ cur :: suf := by
          rw [hab]
          simp [hxb]
        rw [hsuf x this] at e
        exact Bool.noConfusion e
    have hEq := huniq _ hW hWnd
    have hcurW : cur ∈ lc ++ b := by
      rw [hEq, hsplit]
      simp
    rcases List.mem_append.mp hcurW with h | h
    · exact hcur_lc h
    · rw [hsplit, hab] at hnd
      have h1 := (List.nodup_append.mp hnd).2.1
      have h2 := (List.nodup_cons.mp h1).1
      exact h2 (by simp [h])
  have hc_l0 : c ∉ l0 := by
    rw [hsplit]
    intro hmem
    rcases List.mem_append.mp hmem with h | h
    · rw [hpre c h] at hcv
      exact Bool.noConfusion hcv
    · rcases List.mem_cons.mp h with h | h
      · exact hne h
      · exact hc_suf h
  refine ⟨hc_l0, ?_⟩
  intro n hn hstep
  obtain ⟨a, b, hab⟩ := List.append_of_mem hn
  have hl0 : l0 = (pre ++ a) ++ n :: b := by
    rw [hsplit, hab]
    simp
  have hnb_sub : ∀ x ∈ n :: b, x ∈ cur :: suf := by
    intro x hx
    rw [hab]
    exact List.mem_append_right _ hx
  have hfree : Free g0 n := by
    by_cases hpa : pre ++ a = []
    · exfalso
      have hp : pre = [] := (List.append_eq_nil.mp hpa).1
      have ha : a = [] := (List.append_eq_nil.mp hpa).2
      subst hp ha
      simp only [List.nil_append, List.cons.injEq] at hab
      have hcs : cur = s := by
        rw [hsplit] at h0h
        simpa using h0h
      rcases inv.s_first with h | ⟨h, _⟩
      · rw [← hcs, hcur_unv] at h
        exact Bool.noConfusion h
      · simp only [List.cons.injEq] at h
        exact hne (h.1.trans hcs.symm)
    · rw [hl0] at h0r
      exact route_free_of_not_first _ _ _ h0r hpa
  have hnb_nd : (n :: b).Nodup := by
    rw [hl0] at hnd
    exact (List.nodup_append.mp hnd).2.1
  have hW : RouteFromTo g0 s t (lc ++ n :: b) := by
    refine ⟨hhead _, ?_, ?_⟩
    · rw [← h0l, hl0, getLast?_append_cons_eq, getLast?_append_cons_eq]
    · refine route_append lc b c n hlr hll ?_ ⟨hstep, hfree⟩
      rw [hl0] at h0r
      exact route_suffix _ _ h0r
  have hWnd : (lc ++ n :: b).Nodup := by
    rw [List.nodup_append]
    refine ⟨hlnd, hnb_nd, ?_⟩
    intro x hx hxb
    rcases hlvis x hx with e | e
    · subst e
      apply hc_l0
      rw [hl0]
      exact List.mem_append_right _ hxb
    · rw [hsuf x (hnb_sub x hxb)] at e
      exact Bool.noConfusion e
  have hEq := huniq _ hW hWnd
  apply hc_l0
  rw [← hEq]
  exact List.mem_append_left _ hcl


/-! ### Progress along the unique route -/

theorem routeProgress_nil {R C : Nat} (l0 : List Point) (g : Grid R C) :
    ¬ RouteProgress l0 g [] := by
  rintro ⟨_, cur, _, _, _, _, h, _⟩
  exact List.not_mem_nil cur h

theorem routeProgress_skip {R C : Nat} (l0 : List Point) (g : Grid R C) (c : Point)
    (rest : List Point) (hP : RouteProgress l0 g (c :: rest))
    (hcv : (nodeAt g c).visited = true) : RouteProgress l0 g (pqPop g (c :: rest)) := by
  obtain ⟨pre, cur, suf, h1, h2, h3, h4, h5⟩ := hP
  refine ⟨pre, cur, suf, h1, h2, h3, ?_, h5⟩
  rw [(pqPop_perm g c rest).mem_iff]
  rcases List.mem_cons.mp h4 with h | h
  · subst h
    rw [h3 cur (List.mem_cons_self _ _)] at hcv
    exact Bool.noConfusion hcv
  · exact h

theorem routeProgress_expand {R C : Nat} {B : Nat} {g0 g : Grid R C} {s t c : Point}
    {rest l0 : List Point} (hroute : RouteFromTo g0 s t l0) (hnd : l0.Nodup)
    (huniq : ∀ l, RouteFromTo g0 s t l → l.Nodup → l = l0) (hB : l0.length ≤ B + 1)
    (inv : AStarInv B g0 s g (c :: rest)) (hP : RouteProgress l0 g (c :: rest))
    (hcv : (nodeAt g c).visited = false) (hct : c ≠ t) :
    RouteProgress l0
      ([0, 1, 2, 3].foldl (relaxNeighbor B t c)
        (setNode g c.x c.y { getNode g c.x c.y with visited := true },
          pqPop g (c :: rest))).1
      ([0, 1, 2, 3].foldl (relaxNeighbor B t c)
        (setNode g c.x c.y { getNode g c.x c.y with visited := true },
          pqPop g (c :: rest))).2 := by
  obtain ⟨pre, cur, suf, hsplit, hpre, hsuf, hcur, hg⟩ := hP
  have hc := inv.os_ok c (List.mem_cons_self _ _)
  obtain ⟨inv1, _, v1, vc⟩ := astarInv_close inv hcv
  obtain ⟨_, _, _, v2⟩ := relaxFold_inv (t := t) hc.1 [0, 1, 2, 3]
    (setNode g c.x c.y { getNode g c.x c.y with visited := true }, pqPop g (c :: rest))
    inv1 vc
  obtain ⟨f1, f2, f3⟩ := relaxFold_effect (t := t) hc.1 [0, 1, 2, 3]
    (setNode g c.x c.y { getNode g c.x c.y with visited := true }, pqPop g (c :: rest))
    inv1 vc
  have hclosed_ne : ∀ p, p ≠ c →
      nodeAt (setNode g c.x c.y { getNode g c.x c.y with visited := true }) p = nodeAt g p :=
    fun p hp => nodeAt_setNode_ne _ _ _ _ hp
  have hclosed_g :
      (nodeAt (setNode g c.x c.y { getNode g c.x c.y with visited := true }) c).g_cost =
        (nodeAt g c).g_cost := by
    rw [nodeAt_setNode_same _ _ _ hc.1]
  by_cases hcc : c = cur
  · subst hcc
    cases suf with
    | nil =>
      exfalso
      apply hct
      have := hroute.2.1
      rw [hsplit, getLast?_append_cons_eq] at this
      simpa using this
    | cons nxt suf' =>
      have hstep : StepTo c nxt ∧ Free g0 nxt := by
        have := hroute.2.2
        rw [hsplit] at this
        exact route_step _ _ _ _ this
      rw [hsplit] at hnd
      have hnd2 := (List.nodup_append.mp hnd).2.1
      have hnxt_ne : nxt ≠ c := by
        rintro rfl
        exact (List.nodup_cons.mp hnd2).1 (List.mem_cons_self _ _)
      obtain ⟨k, hk, hkn⟩ := stepTo_exists_dir hstep.1
      have hlen : (pre.length : Int) + 1 ≤ (B : Int) := by
        rw [hsplit] at hB
        simp only [List.length_append, List.length_cons] at hB
        omega
      have hnxt_unv : (nodeAt (setNode g c.x c.y { getNode g c.x c.y with visited := true })
          nxt).visited = false := by
        rw [hclosed_ne nxt hnxt_ne]
        exact hsuf nxt (by simp)
      have := f3 k (by
          have : k = 0 ∨ k = 1 ∨ k = 2 ∨ k = 3 := by omega
          rcases this with rfl | rfl | rfl | rfl <;> simp)
        (by decide) (by decide) (by rw [← hkn]; exact hstep.2)
        (by rw [hclosed_g, hg]; exact hlen) (by rw [← hkn]; exact hnxt_unv)
      rw [← hkn, hclosed_g, hg] at this
      refine ⟨pre ++ [c], nxt, suf', by rw [hsplit]; simp, ?_, ?_, this.1, ?_⟩
      · intro x hx
        rw [v2]
        rcases List.mem_append.mp hx with h | h
        · by_cases e : x = c
          · subst e
            exact vc
          · rw [v1 x e]
            exact hpre x h
        · rw [List.mem_singleton] at h
          subst h
          exact vc
      · intro x hx
        have hxne : x ≠ c := by
          rintro rfl
          exact (List.nodup_cons.mp hnd2).1 hx
        rw [v2, v1 x hxne]
        exact hsuf x (List.mem_cons_of_mem _ hx)
      · rw [this.2]
        simp
  · obtain ⟨hc_l0, hnb⟩ := off_route_cell hroute hnd huniq inv hsplit hpre hsuf hcv hcc
    have hcur_ne : cur ≠ c := fun e => hcc e.symm
    have hcur_dir : ∀ k ∈ [0, 1, 2, 3], cur ≠ (⟨c.x + dx k, c.y + dy k⟩ : Point) := by
      intro k hk e
      have hk4 : k < 4 := by
        simp only [List.mem_cons, List.mem_singleton, List.not_mem_nil, or_false] at hk
        omega
      exact hnb cur (List.mem_cons_self _ _) (by rw [e]; exact stepTo_dir c k hk4)
    refine ⟨pre, cur, suf, hsplit, ?_, ?_, ?_, ?_⟩
    · intro x hx
      have hxne : x ≠ c := by
        rintro rfl
        apply hc_l0
        rw [hsplit]
        exact List.mem_append_left _ hx
      rw [v2, v1 x hxne]
      exact hpre x hx
    · intro x hx
      have hxne : x ≠ c := by
        rintro rfl
        apply hc_l0
        rw [hsplit]
        exact List.mem_append_right _ hx
      rw [v2, v1 x hxne]
      exact hsuf x hx
    · apply f2
      rw [(pqPop_perm g c rest).mem_iff]
      rcases List.mem_cons.mp hcur with h | h
      · exact absurd h hcur_ne
      · exact h
    · rw [f1 cur hcur_dir, hclosed_ne cur hcur_ne]
      exact hg

/-- With a ceiling of at least its number of steps, `runAStar` returns true when exactly one
route without repetition leads from start to goal. -/
theorem astar_finds_unique_route {R C : Nat} (B : Nat) (g : Grid R C) (s t : Point)
    (l0 : List Point) (w : WF g) (hs : inGrid R C s) (hroute : RouteFromTo g s t l0)
    (hnd : l0.Nodup) (huniq : ∀ l, RouteFromTo g s t l → l.Nodup → l = l0)
    (hB : l0.length ≤ B + 1) : foundOf (runAStar B s t g) = some true := by
  have inv := astarInv_init B g s
    (calculateHeuristic (getNode (resetGridState g) s.x s.y).pos t) w hs
  have hall : ∀ p, inGrid R C p → (nodeAt (setNode (resetGridState g) s.x s.y
      { getNode (resetGridState g) s.x s.y with
        g_cost := 0,
        h_cost := calculateHeuristic (getNode (resetGridState g) s.x s.y).pos t,
        f_cost := 0 + calculateHeuristic (getNode (resetGridState g) s.x s.y).pos t })
      p).visited = false := by
    intro p _
    by_cases e : p = s
    · subst e
      rw [nodeAt_setNode_same _ _ _ hs]
      exact (nodeAt_reset g p).1
    · rw [nodeAt_setNode_ne _ _ _ _ e]
      exact (nodeAt_reset g p).1
  have hall' : ∀ p, (nodeAt (setNode (resetGridState g) s.x s.y
      { getNode (resetGridState g) s.x s.y with
        g_cost := 0,
        h_cost := calculateHeuristic (getNode (resetGridState g) s.x s.y).pos t,
        f_cost := 0 + calculateHeuristic (getNode (resetGridState g) s.x s.y).pos t })
      p).visited = false := by
    intro p
    by_cases e : p = s
    · subst e
      rw [nodeAt_setNode_same _ _ _ hs]
      exact (nodeAt_reset g p).1
    · rw [nodeAt_setNode_ne _ _ _ _ e]
      exact (nodeAt_reset g p).1
  obtain ⟨tl, htl⟩ : ∃ tl, l0 = s :: tl := by
    have := hroute.1
    cases l0 with
    | nil => simp at this
    | cons a tl =>
      simp only [List.head?_cons, Option.some.injEq] at this
      exact ⟨tl, by rw [this]⟩
  have hP : RouteProgress l0 (setNode (resetGridState g) s.x s.y
      { getNode (resetGridState g) s.x s.y with
        g_cost := 0,
        h_cost := calculateHeuristic (getNode (resetGridState g) s.x s.y).pos t,
        f_cost := 0 + calculateHeuristic (getNode (resetGridState g) s.x s.y).pos t }) [s] :=
    ⟨[], s, tl, by rw [htl]; rfl, fun x hx => absurd hx (List.not_mem_nil x),
      fun x _ => hall' x, List.mem_singleton.mpr rfl, by rw [inv.s_g]; rfl⟩
  have hm : 5 * (unvisited (setNode (resetGridState g) s.x s.y
      { getNode (resetGridState g) s.x s.y with
        g_cost := 0,
        h_cost := calculateHeuristic (getNode (resetGridState g) s.x s.y).pos t,
        f_cost := 0 + calculateHeuristic (getNode (resetGridState g) s.x s.y).pos t })).card +
      [s].length < 5 * (R * C) + 2 := by
    have := unvisited_card_le (setNode (resetGridState g) s.x s.y
      { getNode (resetGridState g) s.x s.y with
        g_cost := 0,
        h_cost := calculateHeuristic (getNode (resetGridState g) s.x s.y).pos t,
        f_cost := 0 + calculateHeuristic (getNode (resetGridState g) s.x s.y).pos t })
    simp only [List.length_singleton]
    dsimp only at this
    omega
  obtain ⟨g', e⟩ := @astarLoop_progress R C B g s t
    (RouteProgress l0) (routeProgress_nil l0)
    (fun g1 c rest _ hP1 hcv => routeProgress_skip l0 g1 c rest hP1 hcv)
    (fun g1 c rest inv1 hP1 hcv hct =>
      routeProgress_expand hroute hnd huniq hB inv1 hP1 hcv hct)
    (5 * (R * C) + 2) _ _ inv (hall' t) hP hm
  have : runAStar B s t g = some (true, g') := by
    rw [← e]
    simp only [runAStar, pqPush_nil]
  rw [this]
  rfl

set_option maxRecDepth 100000

/-- C4: on every well-formed grid in which exactly one route without repetition, `l0`, leads
from the in-bounds start to the in-bounds goal (`L = l0.length - 1` steps), `runAStar` with
ceiling `B` returns false when `B ≤ L - 1`, and returns true when `B ≥ L`, in which case
`getPath(goal)` returns that route, which has `L + 1` cells. -/
theorem ceiling_semantics {R C : Nat} (g : Grid R C) (s t : Point) (l0 : List Point) (B : Nat)
    (w : WF g) (hs : inGrid R C s) (ht : inGrid R C t) (hroute : RouteFromTo g s t l0)
    (hnd : l0.Nodup) (huniq : ∀ l, RouteFromTo g s t l → l.Nodup → l = l0) :
    (B + 1 < l0.length → foundOf (runAStar B s t g) = some false) ∧
    (l0.length ≤ B + 1 → foundOf (runAStar B s t g) = some true ∧
      pathOf t (runAStar B s t g) = some l0) := by
  obtain ⟨b, g', os, e, inv, h1, h2⟩ := runAStar_spec B g s t w hs
  have ho := (astar_outcome ht inv h1 h2).1
  constructor
  · intro hlt
    rw [e, foundOf_some]
    cases b with
    | false => rfl
    | true =>
      obtain ⟨l, _, a2, a3, a4, a5⟩ := ho rfl
      have := huniq l a2 a5
      subst this
      omega
  · intro hle
    have hf := astar_finds_unique_route B g s t l0 w hs hroute hnd huniq hle
    refine ⟨hf, ?_⟩
    rw [e, foundOf_some] at hf
    obtain ⟨l, a1, a2, _, _, a5⟩ := ho (Option.some.inj hf)
    rw [e, pathOf_some, a1, huniq l a2 a5]

/-- On the 1 × 2 grid, the only route without repetition from `(0, 0)` to `(0, 1)` is the
two-cell one. -/
theorem corridor_unique (l : List Point)
    (hl : RouteFromTo (gridWith 1 2 []) ⟨0, 0⟩ ⟨0, 1⟩ l) (hnd : l.Nodup) :
    l = [⟨0, 0⟩, ⟨0, 1⟩] := by
  obtain ⟨l', rfl, hc, hlast⟩ := route_cases hl
  cases l' with
  | nil => exact absurd hlast (by decide)
  | cons a l'' =>
    rw [List.chain_cons] at hc
    obtain ⟨⟨hstep, hfree⟩, hc'⟩ := hc
    obtain ⟨i, hi, rfl⟩ := stepTo_exists_dir hstep
    have hi' : i = 0 ∨ i = 1 ∨ i = 2 ∨ i = 3 := by omega
    rcases hi' with rfl | rfl | rfl | rfl
    · exact absurd hfree (by decide)
    · exact absurd hfree (by decide)
    · exact absurd hfree (by decide)
    · cases l'' with
      | nil => rfl
      | cons b l3 =>
        rw [List.chain_cons] at hc'
        obtain ⟨⟨hstep', hfree'⟩, _⟩ := hc'
        obtain ⟨j, hj, rfl⟩ := stepTo_exists_dir hstep'
        have hj' : j = 0 ∨ j = 1 ∨ j = 2 ∨ j = 3 := by omega
        rcases hj' with rfl | rfl | rfl | rfl
        · exact absurd hfree' (by decide)
        · exact absurd hfree' (by decide)
        · exfalso
          rw [List.nodup_cons] at hnd
          apply hnd.1
          apply List.mem_cons_of_mem
          have e : (⟨(⟨(⟨0, 0⟩ : Point).x + dx 3, (⟨0, 0⟩ : Point).y + dy 3⟩ : Point).x + dx 2,
              (⟨(⟨0, 0⟩ : Point).x + dx 3, (⟨0, 0⟩ : Point).y + dy 3⟩ : Point).y + dy 2⟩ :
                Point) = ⟨0, 0⟩ := by decide
          rw [e]
          exact List.mem_cons_self _ _
        · exact absurd hfree' (by decide)

/-- Witness of C4 on the 1 × 2 grid with ceiling 1. -/
theorem ceiling_semantics_witness :
    WF (gridWith 1 2 []) ∧ inGrid 1 2 ⟨0, 0⟩ ∧ inGrid 1 2 ⟨0, 1⟩ ∧
    RouteFromTo (gridWith 1 2 []) ⟨0, 0⟩ ⟨0, 1⟩ [⟨0, 0⟩, ⟨0, 1⟩] ∧
    [(⟨0, 0⟩ : Point), ⟨0, 1⟩].Nodup ∧
    (∀ l, RouteFromTo (gridWith 1 2 []) ⟨0, 0⟩ ⟨0, 1⟩ l → l.Nodup → l = [⟨0, 0⟩, ⟨0, 1⟩]) ∧
    ((1 + 1 < [(⟨0, 0⟩ : Point), ⟨0, 1⟩].length →
        foundOf (runAStar 1 ⟨0, 0⟩ ⟨0, 1⟩ (gridWith 1 2 [])) = some false) ∧
      ([(⟨0, 0⟩ : Point), ⟨0, 1⟩].length ≤ 1 + 1 →
        foundOf (runAStar 1 ⟨0, 0⟩ ⟨0, 1⟩ (gridWith 1 2 [])) = some true ∧
        pathOf ⟨0, 1⟩ (runAStar 1 ⟨0, 0⟩ ⟨0, 1⟩ (gridWith 1 2 [])) =
          some [⟨0, 0⟩, ⟨0, 1⟩])) :=
  ⟨WF_gridWith 1 2 _, by decide, by decide, by decide, by decide, corridor_unique,
    ceiling_semantics (gridWith 1 2 []) ⟨0, 0⟩ ⟨0, 1⟩ [⟨0, 0⟩, ⟨0, 1⟩] 1 (WF_gridWith 1 2 _)
      (by decide) (by decide) (by decide) (by decide) corridor_unique⟩

/-! ## Bounds check, reset and heuristic -/

/-- C12: for all integers `r` and `c`, negative and too large ones included, `isValid(r, c)`
is true iff `0 <= r < ROWS` and `0 <= c < COLS`, and `isBlocked(r, c)` is true iff
`isValid(r, c)` is false or the cell at `(r, c)` has type `OBSTACLE`; a coordinate pair out of
range is reported invalid, and blocked whatever the grid holds. -/
theorem bounds_and_blocked {R C : Nat} (g : Grid R C) (r c : Int) :
    (isValid R C r c = true ↔ 0 ≤ r ∧ r < (R : Int) ∧ 0 ≤ c ∧ c < (C : Int)) ∧
    (isBlocked g r c = true ↔
      isValid R C r c = false ∨ (getNode g r c).type = CellType.OBSTACLE) ∧
    (¬ (0 ≤ r ∧ r < (R : Int) ∧ 0 ≤ c ∧ c < (C : Int)) →
      isValid R C r c = false ∧ ∀ g' : Grid R C, isBlocked g' r c = true) := by
  refine ⟨isValid_iff, ?_, ?_⟩
  · unfold isBlocked
    cases h : isValid R C r c <;> simp
  · intro hn
    have hv : isValid R C r c = false := by
      cases h : isValid R C r c
      · rfl
      · exact absurd (isValid_iff.mp h) hn
    refine ⟨hv, fun g' => ?_⟩
    simp [isBlocked, hv]

/-- C14: `resetGridState`, applied to any grid state, yields a grid in which every cell has
`visited = false`, `parent = none`, `g_cost = 0`, `h_cost = 0` and `f_cost = 0`, with the
cell's `type` and `pos` unchanged; applying it twice gives the same grid as applying it
once. -/
theorem reset_clears_transient {R C : Nat} (g : Grid R C) :
    (∀ (i : Fin R) (j : Fin C),
      (resetGridState g i j).visited = false ∧ (resetGridState g i j).parent = none ∧
      (resetGridState g i j).g_cost = 0 ∧ (resetGridState g i j).h_cost = 0 ∧
      (resetGridState g i j).f_cost = 0 ∧ (resetGridState g i j).type = (g i j).type ∧
      (resetGridState g i j).pos = (g i j).pos) ∧
    resetGridState (resetGridState g) = resetGridState g := by
  refine ⟨fun i j => ⟨rfl, rfl, rfl, rfl, rfl, rfl, rfl⟩, ?_⟩
  funext i j
  rfl

theorem heuristic_step (a a' b : Point) (h : StepTo a a') :
    calculateHeuristic a b ≤ 1 + calculateHeuristic a' b := by
  unfold calculateHeuristic
  unfold StepTo at h
  rcases h with ⟨h1, h2⟩ | ⟨h1, h2⟩ | ⟨h1, h2⟩ | ⟨h1, h2⟩ <;> rw [h1, h2] <;>
    rcases abs_cases (a.x - b.x) with ⟨e1, _⟩ | ⟨e1, _⟩ <;>
    rcases abs_cases (a.y - b.y) with ⟨e2, _⟩ | ⟨e2, _⟩ <;>
    rw [e1, e2] <;>
    first
    | (rcases abs_cases (a.x - 1 - b.x) with ⟨e3, _⟩ | ⟨e3, _⟩ <;> rw [e3] <;> omega)
    | (rcases abs_cases (a.x + 1 - b.x) with ⟨e3, _⟩ | ⟨e3, _⟩ <;> rw [e3] <;> omega)
    | (rcases abs_cases (a.y - 1 - b.y) with ⟨e3, _⟩ | ⟨e3, _⟩ <;> rw [e3] <;> omega)
    | (rcases abs_cases (a.y + 1 - b.y) with ⟨e3, _⟩ | ⟨e3, _⟩ <;> rw [e3] <;> omega)

theorem heuristic_self (b : Point) : calculateHeuristic b b = 0 := by
  simp [calculateHeuristic]

/-- The heuristic is at most the number of steps of a walk of adjacent cells. -/
theorem heuristic_walk (b : Point) :
    ∀ (l : List Point) (a : Point), List.Chain StepTo a l →
      (a :: l).getLast (List.cons_ne_nil a l) = b →
      calculateHeuristic a b ≤ (l.length : Int) := by
  intro l
  induction l with
  | nil =>
    intro a _ hlast
    simp at hlast
    subst hlast
    simp [heuristic_self]
  | cons q l ih =>
    intro a hch hlast
    rw [List.chain_cons] at hch
    have h1 := heuristic_step a q b hch.1
    have h2 := ih q hch.2 (by rw [List.getLast_cons (List.cons_ne_nil q l)] at hlast; exact hlast)
    simp only [List.length_cons, Nat.cast_add, Nat.cast_one]
    omega

/-- C16: `calculateHeuristic(a, b)` equals `|a.x - b.x| + |a.y - b.y|`; it is zero from a cell
to itself, it drops by at most one between two cells one step apart (consistency), and it
never exceeds the number of steps of a sequence of cells, each one step from the one before,
that leads from `a` to `b` (admissibility).  Coordinates are unbounded integers here, the
in-grid points of the source among them. -/
theorem heuristic_admissible_consistent (a b : Point) :
    calculateHeuristic a b = |a.x - b.x| + |a.y - b.y| ∧
    calculateHeuristic b b = 0 ∧
    (∀ a', StepTo a a' → calculateHeuristic a b ≤ 1 + calculateHeuristic a' b) ∧
    (∀ l : List Point, l.head? = some a → l.getLast? = some b → List.Chain' StepTo l →
      calculateHeuristic a b ≤ (l.length : Int) - 1) := by
  refine ⟨rfl, heuristic_self b, fun a' h => heuristic_step a a' b h, ?_⟩
  intro l hh hl hc
  cases l with
  | nil => simp at hh
  | cons x l =>
    simp at hh
    subst hh
    have hlast : (x :: l).getLast (List.cons_ne_nil x l) = b := by
      rw [List.getLast?_eq_getLast _ (List.cons_ne_nil x l)] at hl
      exact Option.some.inj hl
    have := heuristic_walk b l x hc hlast
    simp only [List.length_cons, Nat.cast_add, Nat.cast_one]
    omega

/-! ## Frame of the runs -/

theorem static_cells {R C : Nat} {g g' : Grid R C} (h : SameStatic g g') :
    ∀ (i : Fin R) (j : Fin C), (g' i j).type = (g i j).type ∧ (g' i j).pos = (g i j).pos :=
  fun i j => ⟨(h i j).2, (h i j).1⟩

/-- C13: on every well-formed grid, every in-bounds start and every goal, each of `runBFS`,
`runDFS` and `runAStar` returns, and in the grid it leaves every cell has the `type` and the
`pos` it had before the call.  (`getPath` only reads the grid: it yields a sequence and no
grid.) -/
theorem runs_keep_type_and_pos {R C : Nat} (B : Nat) (g : Grid R C) (s t : Point) (w : WF g)
    (hs : inGrid R C s) :
    (∃ b g', runBFS s t g = some (b, g') ∧
      ∀ (i : Fin R) (j : Fin C), (g' i j).type = (g i j).type ∧ (g' i j).pos = (g i j).pos) ∧
    (∃ b g', runDFS s t g = some (b, g') ∧
      ∀ (i : Fin R) (j : Fin C), (g' i j).type = (g i j).type ∧ (g' i j).pos = (g i j).pos) ∧
    (∃ b g', runAStar B s t g = some (b, g') ∧
      ∀ (i : Fin R) (j : Fin C), (g' i j).type = (g i j).type ∧ (g' i j).pos = (g i j).pos) := by
  refine ⟨?_, ?_, ?_⟩
  · obtain ⟨b, g', d, ext, e, inv, _, _⟩ := runBFS_spec g s t w hs
    exact ⟨b, g', e, static_cells inv.static⟩
  · obtain ⟨b, g', d, ext, e, inv, _, _⟩ := runDFS_spec g s t w hs
    exact ⟨b, g', e, static_cells inv.static⟩
  · obtain ⟨b, g', os, e, inv, _, _⟩ := runAStar_spec B g s t w hs
    exact ⟨b, g', e, static_cells inv.static⟩

/-- Witness of C13 on the 3 × 3 grid with an obstacle in the middle. -/
theorem runs_keep_type_and_pos_witness :
    WF (gridWith 3 3 [(1, 1)]) ∧ inGrid 3 3 ⟨0, 0⟩ ∧
    ((∃ b g', runBFS ⟨0, 0⟩ ⟨2, 2⟩ (gridWith 3 3 [(1, 1)]) = some (b, g') ∧
      ∀ (i : Fin 3) (j : Fin 3), (g' i j).type = (gridWith 3 3 [(1, 1)] i j).type ∧
        (g' i j).pos = (gridWith 3 3 [(1, 1)] i j).pos) ∧
    (∃ b g', runDFS ⟨0, 0⟩ ⟨2, 2⟩ (gridWith 3 3 [(1, 1)]) = some (b, g') ∧
      ∀ (i : Fin 3) (j : Fin 3), (g' i j).type = (gridWith 3 3 [(1, 1)] i j).type ∧
        (g' i j).pos = (gridWith 3 3 [(1, 1)] i j).pos) ∧
    (∃ b g', runAStar 100 ⟨0, 0⟩ ⟨2, 2⟩ (gridWith 3 3 [(1, 1)]) = some (b, g') ∧
      ∀ (i : Fin 3) (j : Fin 3), (g' i j).type = (gridWith 3 3 [(1, 1)] i j).type ∧
        (g' i j).pos = (gridWith 3 3 [(1, 1)] i j).pos)) :=
  ⟨WF_gridWith 3 3 _, by decide,
    runs_keep_type_and_pos 100 _ _ _ (WF_gridWith 3 3 _) (by decide)⟩

/-! ## Accumulated cost and the ceiling -/

theorem inGrid_fin {R C : Nat} (i : Fin R) (j : Fin C) :
    inGrid R C ⟨(i.val : Int), (j.val : Int)⟩ := by
  show isValid R C (i.val : Int) (j.val : Int) = true
  rw [isValid_iff]
  have := i.isLt
  have := j.isLt
  omega

/-- C18: after `runAStar` with ceiling `B` (`MAX_BATTERY` in the source) on a well-formed grid
with in-bounds start and goal, every cell's `g_cost` is between 0 and `B`, and when the run
returns true the path `getPath(goal)` returns has at most `goal.g_cost + 1` cells, hence at
most `B + 1` cells. -/
theorem battery_bounds_costs {R C : Nat} (B : Nat) (g : Grid R C) (s t : Point) (w : WF g)
    (hs : inGrid R C s) (ht : inGrid R C t) :
    ∃ b g', runAStar B s t g = some (b, g') ∧
      (∀ (i : Fin R) (j : Fin C), 0 ≤ (g' i j).g_cost ∧ (g' i j).g_cost ≤ (B : Int)) ∧
      (b = true → ∃ path, getPath t g' = some path ∧
        (path.length : Int) ≤ (nodeAt g' t).g_cost + 1 ∧ path.length ≤ B + 1) := by
  obtain ⟨b, g', os, e, inv, h1, h2⟩ := runAStar_spec B g s t w hs
  refine ⟨b, g', e, ?_, ?_⟩
  · intro i j
    have a1 := inv.g_nonneg _ (inGrid_fin i j)
    have a2 := inv.g_le _ (inGrid_fin i j)
    simp only [nodeAt, getNode_fin] at a1 a2
    exact ⟨a1, a2⟩
  · intro hb
    obtain ⟨l, a1, _, a3, a4, _⟩ := (astar_outcome ht inv h1 h2).1 hb
    refine ⟨l, a1, a3, ?_⟩
    omega

/-- Witness of C18 on the 3 × 3 grid with an obstacle in the middle and ceiling 100. -/
theorem battery_bounds_costs_witness :
    WF (gridWith 3 3 [(1, 1)]) ∧ inGrid 3 3 ⟨0, 0⟩ ∧ inGrid 3 3 ⟨2, 2⟩ ∧
    ∃ b g', runAStar 100 ⟨0, 0⟩ ⟨2, 2⟩ (gridWith 3 3 [(1, 1)]) = some (b, g') ∧
      (∀ (i : Fin 3) (j : Fin 3), 0 ≤ (g' i j).g_cost ∧ (g' i j).g_cost ≤ ((100 : Nat) : Int)) ∧
      (b = true → ∃ path, getPath ⟨2, 2⟩ g' = some path ∧
        (path.length : Int) ≤ (nodeAt g' ⟨2, 2⟩).g_cost + 1 ∧ path.length ≤ 100 + 1) :=
  ⟨WF_gridWith 3 3 _, by decide, by decide,
    battery_bounds_costs 100 _ _ _ (WF_gridWith 3 3 _) (by decide) (by decide)⟩

/-! ## Parent links -/

theorem grid_pos {R C : Nat} {p : Point} (hp : inGrid R C p) : 0 < R * C := by
  have := isValid_iff.mp hp
  have h1 : 0 < R := by omega
  have h2 : 0 < C := by omega
  exact Nat.mul_pos h1 h2

/-- The backtracking loop stops at once on a cell without parent. -/
theorem getPathLoop_root {R C : Nat} (g : Grid R C) (p : Point) (w : WF g)
    (hp : inGrid R C p) (hpar : (nodeAt g p).parent = none) :
    getPathLoop g (R * C) (some p) [] = some [p] := by
  have hpos : (getNode g p.x p.y).pos = p := w.pos_eq hp
  have hpar' : (getNode g p.x p.y).parent = none := hpar
  obtain ⟨k, hk⟩ : ∃ k, R * C = k + 1 := ⟨R * C - 1, by have := grid_pos hp; omega⟩
  rw [hk]
  simp [getPathLoop, hpos, hpar']

/-- What `getPath` returns once the backtracking loop is known to stop. -/
theorem getPath_isSome {R C : Nat} (g : Grid R C) (t : Point) (l : List Point)
    (h : getPathLoop g (R * C) (some t) [] = some l) : (getPath t g).isSome = true := by
  unfold getPath
  split
  · rfl
  · rw [h]; rfl

/-- After `runBFS` / `runDFS` the parent links from any cell end within `R * C` cells, without
passing a cell twice. -/
theorem search_parent_chain {R C : Nat} {ord : Prop} {g0 g : Grid R C} {s t : Point}
    {ext : List Point} {d : Point → Nat} (inv : SearchInv ord g0 s t g ext d) (p : Point)
    (hp : inGrid R C p) :
    ∃ l, getPathLoop g (R * C) (some p) [] = some l ∧ l.Nodup ∧ l.length ≤ R * C := by
  cases hv : (nodeAt g p).visited with
  | false =>
    refine ⟨[p], getPathLoop_root g p inv.wf hp (inv.unv_par p hp hv), by simp, ?_⟩
    have := grid_pos hp
    simp only [List.length_singleton]
    omega
  | true =>
    obtain ⟨l, h1, _, h3, h4⟩ := search_getPath inv p hp hv
    have hb := inv.d_bound p hp hv
    have hv' : (getNode g p.x p.y).visited = true := hv
    unfold getPath at h1
    simp only [hv', Bool.not_true, Bool.false_and, Bool.false_eq_true, if_false] at h1
    cases e : getPathLoop g (R * C) (some p) [] with
    | none => rw [e] at h1; simp at h1
    | some l' =>
      rw [e] at h1
      simp only [Option.map_some'] at h1
      have hl : l'.reverse = l := Option.some.inj h1
      refine ⟨l', rfl, ?_, ?_⟩
      · rw [← List.nodup_reverse, hl]; exact h4
      · rw [← List.length_reverse, hl, h3]; omega

/-- After `runAStar` the parent links from any cell end within `R * C` cells, without passing a
cell twice. -/
theorem astar_parent_chain {R C : Nat} {B : Nat} {g0 g : Grid R C} {s : Point}
    {os : List Point} (inv : AStarInv B g0 s g os) (p : Point) (hp : inGrid R C p) :
    ∃ l, getPathLoop g (R * C) (some p) [] = some l ∧ l.Nodup ∧ l.length ≤ R * C := by
  by_cases hgood : p = s ∨ (nodeAt g p).parent ≠ none
  · obtain ⟨l, _, hlen, hloop, hnd, _⟩ := astar_chain inv p hp hgood
    have hb := inv.g_bound p hp
    have hle : l.length ≤ R * C := by
      cases hv : (nodeAt g p).visited with
      | true =>
        rw [hv] at hb
        simp only [if_true] at hb
        omega
      | false =>
        obtain ⟨ij, h1, _, _⟩ := toIndex_of_valid hp
        have hm : ij ∈ unvisited g := by
          rw [mem_unvisited]
          simp only [nodeAt, getNode, h1] at hv
          exact hv
        have hc : 0 < (unvisited g).card := Finset.card_pos.mpr ⟨ij, hm⟩
        rw [hv] at hb
        simp only [Bool.false_eq_true, if_false] at hb
        omega
    refine ⟨l.reverse, ?_, List.nodup_reverse.mpr hnd, by simpa using hle⟩
    rw [hloop (R * C) [] hle]
    simp
  · have hpar : (nodeAt g p).parent = none := by
      by_contra h
      exact hgood (Or.inr h)
    refine ⟨[p], getPathLoop_root g p inv.wf hp hpar, by simp, ?_⟩
    have := grid_pos hp
    simp only [List.length_singleton]
    omega

/-- C20: after `runBFS`, `runDFS` or `runAStar` on a well-formed grid with in-bounds start and
goal, the start cell has no parent and the parent links followed from any in-bounds cell reach
a cell without parent within `ROWS * COLS` cells, none of them passed twice; in `runAStar`
`g_cost` strictly decreases along every parent link.  So the backtracking loop of `getPath`
terminates. -/
theorem parent_links_acyclic {R C : Nat} (B : Nat) (g : Grid R C) (s t : Point) (w : WF g)
    (hs : inGrid R C s) (ht : inGrid R C t) :
    (∃ b g', runBFS s t g = some (b, g') ∧ (nodeAt g' s).parent = none ∧
      (∀ p, inGrid R C p →
        ∃ l, getPathLoop g' (R * C) (some p) [] = some l ∧ l.Nodup ∧ l.length ≤ R * C) ∧
      (getPath t g').isSome = true) ∧
    (∃ b g', runDFS s t g = some (b, g') ∧ (nodeAt g' s).parent = none ∧
      (∀ p, inGrid R C p →
        ∃ l, getPathLoop g' (R * C) (some p) [] = some l ∧ l.Nodup ∧ l.length ≤ R * C) ∧
      (getPath t g').isSome = true) ∧
    (∃ b g', runAStar B s t g = some (b, g') ∧ (nodeAt g' s).parent = none ∧
      (∀ p q, inGrid R C p → (nodeAt g' p).parent = some q →
        (nodeAt g' q).g_cost < (nodeAt g' p).g_cost) ∧
      (∀ p, inGrid R C p →
        ∃ l, getPathLoop g' (R * C) (some p) [] = some l ∧ l.Nodup ∧ l.length ≤ R * C) ∧
      (getPath t g').isSome = true) := by
  refine ⟨?_, ?_, ?_⟩
  · obtain ⟨b, g', d, ext, e, inv, _, _⟩ := runBFS_spec g s t w hs
    obtain ⟨l, hl, _⟩ := search_parent_chain inv t ht
    exact ⟨b, g', e, inv.s_par, fun p hp => search_parent_chain inv p hp,
      getPath_isSome g' t l hl⟩
  · obtain ⟨b, g', d, ext, e, inv, _, _⟩ := runDFS_spec g s t w hs
    obtain ⟨l, hl, _⟩ := search_parent_chain inv t ht
    exact ⟨b, g', e, inv.s_par, fun p hp => search_parent_chain inv p hp,
      getPath_isSome g' t l hl⟩
  · obtain ⟨b, g', os, e, inv, _, _⟩ := runAStar_spec B g s t w hs
    obtain ⟨l, hl, _⟩ := astar_parent_chain inv t ht
    refine ⟨b, g', e, inv.s_par, ?_, fun p hp => astar_parent_chain inv p hp,
      getPath_isSome g' t l hl⟩
    intro p q hp hq
    have := (inv.par_ok p q hp hq).2.2.2.2
    omega

/-- Witness of C20 on the 3 × 3 grid with an obstacle in the middle and ceiling 100. -/
theorem parent_links_acyclic_witness :
    WF (gridWith 3 3 [(1, 1)]) ∧ inGrid 3 3 ⟨0, 0⟩ ∧ inGrid 3 3 ⟨2, 2⟩ ∧
    ((∃ b g', runBFS ⟨0, 0⟩ ⟨2, 2⟩ (gridWith 3 3 [(1, 1)]) = some (b, g') ∧
      (nodeAt g' ⟨0, 0⟩).parent = none ∧
      (∀ p, inGrid 3 3 p →
        ∃ l, getPathLoop g' (3 * 3) (some p) [] = some l ∧ l.Nodup ∧ l.length ≤ 3 * 3) ∧
      (getPath ⟨2, 2⟩ g').isSome = true) ∧
    (∃ b g', runDFS ⟨0, 0⟩ ⟨2, 2⟩ (gridWith 3 3 [(1, 1)]) = some (b, g') ∧
      (nodeAt g' ⟨0, 0⟩).parent = none ∧
      (∀ p, inGrid 3 3 p →
        ∃ l, getPathLoop g' (3 * 3) (some p) [] = some l ∧ l.Nodup ∧ l.length ≤ 3 * 3) ∧
      (getPath ⟨2, 2⟩ g').isSome = true) ∧
    (∃ b g', runAStar 100 ⟨0, 0⟩ ⟨2, 2⟩ (gridWith 3 3 [(1, 1)]) = some (b, g') ∧
      (nodeAt g' ⟨0, 0⟩).parent = none ∧
      (∀ p q, inGrid 3 3 p → (nodeAt g' p).parent = some q →
        (nodeAt g' q).g_cost < (nodeAt g' p).g_cost) ∧
      (∀ p, inGrid 3 3 p →
        ∃ l, getPathLoop g' (3 * 3) (some p) [] = some l ∧ l.Nodup ∧ l.length ≤ 3 * 3) ∧
      (getPath ⟨2, 2⟩ g').isSome = true)) :=
  ⟨WF_gridWith 3 3 _, by decide, by decide,
    parent_links_acyclic 100 _ _ _ (WF_gridWith 3 3 _) (by decide) (by decide)⟩

set_option maxRecDepth 100000

/-! ## Obstacle-free grids -/

/-- Without obstacle cells, every in-bounds cell is free. -/
theorem free_of_no_obstacle {R C : Nat} {g : Grid R C}
    (hfree : ∀ (i : Fin R) (j : Fin C), (g i j).type ≠ CellType.OBSTACLE) {p : Point}
    (hp : inGrid R C p) : Free g p := by
  refine ⟨hp, ?_⟩
  obtain ⟨ij, h1, _, _⟩ := toIndex_of_valid hp
  have hv : isValid R C p.x p.y = true := hp
  simp only [isBlocked, hv, Bool.not_true, Bool.false_eq_true, if_false, getNode, h1]
  simpa using hfree ij.1 ij.2

/-- Without obstacle cells, a route with one cell more than the Manhattan distance leads from
any in-bounds cell to any other. -/
theorem manhattan_route {R C : Nat} {g : Grid R C}
    (hfree : ∀ (i : Fin R) (j : Fin C), (g i j).type ≠ CellType.OBSTACLE) (t : Point)
    (ht : inGrid R C t) :
    ∀ (n : Nat) (s : Point), inGrid R C s → calculateHeuristic s t = (n : Int) →
      ∃ l, RouteFromTo g s t l ∧ l.length = n + 1 := by
  have hT := isValid_iff.mp ht
  intro n
  induction n with
  | zero =>
    intro s _ hd
    unfold calculateHeuristic at hd
    have h1 := abs_nonneg (s.x - t.x)
    have h2 := abs_nonneg (s.y - t.y)
    have e1 : s.x - t.x = 0 := abs_eq_zero.mp (by push_cast at hd; omega)
    have e2 : s.y - t.y = 0 := abs_eq_zero.mp (by push_cast at hd; omega)
    have e : s = t := by
      cases s; cases t
      simp only [Point.mk.injEq] at e1 e2 ⊢
      constructor <;> omega
    subst e
    exact ⟨[s], ⟨rfl, rfl, trivial⟩, rfl⟩
  | succ n ih =>
    intro s hs hd
    have hS := isValid_iff.mp hs
    unfold calculateHeuristic at hd
    push_cast at hd
    have step : ∃ s', StepTo s s' ∧ inGrid R C s' ∧ calculateHeuristic s' t = (n : Int) := by
      rcases abs_cases (s.x - t.x) with ⟨e1, c1⟩ | ⟨e1, c1⟩ <;>
        rcases abs_cases (s.y - t.y) with ⟨e2, c2⟩ | ⟨e2, c2⟩
      · by_cases hx : s.x = t.x
        · refine ⟨⟨s.x, s.y - 1⟩, Or.inr (Or.inr (Or.inl ⟨rfl, rfl⟩)), ?_, ?_⟩
          · show isValid R C s.x (s.y - 1) = true
            rw [isValid_iff]; omega
          · unfold calculateHeuristic
            show |s.x - t.x| + |s.y - 1 - t.y| = (n : Int)
            rw [e1, abs_of_nonneg (by omega)]; omega
        · refine ⟨⟨s.x - 1, s.y⟩, Or.inl ⟨rfl, rfl⟩, ?_, ?_⟩
          · show isValid R C (s.x - 1) s.y = true
            rw [isValid_iff]; omega
          · unfold calculateHeuristic
            show |s.x - 1 - t.x| + |s.y - t.y| = (n : Int)
            rw [e2, abs_of_nonneg (by omega)]; omega
      · by_cases hx : s.x = t.x
        · refine ⟨⟨s.x, s.y + 1⟩, Or.inr (Or.inr (Or.inr ⟨rfl, rfl⟩)), ?_, ?_⟩
          · show isValid R C s.x (s.y + 1) = true
            rw [isValid_iff]; omega
          · unfold calculateHeuristic
            show |s.x - t.x| + |s.y + 1 - t.y| = (n : Int)
            rw [e1, abs_of_nonpos (by omega)]; omega
        · refine ⟨⟨s.x - 1, s.y⟩, Or.inl ⟨rfl, rfl⟩, ?_, ?_⟩
          · show isValid R C (s.x - 1) s.y = true
            rw [isValid_iff]; omega
          · unfold calculateHeuristic
            show |s.x - 1 - t.x| + |s.y - t.y| = (n : Int)
            rw [e2, abs_of_nonneg (by omega)]; omega
      · refine ⟨⟨s.x + 1, s.y⟩, Or.inr (Or.inl ⟨rfl, rfl⟩), ?_, ?_⟩
        · show isValid R C (s.x + 1) s.y = true
          rw [isValid_iff]; omega
        · unfold calculateHeuristic
          show |s.x + 1 - t.x| + |s.y - t.y| = (n : Int)
          rw [e2, abs_of_nonpos (by omega)]; omega
      · refine ⟨⟨s.x + 1, s.y⟩, Or.inr (Or.inl ⟨rfl, rfl⟩), ?_, ?_⟩
        · show isValid R C (s.x + 1) s.y = true
          rw [isValid_iff]; omega
        · unfold calculateHeuristic
          show |s.x + 1 - t.x| + |s.y - t.y| = (n : Int)
          rw [e2, abs_of_nonpos (by omega)]; omega
    obtain ⟨s', hstep, hs', hd'⟩ := step
    obtain ⟨l, ⟨hh, hl, hr⟩, hlen⟩ := ih s' hs' hd'
    cases l with
    | nil => simp at hh
    | cons x l' =>
      simp only [List.head?_cons, Option.some.injEq] at hh
      subst hh
      refine ⟨s :: x :: l', ⟨rfl, ?_, ⟨hstep, free_of_no_obstacle hfree hs'⟩, hr⟩, ?_⟩
      · rw [List.getLast?_cons_cons]; exact hl
      · simp only [List.length_cons] at hlen ⊢
        omega

/-- C11: on a well-formed grid without obstacle cell, for every in-bounds start and goal,
`runBFS` returns true and the path `getPath(goal)` returns has exactly
`1 + |start.x - goal.x| + |start.y - goal.y|` cells. -/
theorem bfs_manhattan_on_free_grid {R C : Nat} (g : Grid R C) (s t : Point) (w : WF g)
    (hs : inGrid R C s) (ht : inGrid R C t)
    (hfree : ∀ (i : Fin R) (j : Fin C), (g i j).type ≠ CellType.OBSTACLE) :
    foundOf (runBFS s t g) = some true ∧
    ∃ path, pathOf t (runBFS s t g) = some path ∧
      (path.length : Int) = 1 + |s.x - t.x| + |s.y - t.y| := by
  have hnn : 0 ≤ calculateHeuristic s t := by
    unfold calculateHeuristic
    have := abs_nonneg (s.x - t.x)
    have := abs_nonneg (s.y - t.y)
    omega
  obtain ⟨n, hn⟩ := Int.eq_ofNat_of_zero_le hnn
  obtain ⟨l0, hr0, hlen0⟩ := manhattan_route hfree t ht n s hs hn
  obtain ⟨b, g', d, ext, e, inv, h1, h2⟩ := runBFS_spec g s t w hs
  have hb : b = true := by
    cases hb : b with
    | true => rfl
    | false => exact absurd ⟨l0, hr0⟩ ((search_outcome ht inv h1 h2).2 hb).1
  obtain ⟨l, a1, a2, a3, _⟩ := (search_outcome ht inv h1 h2).1 hb
  obtain ⟨rest, rfl⟩ := h1 hb
  have up := bfs_shortest inv l0 hr0
  obtain ⟨l', rfl, hc, hlast⟩ := route_cases a2
  have low := heuristic_walk t l' s (hc.imp (fun {_ _} h => h.1)) hlast
  refine ⟨by rw [e, foundOf_some, hb], s :: l', by rw [e, pathOf_some]; exact a1, ?_⟩
  have hm : |s.x - t.x| + |s.y - t.y| = (n : Int) := hn
  simp only [List.length_cons] at a3 up ⊢
  push_cast
  omega

/-- Witness of C11 on the obstacle-free 20 × 20 grid, start `(0, 0)`, goal `(2, 2)`: five
cells. -/
theorem bfs_manhattan_on_free_grid_witness :
    WF (initGrid ROWS COLS) ∧ inGrid ROWS COLS ⟨0, 0⟩ ∧ inGrid ROWS COLS ⟨2, 2⟩ ∧
    (∀ (i : Fin ROWS) (j : Fin COLS), (initGrid ROWS COLS i j).type ≠ CellType.OBSTACLE) ∧
    foundOf (runBFS ⟨0, 0⟩ ⟨2, 2⟩ (initGrid ROWS COLS)) = some true ∧
    ∃ path, pathOf ⟨2, 2⟩ (runBFS ⟨0, 0⟩ ⟨2, 2⟩ (initGrid ROWS COLS)) = some path ∧
      (path.length : Int) = 1 + |(0 : Int) - 2| + |(0 : Int) - 2| :=
  ⟨WF_initGrid _ _, by decide, by decide, fun _ _ => by simp [initGrid],
    bfs_manhattan_on_free_grid _ _ _ (WF_initGrid _ _) (by decide) (by decide)
      (fun _ _ => by simp [initGrid])⟩

/-! ## Depth-first search is not shortest -/

/-- C17: on the obstacle-free 20 × 20 grid with start `(0, 0)` and goal `(2, 2)`, `runDFS`
returns true and the path `getPath(goal)` returns after it has 39 cells (along row 0, down
column 19, back along row 2), while the path after `runBFS` has 5 cells. -/
theorem dfs_path_longer_than_bfs :
    foundOf (runDFS ⟨0, 0⟩ ⟨2, 2⟩ (initGrid ROWS COLS)) = some true ∧
    foundOf (runBFS ⟨0, 0⟩ ⟨2, 2⟩ (initGrid ROWS COLS)) = some true ∧
    ∃ pd pb, pathOf ⟨2, 2⟩ (runDFS ⟨0, 0⟩ ⟨2, 2⟩ (initGrid ROWS COLS)) = some pd ∧
      pathOf ⟨2, 2⟩ (runBFS ⟨0, 0⟩ ⟨2, 2⟩ (initGrid ROWS COLS)) = some pb ∧
      pd.length = 39 ∧ pb.length = 5 ∧ pb.length < pd.length := by
  have h1 : foundOf (runDFS ⟨0, 0⟩ ⟨2, 2⟩ (initGrid ROWS COLS)) = some true := by decide
  have h2 : foundOf (runBFS ⟨0, 0⟩ ⟨2, 2⟩ (initGrid ROWS COLS)) = some true := by decide
  have h3 : (pathOf ⟨2, 2⟩ (runDFS ⟨0, 0⟩ ⟨2, 2⟩ (initGrid ROWS COLS))).map List.length
      = some 39 := by decide
  have h4 : (pathOf ⟨2, 2⟩ (runBFS ⟨0, 0⟩ ⟨2, 2⟩ (initGrid ROWS COLS))).map List.length
      = some 5 := by decide
  refine ⟨h1, h2, ?_⟩
  cases e1 : pathOf ⟨2, 2⟩ (runDFS ⟨0, 0⟩ ⟨2, 2⟩ (initGrid ROWS COLS)) with
  | none => rw [e1] at h3; simp at h3
  | some pd =>
    cases e2 : pathOf ⟨2, 2⟩ (runBFS ⟨0, 0⟩ ⟨2, 2⟩ (initGrid ROWS COLS)) with
    | none => rw [e2] at h4; simp at h4
    | some pb =>
      rw [e1] at h3
      rw [e2] at h4
      simp only [Option.map_some', Option.some.injEq] at h3 h4
      exact ⟨pd, pb, rfl, rfl, h3, h4, by omega⟩

/-! ## Cells expanded and pushed by a run -/

/-- A list of in-bounds cells without repetition has at most `R * C` entries. -/
theorem nodup_inGrid_length_le {R C : Nat} (l : List Point) (hn : l.Nodup)
    (hin : ∀ p ∈ l, inGrid R C p) : l.length ≤ R * C := by
  have hsub : l.toFinset ⊆ (Finset.univ : Finset (Fin R × Fin C)).image
      (fun ij => (⟨(ij.1.val : Int), (ij.2.val : Int)⟩ : Point)) := by
    intro p hp
    rw [List.mem_toFinset] at hp
    obtain ⟨ij, _, h2, h3⟩ := toIndex_of_valid (hin p hp)
    rw [Finset.mem_image]
    refine ⟨ij, Finset.mem_univ _, ?_⟩
    cases p
    simp only [Point.mk.injEq]
    exact ⟨h2, h3⟩
  have h1 := Finset.card_le_card hsub
  have h2 := Finset.card_image_le (s := (Finset.univ : Finset (Fin R × Fin C)))
    (f := fun ij => (⟨(ij.1.val : Int), (ij.2.val : Int)⟩ : Point))
  rw [List.toFinset_card_of_nodup hn] at h1
  have h3 : (Finset.univ : Finset (Fin R × Fin C)).card = R * C := by
    simp
  omega

theorem pushTarget_eq {R C : Nat} (c : Point) (g : Grid R C) (i : Nat) (w : WF g)
    (hc : inGrid R C c) :
    pushTarget c g i =
      if Free g ⟨c.x + dx i, c.y + dy i⟩ ∧
          (nodeAt g ⟨c.x + dx i, c.y + dy i⟩).visited = false then
        some ⟨c.x + dx i, c.y + dy i⟩
      else none := by
  have hp : (getNode g c.x c.y).pos = c := w.pos_eq hc
  unfold pushTarget
  simp only [hp]
  by_cases hf : Free g ⟨c.x + dx i, c.y + dy i⟩
  · have hf' := (free_iff g ⟨c.x + dx i, c.y + dy i⟩).mpr hf
    simp only at hf'
    simp only [hf', if_true, hf, true_and]
    by_cases hv : (nodeAt g ⟨c.x + dx i, c.y + dy i⟩).visited = false
    · simp only [nodeAt] at hv
      simp [hv, nodeAt]
    · simp only [nodeAt] at hv
      simp [hv, nodeAt]
  · have hf' : ¬ ((isValid R C (c.x + dx i) (c.y + dy i) &&
        !isBlocked g (c.x + dx i) (c.y + dy i)) = true) := by
      intro h
      exact hf ((free_iff g ⟨c.x + dx i, c.y + dy i⟩).mp h)
    simp [hf', hf]

/-- One pass of the neighbour loop of `runBFS` / `runDFS`: the cell logged by `pushTarget` is
the cell pushed; it was not visited and is visited afterwards, and the frontier stays free of
repetition. -/
theorem visitNeighbor_trace {R C : Nat} {ord : Prop} (push : List Point → Point → List Point)
    (hpush : ∀ q p, (push q p).Perm (p :: q))
    {g0 g : Grid R C} {s t c : Point} {f : List Point} {d : Point → Nat} (i : Nat)
    (inv : SearchInv ord g0 s t g (c :: f) d) (hn : (c :: f).Nodup) :
    (∀ p ∈ (pushTarget c g i).toList, inGrid R C p ∧ (nodeAt g p).visited = false ∧
      (nodeAt (visitNeighbor push c (g, f) i).1 p).visited = true) ∧
    (c :: (visitNeighbor push c (g, f) i).2).Nodup ∧
    (∀ p ∈ (visitNeighbor push c (g, f) i).2, p ∈ f ∨ p ∈ (pushTarget c g i).toList) ∧
    (∀ p, (nodeAt g p).visited = true →
      (nodeAt (visitNeighbor push c (g, f) i).1 p).visited = true) ∧
    (∀ p, (nodeAt (visitNeighbor push c (g, f) i).1 p).visited = true →
      (nodeAt g p).visited = true ∨ p ∈ (pushTarget c g i).toList) := by
  have hc := inv.ext_ok c (List.mem_cons_self _ _)
  rw [visitNeighbor_eq push c g f i inv.wf hc.1, pushTarget_eq c g i inv.wf hc.1]
  by_cases hcond : Free g ⟨c.x + dx i, c.y + dy i⟩ ∧
      (nodeAt g ⟨c.x + dx i, c.y + dy i⟩).visited = false
  · simp only [if_pos hcond]
    obtain ⟨hf, hv⟩ := hcond
    have hnin : (⟨c.x + dx i, c.y + dy i⟩ : Point) ∉ c :: f := by
      intro hm
      have := (inv.ext_ok _ hm).2
      rw [hv] at this
      exact Bool.noConfusion this
    have hsame := nodeAt_setNode_same g ⟨c.x + dx i, c.y + dy i⟩
      { nodeAt g ⟨c.x + dx i, c.y + dy i⟩ with visited := true, parent := some c } hf.1
    refine ⟨?_, ?_, ?_, ?_, ?_⟩
    · intro p hp
      simp only [Option.toList_some, List.mem_singleton] at hp
      subst hp
      refine ⟨hf.1, hv, ?_⟩
      rw [hsame]
    · have hperm : (c :: push f ⟨c.x + dx i, c.y + dy i⟩).Perm
          (⟨c.x + dx i, c.y + dy i⟩ :: c :: f) :=
        ((hpush f ⟨c.x + dx i, c.y + dy i⟩).cons c).trans (List.Perm.swap _ _ _)
      rw [hperm.nodup_iff]
      exact List.nodup_cons.mpr ⟨hnin, hn⟩
    · intro p hp
      have := (hpush f ⟨c.x + dx i, c.y + dy i⟩).mem_iff.mp hp
      rcases List.mem_cons.mp this with h | h
      · right; simp [h]
      · left; exact h
    · intro p hp
      by_cases e : p = ⟨c.x + dx i, c.y + dy i⟩
      · subst e
        rw [hsame]
      · have := nodeAt_setNode_ne g ⟨c.x + dx i, c.y + dy i⟩ p
          { nodeAt g ⟨c.x + dx i, c.y + dy i⟩ with visited := true, parent := some c } e
        rw [this]
        exact hp
    · intro p hp
      by_cases e : p = ⟨c.x + dx i, c.y + dy i⟩
      · right; simp [e]
      · have := nodeAt_setNode_ne g ⟨c.x + dx i, c.y + dy i⟩ p
          { nodeAt g ⟨c.x + dx i, c.y + dy i⟩ with visited := true, parent := some c } e
        rw [this] at hp
        exact Or.inl hp
  · simp only [if_neg hcond]
    refine ⟨?_, hn, fun p hp => Or.inl hp, fun p hp => hp, fun p hp => Or.inl hp⟩
    intro p hp
    simp at hp

theorem not_visited_of {R C : Nat} {g g' : Grid R C}
    (hmono : ∀ p, (nodeAt g p).visited = true → (nodeAt g' p).visited = true) {p : Point}
    (h : (nodeAt g' p).visited = false) : (nodeAt g p).visited = false := by
  cases hv : (nodeAt g p).visited with
  | false => rfl
  | true =>
    rw [hmono p hv] at h
    exact Bool.noConfusion h

/-- The neighbour loop of `runBFS` / `runDFS` over the directions `l`: the cells logged are
pairwise different, were not visited and are visited afterwards. -/
theorem visitFold_trace {R C : Nat} {ord : Prop} (push : List Point → Point → List Point)
    (hpush : ∀ f p, (push f p).Perm (p :: f)) (hord : ord → push = queuePush)
    {g0 : Grid R C} {s t c : Point} (l : List Nat) :
    ∀ (st : Grid R C × List Point) (d : Point → Nat) (ks : List Nat),
      SearchInv ord g0 s t st.1 (c :: st.2) d → Handled g0 st.1 c ks → (c :: st.2).Nodup →
      (visitPushed push c l st).Nodup ∧
      (∀ p ∈ visitPushed push c l st, inGrid R C p ∧ (nodeAt st.1 p).visited = false ∧
        (nodeAt (l.foldl (visitNeighbor push c) st).1 p).visited = true) ∧
      (c :: (l.foldl (visitNeighbor push c) st).2).Nodup ∧
      (∀ p ∈ (l.foldl (visitNeighbor push c) st).2, p ∈ st.2 ∨ p ∈ visitPushed push c l st) ∧
      (∀ p, (nodeAt st.1 p).visited = true →
        (nodeAt (l.foldl (visitNeighbor push c) st).1 p).visited = true) ∧
      (∀ p, (nodeAt (l.foldl (visitNeighbor push c) st).1 p).visited = true →
        (nodeAt st.1 p).visited = true ∨ p ∈ visitPushed push c l st) := by
  induction l with
  | nil =>
    intro st d ks _ _ hn
    simp only [visitPushed, List.foldl_nil]
    exact ⟨List.nodup_nil, fun p hp => absurd hp (List.not_mem_nil p), hn,
      fun p hp => Or.inl hp, fun p hp => hp, fun p hp => Or.inl hp⟩
  | cons i l ih =>
    intro st d ks inv hh hn
    obtain ⟨g, f⟩ := st
    obtain ⟨a1, a2, a3, a4, a5⟩ := visitNeighbor_trace push hpush i inv hn
    obtain ⟨d', inv1, hh1, _⟩ := visitNeighbor_inv push hpush hord (k := i) inv hh
    obtain ⟨b1, b2, b3, b4, b5, b6⟩ :=
      ih (visitNeighbor push c (g, f) i) d' (i :: ks) inv1 hh1 a2
    simp only [visitPushed, List.foldl_cons]
    refine ⟨?_, ?_, b3, ?_, fun p hp => b5 p (a4 p hp), ?_⟩
    · rw [List.nodup_append]
      refine ⟨?_, b1, ?_⟩
      · cases pushTarget c g i <;> simp
      · intro p hp1 hp2
        have h1 := (a1 p hp1).2.2
        have h2 := (b2 p hp2).2.1
        rw [h1] at h2
        exact Bool.noConfusion h2
    · intro p hp
      rcases List.mem_append.mp hp with h | h
      · obtain ⟨x1, x2, x3⟩ := a1 p h
        exact ⟨x1, x2, b5 p x3⟩
      · obtain ⟨x1, x2, x3⟩ := b2 p h
        exact ⟨x1, not_visited_of a4 x2, x3⟩
    · intro p hp
      rcases b4 p hp with h | h
      · rcases a3 p h with h' | h'
        · exact Or.inl h'
        · exact Or.inr (List.mem_append.mpr (Or.inl h'))
      · exact Or.inr (List.mem_append.mpr (Or.inr h))
    · intro p hp
      rcases b6 p hp with h | h
      · rcases a5 p h with h' | h'
        · exact Or.inl h'
        · exact Or.inr (List.mem_append.mpr (Or.inl h'))
      · exact Or.inr (List.mem_append.mpr (Or.inr h))

/-- The loop of `runBFS` / `runDFS`: no cell is expanded twice, no cell is pushed twice, every
cell pushed was not visited before, every cell expanded was in the frontier or was pushed, and
the cells visited in the grid the loop leaves are those visited before and those pushed. -/
theorem searchTrace_spec {R C : Nat} {ord : Prop} (push : List Point → Point → List Point)
    (hpush : ∀ f p, (push f p).Perm (p :: f)) (hord : ord → push = queuePush)
    {g0 : Grid R C} {s t : Point} (fuel : Nat) :
    ∀ (g : Grid R C) (fr : List Point) (d : Point → Nat),
      SearchInv ord g0 s t g fr d → fr.Nodup →
      (searchTrace push fuel t g fr).1.Nodup ∧ (searchTrace push fuel t g fr).2.Nodup ∧
      (∀ p ∈ (searchTrace push fuel t g fr).2, inGrid R C p ∧ (nodeAt g p).visited = false) ∧
      (∀ p ∈ (searchTrace push fuel t g fr).1,
        inGrid R C p ∧ (p ∈ fr ∨ p ∈ (searchTrace push fuel t g fr).2)) ∧
      (∀ b g', searchLoop push fuel t g fr = some (b, g') → ∀ p,
        ((nodeAt g' p).visited = true ↔
          ((nodeAt g p).visited = true ∨ p ∈ (searchTrace push fuel t g fr).2))) := by
  induction fuel with
  | zero =>
    intro g fr d _ _
    simp [searchTrace, searchLoop]
  | succ n ih =>
    intro g fr d inv hn
    cases fr with
    | nil =>
      simp only [searchTrace, searchLoop]
      refine ⟨List.nodup_nil, List.nodup_nil, by simp, by simp, ?_⟩
      intro b g' h p
      simp only [Option.some.injEq, Prod.mk.injEq] at h
      rw [← h.2]
      simp
    | cons c rest =>
      have hc := inv.ext_ok c (List.mem_cons_self _ _)
      have hpos : (getNode g c.x c.y).pos = c := inv.wf.pos_eq hc.1
      by_cases hg : c = t
      · subst hg
        simp only [searchTrace, searchLoop, hpos, if_true]
        refine ⟨List.nodup_nil, List.nodup_nil, by simp, by simp, ?_⟩
        intro b g' h p
        simp only [Option.some.injEq, Prod.mk.injEq] at h
        rw [← h.2]
        simp
      · obtain ⟨d', i', k', _⟩ := visitFold_inv push hpush hord [0, 1, 2, 3] (g, rest) d []
          inv (fun i hi => absurd hi (List.not_mem_nil i))
        have fin := searchInv_finish i' k' hg
        obtain ⟨b1, b2, b3, b4, b5, b6⟩ := visitFold_trace push hpush hord [0, 1, 2, 3]
          (g, rest) d [] inv (fun i hi => absurd hi (List.not_mem_nil i)) hn
        obtain ⟨r1, r2, r3, r4, r5⟩ := ih _ _ d' fin (List.nodup_cons.mp b3).2
        simp only [searchTrace, searchLoop, hpos, if_neg hg]
        dsimp only at b2 b3 b4 b5 b6
        have hcv : (nodeAt ([0, 1, 2, 3].foldl (visitNeighbor push c) (g, rest)).1 c).visited
            = true := b5 c hc.2
        refine ⟨?_, ?_, ?_, ?_, ?_⟩
        · rw [List.nodup_cons]
          refine ⟨?_, r1⟩
          intro hm
          rcases (r4 c hm).2 with h | h
          · exact (List.nodup_cons.mp b3).1 h
          · have := (r3 c h).2
            rw [hcv] at this
            exact Bool.noConfusion this
        · rw [List.nodup_append]
          refine ⟨b1, r2, ?_⟩
          intro p hp1 hp2
          have h1 := (b2 p hp1).2.2
          have h2 := (r3 p hp2).2
          rw [h1] at h2
          exact Bool.noConfusion h2
        · intro p hp
          rcases List.mem_append.mp hp with h | h
          · exact ⟨(b2 p h).1, (b2 p h).2.1⟩
          · exact ⟨(r3 p h).1, not_visited_of b5 (r3 p h).2⟩
        · intro p hp
          rcases List.mem_cons.mp hp with h | h
          · subst h
            exact ⟨hc.1, Or.inl (List.mem_cons_self _ _)⟩
          · refine ⟨(r4 p h).1, ?_⟩
            rcases (r4 p h).2 with h' | h'
            · rcases b4 p h' with h'' | h''
              · exact Or.inl (List.mem_cons_of_mem _ h'')
              · exact Or.inr (List.mem_append.mpr (Or.inl h''))
            · exact Or.inr (List.mem_append.mpr (Or.inr h'))
        · intro b g' h p
          rw [r5 b g' h p, List.mem_append]
          constructor
          · rintro (h1 | h1)
            · rcases b6 p h1 with h2 | h2
              · exact Or.inl h2
              · exact Or.inr (Or.inl h2)
            · exact Or.inr (Or.inr h1)
          · rintro (h1 | h1 | h1)
            · exact Or.inl (b5 p h1)
            · exact Or.inl (b2 p h1).2.2
            · exact Or.inr h1

/-- Summary for a whole run of `runBFS` / `runDFS`: the cells expanded are in bounds and
pairwise different, and so are the cells pushed, the start included; every cell expanded was
pushed, and the cells visited at the end are the cells pushed. -/
theorem search_trace_run {R C : Nat} {ord : Prop} (push : List Point → Point → List Point)
    (hpush : ∀ f p, (push f p).Perm (p :: f)) (hord : ord → push = queuePush)
    (g : Grid R C) (s t : Point) (w : WF g) (hs : inGrid R C s) (fuel : Nat) :
    (searchTrace push fuel t (setNode (resetGridState g) s.x s.y
        { getNode (resetGridState g) s.x s.y with visited := true }) [s]).1.Nodup ∧
    (∀ p ∈ (searchTrace push fuel t (setNode (resetGridState g) s.x s.y
        { getNode (resetGridState g) s.x s.y with visited := true }) [s]).1, inGrid R C p) ∧
    (s :: (searchTrace push fuel t (setNode (resetGridState g) s.x s.y
        { getNode (resetGridState g) s.x s.y with visited := true }) [s]).2).Nodup ∧
    (∀ p ∈ s :: (searchTrace push fuel t (setNode (resetGridState g) s.x s.y
        { getNode (resetGridState g) s.x s.y with visited := true }) [s]).2, inGrid R C p) ∧
    (∀ p ∈ (searchTrace push fuel t (setNode (resetGridState g) s.x s.y
        { getNode (resetGridState g) s.x s.y with visited := true }) [s]).1,
      p ∈ s :: (searchTrace push fuel t (setNode (resetGridState g) s.x s.y
        { getNode (resetGridState g) s.x s.y with visited := true }) [s]).2) ∧
    (∀ b g', searchLoop push fuel t (setNode (resetGridState g) s.x s.y
        { getNode (resetGridState g) s.x s.y with visited := true }) [s] = some (b, g') →
      ∀ p, ((nodeAt g' p).visited = true ↔
        p ∈ s :: (searchTrace push fuel t (setNode (resetGridState g) s.x s.y
          { getNode (resetGridState g) s.x s.y with visited := true }) [s]).2)) := by
  have inv := searchInv_init ord g s t w hs
  obtain ⟨r1, r2, r3, r4, r5⟩ := searchTrace_spec push hpush hord fuel _ _ _ inv
    (List.nodup_singleton s)
  have hvis : ∀ p, (nodeAt (setNode (resetGridState g) s.x s.y
      { getNode (resetGridState g) s.x s.y with visited := true }) p).visited = true ↔
      p = s := by
    intro p
    by_cases e : p = s
    · rw [e]
      exact ⟨fun _ => rfl, fun _ => inv.s_vis⟩
    · rw [nodeAt_setNode_ne _ _ _ _ e, (nodeAt_reset g p).1]
      simp [e]
  refine ⟨r1, fun p hp => (r4 p hp).1, ?_, ?_, ?_, ?_⟩
  · rw [List.nodup_cons]
    refine ⟨?_, r2⟩
    intro hm
    have := (r3 s hm).2
    rw [inv.s_vis] at this
    exact Bool.noConfusion this
  · intro p hp
    rcases List.mem_cons.mp hp with h | h
    · subst h; exact hs
    · exact (r3 p h).1
  · intro p hp
    rcases (r4 p hp).2 with h | h
    · rw [List.mem_singleton] at h
      subst h
      exact List.mem_cons_self _ _
    · exact List.mem_cons_of_mem _ h
  · intro b g' h p
    rw [r5 b g' h p, hvis p, List.mem_cons]

/-- The loop of `runAStar`: no cell is expanded twice, every cell expanded was not closed
before, and the cells closed in the grid the loop leaves are those closed before, those
expanded, and the goal when the loop returns true. -/
theorem astarTrace_spec {R C : Nat} {B : Nat} {g0 : Grid R C} {s t : Point} (fuel : Nat) :
    ∀ (g : Grid R C) (os : List Point), AStarInv B g0 s g os →
      (astarTrace B fuel t g os).Nodup ∧
      (∀ p ∈ astarTrace B fuel t g os, inGrid R C p ∧ (nodeAt g p).visited = false) ∧
      (∀ b g', astarLoop B fuel t g os = some (b, g') → ∀ p,
        ((nodeAt g' p).visited = true ↔
          ((nodeAt g p).visited = true ∨ p ∈ astarTrace B fuel t g os ∨
            (b = true ∧ p = t)))) := by
  induction fuel with
  | zero =>
    intro g os _
    simp [astarTrace, astarLoop]
  | succ n ih =>
    intro g os inv
    cases os with
    | nil =>
      simp only [astarTrace, astarLoop]
      refine ⟨List.nodup_nil, by simp, ?_⟩
      intro b g' h p
      simp only [Option.some.injEq, Prod.mk.injEq] at h
      rw [← h.2, ← h.1]
      simp
    | cons c rest =>
      have hc := inv.os_ok c (List.mem_cons_self _ _)
      by_cases hcv : (nodeAt g c).visited = true
      · have hcv' : (getNode g c.x c.y).visited = true := hcv
        have inv' := astarInv_skip inv hcv
        simp only [astarTrace, astarLoop, hcv', if_true]
        exact ih g _ inv'
      · have hcv0 : (nodeAt g c).visited = false := by simpa using hcv
        have hcv' : (getNode g c.x c.y).visited = false := hcv0
        obtain ⟨inv1, _, v1, vc⟩ := astarInv_close inv hcv0
        have hpos : (getNode (setNode g c.x c.y { getNode g c.x c.y with visited := true })
            c.x c.y).pos = c := inv1.wf.pos_eq hc.1
        have hclose : ∀ p, (nodeAt (setNode g c.x c.y
            { getNode g c.x c.y with visited := true }) p).visited = true ↔
            ((nodeAt g p).visited = true ∨ p = c) := by
          intro p
          by_cases e : p = c
          · subst e
            simp [vc]
          · rw [v1 p e]
            simp [e]
        by_cases hg : c = t
        · subst hg
          simp only [astarTrace, astarLoop, hcv', Bool.false_eq_true, if_false, hpos, if_true]
          refine ⟨List.nodup_nil, by simp, ?_⟩
          intro b g' h p
          simp only [Option.some.injEq, Prod.mk.injEq] at h
          rw [← h.2, ← h.1, hclose p]
          simp
        · obtain ⟨i2, _, _, v2⟩ := relaxFold_inv (t := t) hc.1 [0, 1, 2, 3]
            (setNode g c.x c.y { getNode g c.x c.y with visited := true }, pqPop g (c :: rest))
            inv1 vc
          obtain ⟨r1, r2, r3⟩ := ih _ _ i2
          simp only [astarTrace, astarLoop, hcv', Bool.false_eq_true, if_false, hpos,
            if_neg hg]
          have hne : ∀ p ∈ astarTrace B n t ([0, 1, 2, 3].foldl (relaxNeighbor B t c)
              (setNode g c.x c.y { getNode g c.x c.y with visited := true },
                pqPop g (c :: rest))).1 ([0, 1, 2, 3].foldl (relaxNeighbor B t c)
              (setNode g c.x c.y { getNode g c.x c.y with visited := true },
                pqPop g (c :: rest))).2, p ≠ c := by
            intro p hp e
            subst e
            have := (r2 p hp).2
            rw [v2] at this
            dsimp only at this
            rw [vc] at this
            exact Bool.noConfusion this
          refine ⟨List.nodup_cons.mpr ⟨fun hm => hne c hm rfl, r1⟩, ?_, ?_⟩
          · intro p hp
            rcases List.mem_cons.mp hp with h | h
            · subst h
              exact ⟨hc.1, hcv0⟩
            · have h2 := (r2 p h).2
              rw [v2] at h2
              dsimp only at h2
              rw [v1 p (hne p h)] at h2
              exact ⟨(r2 p h).1, h2⟩
          · intro b g' h p
            rw [r3 b g' h p, v2 p]
            dsimp only
            rw [hclose p, List.mem_cons]
            tauto

/-- C15: on every well-formed grid, every in-bounds start and every goal, each of `runBFS`,
`runDFS` and `runAStar` (any ceiling) returns; the cells it expands (takes from the frontier
and examines the neighbours of) are pairwise different, so at most `ROWS * COLS` of them; the
cells `runBFS` and `runDFS` push onto the frontier, the start included, are pairwise
different.  The logs are tied to the grid the run leaves: after `runBFS` / `runDFS` the cells
marked visited are the cells pushed, the cells expanded among them; after `runAStar` the cells
closed are the cells expanded, and the goal when the run returns true. -/
theorem runs_terminate_expand_once {R C : Nat} (B : Nat) (g : Grid R C) (s t : Point)
    (w : WF g) (hs : inGrid R C s) :
    (∃ b g', runBFS s t g = some (b, g') ∧ (expandedBFS s t g).Nodup ∧
      (expandedBFS s t g).length ≤ R * C ∧ (pushedBFS s t g).Nodup ∧
      (pushedBFS s t g).length ≤ R * C ∧ (∀ p ∈ expandedBFS s t g, p ∈ pushedBFS s t g) ∧
      ∀ p, ((nodeAt g' p).visited = true ↔ p ∈ pushedBFS s t g)) ∧
    (∃ b g', runDFS s t g = some (b, g') ∧ (expandedDFS s t g).Nodup ∧
      (expandedDFS s t g).length ≤ R * C ∧ (pushedDFS s t g).Nodup ∧
      (pushedDFS s t g).length ≤ R * C ∧ (∀ p ∈ expandedDFS s t g, p ∈ pushedDFS s t g) ∧
      ∀ p, ((nodeAt g' p).visited = true ↔ p ∈ pushedDFS s t g)) ∧
    (∃ b g', runAStar B s t g = some (b, g') ∧ (expandedAStar B s t g).Nodup ∧
      (expandedAStar B s t g).length ≤ R * C ∧
      ∀ p, ((nodeAt g' p).visited = true ↔
        (p ∈ expandedAStar B s t g ∨ (b = true ∧ p = t)))) := by
  refine ⟨?_, ?_, ?_⟩
  · obtain ⟨b, g', d, ext, e, _⟩ := runBFS_spec g s t w hs
    obtain ⟨r1, r2, r3, r4, r5, r6⟩ := @search_trace_run R C True queuePush queuePush_perm
      (fun _ => rfl) g s t w hs (R * C + 1)
    exact ⟨b, g', e, r1, nodup_inGrid_length_le _ r1 r2, r3,
      nodup_inGrid_length_le _ r3 r4, r5, r6 b g' e⟩
  · obtain ⟨b, g', d, ext, e, _⟩ := runDFS_spec g s t w hs
    obtain ⟨r1, r2, r3, r4, r5, r6⟩ := @search_trace_run R C False stackPush stackPush_perm
      (fun h => h.elim) g s t w hs (R * C + 1)
    exact ⟨b, g', e, r1, nodup_inGrid_length_le _ r1 r2, r3,
      nodup_inGrid_length_le _ r3 r4, r5, r6 b g' e⟩
  · obtain ⟨b, g', os, e, _⟩ := runAStar_spec B g s t w hs
    have inv := astarInv_init B g s
      (calculateHeuristic (getNode (resetGridState g) s.x s.y).pos t) w hs
    have hq : pqPush (setNode (resetGridState g) s.x s.y
        { getNode (resetGridState g) s.x s.y with
          g_cost := 0,
          h_cost := calculateHeuristic (getNode (resetGridState g) s.x s.y).pos t,
          f_cost := 0 + calculateHeuristic (getNode (resetGridState g) s.x s.y).pos t })
        [] s = [s] := pqPush_nil _ _
    obtain ⟨r1, r2, r3⟩ := astarTrace_spec (t := t) (5 * (R * C) + 2) _ _ inv
    have hvis : ∀ p, (nodeAt (setNode (resetGridState g) s.x s.y
        { getNode (resetGridState g) s.x s.y with
          g_cost := 0,
          h_cost := calculateHeuristic (getNode (resetGridState g) s.x s.y).pos t,
          f_cost := 0 + calculateHeuristic (getNode (resetGridState g) s.x s.y).pos t })
        p).visited = false := by
      intro p
      rw [nodeAt_setNode]
      split
      · exact (nodeAt_reset g s).1
      · exact (nodeAt_reset g p).1
    have e' := e
    unfold runAStar at e'
    dsimp only at e'
    rw [hq] at e'
    have key : (expandedAStar B s t g).Nodup ∧ (∀ p ∈ expandedAStar B s t g, inGrid R C p) ∧
        ∀ p, ((nodeAt g' p).visited = true ↔
          (p ∈ expandedAStar B s t g ∨ (b = true ∧ p = t))) := by
      unfold expandedAStar
      dsimp only
      rw [hq]
      refine ⟨r1, fun p hp => (r2 p hp).1, ?_⟩
      intro p
      rw [r3 b g' e' p, hvis p]
      simp
    exact ⟨b, g', e, key.1, nodup_inGrid_length_le _ key.1 key.2.1, key.2.2⟩

/-- Witness of C15 on the 3 × 3 grid with an obstacle in the middle and ceiling 100. -/
theorem runs_terminate_expand_once_witness :
    WF (gridWith 3 3 [(1, 1)]) ∧ inGrid 3 3 ⟨0, 0⟩ ∧
    ((∃ b g', runBFS ⟨0, 0⟩ ⟨2, 2⟩ (gridWith 3 3 [(1, 1)]) = some (b, g') ∧
      (expandedBFS ⟨0, 0⟩ ⟨2, 2⟩ (gridWith 3 3 [(1, 1)])).Nodup ∧
      (expandedBFS ⟨0, 0⟩ ⟨2, 2⟩ (gridWith 3 3 [(1, 1)])).length ≤ 3 * 3 ∧
      (pushedBFS ⟨0, 0⟩ ⟨2, 2⟩ (gridWith 3 3 [(1, 1)])).Nodup ∧
      (pushedBFS ⟨0, 0⟩ ⟨2, 2⟩ (gridWith 3 3 [(1, 1)])).length ≤ 3 * 3 ∧
      (∀ p ∈ expandedBFS ⟨0, 0⟩ ⟨2, 2⟩ (gridWith 3 3 [(1, 1)]),
        p ∈ pushedBFS ⟨0, 0⟩ ⟨2, 2⟩ (gridWith 3 3 [(1, 1)])) ∧
      ∀ p, ((nodeAt g' p).visited = true ↔
        p ∈ pushedBFS ⟨0, 0⟩ ⟨2, 2⟩ (gridWith 3 3 [(1, 1)]))) ∧
    (∃ b g', runDFS ⟨0, 0⟩ ⟨2, 2⟩ (gridWith 3 3 [(1, 1)]) = some (b, g') ∧
      (expandedDFS ⟨0, 0⟩ ⟨2, 2⟩ (gridWith 3 3 [(1, 1)])).Nodup ∧
      (expandedDFS ⟨0, 0⟩ ⟨2, 2⟩ (gridWith 3 3 [(1, 1)])).length ≤ 3 * 3 ∧
      (pushedDFS ⟨0, 0⟩ ⟨2, 2⟩ (gridWith 3 3 [(1, 1)])).Nodup ∧
      (pushedDFS ⟨0, 0⟩ ⟨2, 2⟩ (gridWith 3 3 [(1, 1)])).length ≤ 3 * 3 ∧
      (∀ p ∈ expandedDFS ⟨0, 0⟩ ⟨2, 2⟩ (gridWith 3 3 [(1, 1)]),
        p ∈ pushedDFS ⟨0, 0⟩ ⟨2, 2⟩ (gridWith 3 3 [(1, 1)])) ∧
      ∀ p, ((nodeAt g' p).visited = true ↔
        p ∈ pushedDFS ⟨0, 0⟩ ⟨2, 2⟩ (gridWith 3 3 [(1, 1)]))) ∧
    (∃ b g', runAStar 100 ⟨0, 0⟩ ⟨2, 2⟩ (gridWith 3 3 [(1, 1)]) = some (b, g') ∧
      (expandedAStar 100 ⟨0, 0⟩ ⟨2, 2⟩ (gridWith 3 3 [(1, 1)])).Nodup ∧
      (expandedAStar 100 ⟨0, 0⟩ ⟨2, 2⟩ (gridWith 3 3 [(1, 1)])).length ≤ 3 * 3 ∧
      ∀ p, ((nodeAt g' p).visited = true ↔
        (p ∈ expandedAStar 100 ⟨0, 0⟩ ⟨2, 2⟩ (gridWith 3 3 [(1, 1)]) ∨
          (b = true ∧ p = ⟨2, 2⟩))))) :=
  ⟨WF_gridWith 3 3 _, by decide,
    runs_terminate_expand_once 100 _ _ _ (WF_gridWith 3 3 _) (by decide)⟩

/-! ## Re-opening of closed cells in `runAStar` -/

/-- Where the relaxation does not re-open, the body of the neighbour loop of `runAStar` acts
as the body of the variant does. -/
theorem relaxNeighborNoReopen_eq {R C : Nat} (B : Nat) (t c : Point)
    (st : Grid R C × List Point) (i : Nat) (h : reopensAt B c st.1 i = false) :
    relaxNeighborNoReopen B t c st i = relaxNeighbor B t c st i := by
  unfold reopensAt at h
  unfold relaxNeighborNoReopen relaxNeighbor
  dsimp only at h ⊢
  by_cases hv : (isValid R C ((getNode st.1 c.x c.y).pos.x + dx i)
      ((getNode st.1 c.x c.y).pos.y + dy i) &&
      !isBlocked st.1 ((getNode st.1 c.x c.y).pos.x + dx i)
        ((getNode st.1 c.x c.y).pos.y + dy i)) = true
  · rw [if_pos hv] at h
    rw [if_pos hv, if_pos hv]
    by_cases hb : (getNode st.1 c.x c.y).g_cost + 1 > (B : Int)
    · rw [if_pos hb, if_pos hb]
    · rw [if_neg hb] at h
      rw [if_neg hb, if_neg hb]
      cases hvis : (getNode st.1 ((getNode st.1 c.x c.y).pos.x + dx i)
          ((getNode st.1 c.x c.y).pos.y + dy i)).visited with
      | false => simp
      | true =>
        rw [hvis] at h
        simp only [Bool.true_and] at h
        simp only [Bool.not_true, Bool.false_or, h, Bool.false_eq_true, if_false]
  · rw [if_neg hv, if_neg hv]

theorem relaxFoldNoReopen_eq {R C : Nat} (B : Nat) (t c : Point) (l : List Nat) :
    ∀ (st : Grid R C × List Point), reopensFold B t c l st = false →
      l.foldl (relaxNeighborNoReopen B t c) st = l.foldl (relaxNeighbor B t c) st := by
  induction l with
  | nil => intro st _; rfl
  | cons i l ih =>
    intro st h
    simp only [reopensFold, Bool.or_eq_false_iff] at h
    simp only [List.foldl_cons]
    rw [relaxNeighborNoReopen_eq B t c st i h.1]
    exact ih _ h.2

theorem astarLoopNoReopen_eq {R C : Nat} (B : Nat) (t : Point) (fuel : Nat) :
    ∀ (g : Grid R C) (os : List Point), astarReopens B fuel t g os = false →
      astarLoopNoReopen B fuel t g os = astarLoop B fuel t g os := by
  induction fuel with
  | zero => intro g os _; rfl
  | succ n ih =>
    intro g os h
    cases os with
    | nil => rfl
    | cons c rest =>
      unfold astarReopens at h
      unfold astarLoopNoReopen astarLoop
      by_cases hv : (getNode g c.x c.y).visited = true
      · rw [if_pos hv] at h
        rw [if_pos hv, if_pos hv]
        exact ih _ _ h
      · rw [if_neg hv] at h
        rw [if_neg hv, if_neg hv]
        dsimp only at h ⊢
        by_cases hg : (getNode (setNode g c.x c.y { getNode g c.x c.y with visited := true })
            c.x c.y).pos = t
        · rw [if_pos hg, if_pos hg]
        · rw [if_neg hg] at h
          rw [if_neg hg, if_neg hg]
          rw [Bool.or_eq_false_iff] at h
          rw [relaxFoldNoReopen_eq B t c [0, 1, 2, 3] _ h.1]
          exact ih _ _ h.2

/-- Without re-opening during the run, the variant and `runAStar` are the same run. -/
theorem runAStarNoReopen_eq {R C : Nat} (B : Nat) (g : Grid R C) (s t : Point)
    (h : runAStarReopens B s t g = false) : runAStarNoReopen B s t g = runAStar B s t g := by
  unfold runAStarReopens at h
  unfold runAStarNoReopen runAStar
  exact astarLoopNoReopen_eq B t _ _ _ h

/-- At a re-opening the variant leaves the state as it is. -/
theorem relaxNeighborNoReopen_skip {R C : Nat} (B : Nat) (t c : Point)
    (st : Grid R C × List Point) (i : Nat) (h : reopensAt B c st.1 i = true) :
    relaxNeighborNoReopen B t c st i = st := by
  unfold reopensAt at h
  unfold relaxNeighborNoReopen
  dsimp only at h ⊢
  by_cases hv : (isValid R C ((getNode st.1 c.x c.y).pos.x + dx i)
      ((getNode st.1 c.x c.y).pos.y + dy i) &&
      !isBlocked st.1 ((getNode st.1 c.x c.y).pos.x + dx i)
        ((getNode st.1 c.x c.y).pos.y + dy i)) = true
  · rw [if_pos hv] at h
    rw [if_pos hv]
    by_cases hb : (getNode st.1 c.x c.y).g_cost + 1 > (B : Int)
    · rw [if_pos hb]
    · rw [if_neg hb] at h
      rw [if_neg hb]
      rw [Bool.and_eq_true] at h
      rw [h.1]
      simp
  · rw [if_neg hv]

/-- When the relaxation of direction `i` out of `c` re-opens. -/
theorem reopensAt_iff {R C : Nat} (B : Nat) (c : Point) (g : Grid R C) (i : Nat) (w : WF g)
    (hc : inGrid R C c) :
    reopensAt B c g i = true ↔
      (Free g ⟨c.x + dx i, c.y + dy i⟩ ∧ (nodeAt g c).g_cost + 1 ≤ (B : Int) ∧
        (nodeAt g ⟨c.x + dx i, c.y + dy i⟩).visited = true ∧
        (nodeAt g c).g_cost + 1 < (nodeAt g ⟨c.x + dx i, c.y + dy i⟩).g_cost) := by
  have hp : (getNode g c.x c.y).pos = c := w.pos_eq hc
  unfold reopensAt
  simp only [hp]
  by_cases hf : Free g ⟨c.x + dx i, c.y + dy i⟩
  · have hf' := (free_iff g ⟨c.x + dx i, c.y + dy i⟩).mpr hf
    simp only at hf'
    simp only [hf', if_true, hf, true_and]
    by_cases hb : (getNode g c.x c.y).g_cost + 1 > (B : Int)
    · rw [if_pos hb]
      simp only [nodeAt]
      constructor
      · intro h; exact Bool.noConfusion h
      · rintro ⟨h, _⟩; omega
    · rw [if_neg hb]
      simp only [nodeAt, Bool.and_eq_true, decide_eq_true_eq]
      constructor
      · rintro ⟨h1, h2⟩; exact ⟨by omega, h1, h2⟩
      · rintro ⟨_, h1, h2⟩; exact ⟨h1, h2⟩
  · have hf' : ¬ ((isValid R C (c.x + dx i) (c.y + dy i) &&
        !isBlocked g (c.x + dx i) (c.y + dy i)) = true) := by
      intro h
      exact hf ((free_iff g ⟨c.x + dx i, c.y + dy i⟩).mp h)
    rw [if_neg hf']
    constructor
    · intro h; exact Bool.noConfusion h
    · rintro ⟨h, _⟩; exact absurd h hf

/-- What a re-opening does in `runAStar`: the closed neighbour stays closed, takes the smaller
cost and the current cell as parent, and is pushed again; no other cell changes. -/
theorem reopen_effect {R C : Nat} (B : Nat) (t c : Point) (g : Grid R C) (os : List Point)
    (i : Nat) (w : WF g) (hc : inGrid R C c) (h : reopensAt B c g i = true) :
    (nodeAt (relaxNeighbor B t c (g, os) i).1 ⟨c.x + dx i, c.y + dy i⟩).visited = true ∧
    (nodeAt (relaxNeighbor B t c (g, os) i).1 ⟨c.x + dx i, c.y + dy i⟩).g_cost =
      (nodeAt g c).g_cost + 1 ∧
    (nodeAt g c).g_cost + 1 < (nodeAt g ⟨c.x + dx i, c.y + dy i⟩).g_cost ∧
    (nodeAt (relaxNeighbor B t c (g, os) i).1 ⟨c.x + dx i, c.y + dy i⟩).parent = some c ∧
    (∀ p, p ≠ ⟨c.x + dx i, c.y + dy i⟩ →
      nodeAt (relaxNeighbor B t c (g, os) i).1 p = nodeAt g p) ∧
    (relaxNeighbor B t c (g, os) i).2 =
      pqPush (relaxNeighbor B t c (g, os) i).1 os ⟨c.x + dx i, c.y + dy i⟩ := by
  obtain ⟨hf, hB, hv, hlt⟩ := (reopensAt_iff B c g i w hc).mp h
  rw [relaxNeighbor_eq B t c g os i w hc, if_pos ⟨hf, hB, Or.inr hlt⟩]
  generalize hn : (⟨c.x + dx i, c.y + dy i⟩ : Point) = n at hf hv hlt ⊢
  have hnx : c.x + dx i = n.x := by rw [← hn]
  have hny : c.y + dy i = n.y := by rw [← hn]
  rw [hnx, hny]
  dsimp only
  refine ⟨?_, ?_, hlt, ?_, ?_, rfl⟩
  · rw [nodeAt_setNode_same _ _ _ hf.1]
    exact hv
  · rw [nodeAt_setNode_same _ _ _ hf.1]
  · rw [nodeAt_setNode_same _ _ _ hf.1]
  · intro p hp
    exact nodeAt_setNode_ne _ _ _ _ hp

/-! ## Invariant of the search without re-opening -/

theorem relaxNeighborNoReopen_cases {R C : Nat} (B : Nat) (t c : Point)
    (st : Grid R C × List Point) (i : Nat) :
    (reopensAt B c st.1 i = true ∧ relaxNeighborNoReopen B t c st i = st) ∨
    (reopensAt B c st.1 i = false ∧
      relaxNeighborNoReopen B t c st i = relaxNeighbor B t c st i) := by
  cases h : reopensAt B c st.1 i with
  | true => exact Or.inl ⟨rfl, relaxNeighborNoReopen_skip B t c st i h⟩
  | false => exact Or.inr ⟨rfl, relaxNeighborNoReopen_eq B t c st i h⟩

theorem relaxNeighborNoReopen_inv {R C : Nat} {B : Nat} {g0 g : Grid R C} {s t c : Point}
    {o : List Point} (k : Nat) (inv : AStarInv B g0 s g o) (hc : inGrid R C c)
    (hcv : (nodeAt g c).visited = true) :
    AStarInv B g0 s (relaxNeighborNoReopen B t c (g, o) k).1
        (relaxNeighborNoReopen B t c (g, o) k).2 ∧
      unvisited (relaxNeighborNoReopen B t c (g, o) k).1 = unvisited g ∧
      (relaxNeighborNoReopen B t c (g, o) k).2.length ≤ o.length + 1 ∧
      (∀ p, (nodeAt (relaxNeighborNoReopen B t c (g, o) k).1 p).visited =
        (nodeAt g p).visited) := by
  rcases relaxNeighborNoReopen_cases B t c (g, o) k with ⟨_, h⟩ | ⟨_, h⟩
  · rw [h]
    exact ⟨inv, rfl, Nat.le_succ _, fun _ => rfl⟩
  · rw [h]
    exact relaxNeighbor_inv k inv hc hcv

/-- What one relaxation step of the variant changes. -/
theorem relaxNeighborNoReopen_effect {R C : Nat} {B : Nat} {g : Grid R C} (t c : Point)
    (os : List Point) (k : Nat) (w : WF g) (hc : inGrid R C c) :
    (∀ p, p ≠ ⟨c.x + dx k, c.y + dy k⟩ →
      nodeAt (relaxNeighborNoReopen B t c (g, os) k).1 p = nodeAt g p) ∧
    (∀ p ∈ os, p ∈ (relaxNeighborNoReopen B t c (g, os) k).2) ∧
    (Free g ⟨c.x + dx k, c.y + dy k⟩ → (nodeAt g c).g_cost + 1 ≤ (B : Int) →
      (nodeAt g ⟨c.x + dx k, c.y + dy k⟩).visited = false →
      (⟨c.x + dx k, c.y + dy k⟩ : Point) ∈ (relaxNeighborNoReopen B t c (g, os) k).2 ∧
      (nodeAt (relaxNeighborNoReopen B t c (g, os) k).1 ⟨c.x + dx k, c.y + dy k⟩).g_cost =
        (nodeAt g c).g_cost + 1) := by
  rcases relaxNeighborNoReopen_cases B t c (g, os) k with ⟨hr, h⟩ | ⟨_, h⟩
  · rw [h]
    refine ⟨fun _ _ => rfl, fun _ hp => hp, ?_⟩
    intro _ _ hv
    have := ((reopensAt_iff B c g k w hc).mp hr).2.2.1
    rw [hv] at this
    exact Bool.noConfusion this
  · rw [h]
    exact relaxNeighbor_effect t c os k w hc

theorem relaxFoldNoReopen_inv {R C : Nat} {B : Nat} {g0 : Grid R C} {s t c : Point}
    (hc : inGrid R C c) (l : List Nat) :
    ∀ (st : Grid R C × List Point), AStarInv B g0 s st.1 st.2 →
      (nodeAt st.1 c).visited = true →
      AStarInv B g0 s (l.foldl (relaxNeighborNoReopen B t c) st).1
          (l.foldl (relaxNeighborNoReopen B t c) st).2 ∧
        unvisited (l.foldl (relaxNeighborNoReopen B t c) st).1 = unvisited st.1 ∧
        (l.foldl (relaxNeighborNoReopen B t c) st).2.length ≤ st.2.length + l.length ∧
        (∀ p, (nodeAt (l.foldl (relaxNeighborNoReopen B t c) st).1 p).visited =
          (nodeAt st.1 p).visited) := by
  induction l with
  | nil =>
    intro st inv _
    exact ⟨inv, rfl, le_refl _, fun _ => rfl⟩
  | cons k l ih =>
    intro st inv hcv
    obtain ⟨i1, u1, m1, v1⟩ :=
      relaxNeighborNoReopen_inv (t := t) (g := st.1) (o := st.2) k inv hc hcv
    obtain ⟨i2, u2, m2, v2⟩ := ih (relaxNeighborNoReopen B t c st k) i1 (by rw [v1]; exact hcv)
    refine ⟨i2, u2.trans u1, ?_, fun p => (v2 p).trans (v1 p)⟩
    simp only [List.foldl_cons, List.length_cons]
    have m2' : (l.foldl (relaxNeighborNoReopen B t c)
        (relaxNeighborNoReopen B t c st k)).2.length ≤
        (relaxNeighborNoReopen B t c st k).2.length + l.length := m2
    have m1' : (relaxNeighborNoReopen B t c st k).2.length ≤ st.2.length + 1 := m1
    omega

/-- What the neighbour loop of the variant changes. -/
theorem relaxFoldNoReopen_effect {R C : Nat} {B : Nat} {g0 : Grid R C} {s t c : Point}
    (hc : inGrid R C c) (l : List Nat) :
    ∀ (st : Grid R C × List Point), AStarInv B g0 s st.1 st.2 →
      (nodeAt st.1 c).visited = true →
      (∀ p, (∀ k ∈ l, p ≠ ⟨c.x + dx k, c.y + dy k⟩) →
        nodeAt (l.foldl (relaxNeighborNoReopen B t c) st).1 p = nodeAt st.1 p) ∧
      (∀ p ∈ st.2, p ∈ (l.foldl (relaxNeighborNoReopen B t c) st).2) ∧
      (∀ k ∈ l, l.Nodup → (∀ j ∈ l, j < 4) → Free g0 ⟨c.x + dx k, c.y + dy k⟩ →
        (nodeAt st.1 c).g_cost + 1 ≤ (B : Int) →
        (nodeAt st.1 ⟨c.x + dx k, c.y + dy k⟩).visited = false →
        (⟨c.x + dx k, c.y + dy k⟩ : Point) ∈ (l.foldl (relaxNeighborNoReopen B t c) st).2 ∧
        (nodeAt (l.foldl (relaxNeighborNoReopen B t c) st).1
            ⟨c.x + dx k, c.y + dy k⟩).g_cost =
          (nodeAt st.1 c).g_cost + 1) := by
  induction l with
  | nil =>
    intro st _ _
    exact ⟨fun _ _ => rfl, fun _ hp => hp, fun k hk => absurd hk (List.not_mem_nil k)⟩
  | cons k0 l ih =>
    intro st inv hcv
    obtain ⟨e1, e2, e3⟩ := relaxNeighborNoReopen_effect (B := B) t c st.2 k0 inv.wf hc
    obtain ⟨i1, _, _, v1⟩ :=
      relaxNeighborNoReopen_inv (t := t) (g := st.1) (o := st.2) k0 inv hc hcv
    obtain ⟨f1, f2, f3⟩ := ih (relaxNeighborNoReopen B t c st k0) i1 (by rw [v1]; exact hcv)
    simp only [List.foldl_cons]
    refine ⟨?_, ?_, ?_⟩
    · intro p hp
      rw [f1 p (fun k hk => hp k (List.mem_cons_of_mem _ hk))]
      exact e1 p (hp k0 (List.mem_cons_self _ _))
    · intro p hp
      exact f2 p (e2 p hp)
    · intro k hk hnd hlt hfree hB hunv
      have hk0 : k0 < 4 := hlt k0 (List.mem_cons_self _ _)
      have hcne : c ≠ ⟨c.x + dx k0, c.y + dy k0⟩ := (stepTo_ne (stepTo_dir c k0 hk0)).symm
      have hgc : (nodeAt (relaxNeighborNoReopen B t c st k0).1 c).g_cost =
          (nodeAt st.1 c).g_cost := by
        rw [show relaxNeighborNoReopen B t c st k0 =
          relaxNeighborNoReopen B t c (st.1, st.2) k0 from rfl, e1 c hcne]
      rw [List.nodup_cons] at hnd
      rcases List.mem_cons.mp hk with rfl | hkl
      · have hfree' : Free st.1 ⟨c.x + dx k, c.y + dy k⟩ := (inv.static.free_congr _).mpr hfree
        obtain ⟨m1, m2⟩ := e3 hfree' hB hunv
        have hne : ∀ j ∈ l, (⟨c.x + dx k, c.y + dy k⟩ : Point) ≠ ⟨c.x + dx j, c.y + dy j⟩ := by
          intro j hj e
          have := dir_inj c hk0 (hlt j (List.mem_cons_of_mem _ hj)) e
          subst this
          exact hnd.1 hj
        refine ⟨f2 _ m1, ?_⟩
        rw [f1 _ hne]
        exact m2
      · have := f3 k hkl hnd.2 (fun j hj => hlt j (List.mem_cons_of_mem _ hj)) hfree
          (by rw [hgc]; exact hB) (by rw [v1]; exact hunv)
        rw [hgc] at this
        exact this

/-- The loop of the variant returns, with the invariant of `runAStar` on the grid it
leaves. -/
theorem astarLoopNoReopen_spec {R C : Nat} {B : Nat} {g0 : Grid R C} {s t : Point}
    (fuel : Nat) :
    ∀ (g : Grid R C) (os : List Point), AStarInv B g0 s g os →
      (nodeAt g t).visited = false → 5 * (unvisited g).card + os.length < fuel →
      ∃ b g' os', astarLoopNoReopen B fuel t g os = some (b, g') ∧ AStarInv B g0 s g' os' ∧
        (b = true → (nodeAt g' t).visited = true ∧ inGrid R C t) ∧
        (b = false → os' = [] ∧ (nodeAt g' t).visited = false) := by
  induction fuel with
  | zero => intro g os _ _ h; omega
  | succ n ih =>
    intro g os inv ht hm
    cases os with
    | nil =>
      exact ⟨false, g, [], by simp [astarLoopNoReopen], inv, by simp, fun _ => ⟨rfl, ht⟩⟩
    | cons c rest =>
      have hc := inv.os_ok c (List.mem_cons_self _ _)
      have hlen : (pqPop g (c :: rest)).length = rest.length :=
        (pqPop_perm g c rest).length_eq
      by_cases hcv : (nodeAt g c).visited = true
      · have hcv' : (getNode g c.x c.y).visited = true := hcv
        have inv' := astarInv_skip inv hcv
        obtain ⟨b, g', os', e, r1, r2, r3⟩ := ih g _ inv' ht (by
          rw [hlen]
          simp only [List.length_cons] at hm
          omega)
        refine ⟨b, g', os', ?_, r1, r2, r3⟩
        rw [← e]
        simp only [astarLoopNoReopen, hcv', if_true]
      · have hcv0 : (nodeAt g c).visited = false := by simpa using hcv
        have hcv' : (getNode g c.x c.y).visited = false := hcv0
        obtain ⟨inv1, u1, v1, vc⟩ := astarInv_close inv hcv0
        have hpos : (getNode (setNode g c.x c.y { getNode g c.x c.y with visited := true })
            c.x c.y).pos = c := inv1.wf.pos_eq hc.1
        by_cases hg : c = t
        · subst hg
          refine ⟨true, _, _, ?_, inv1, fun _ => ⟨vc, hc.1⟩, by simp⟩
          simp only [astarLoopNoReopen, hcv', Bool.false_eq_true, if_false, hpos, if_true]
        · obtain ⟨i2, u2, m2, v2⟩ := relaxFoldNoReopen_inv (t := t) hc.1 [0, 1, 2, 3]
            (setNode g c.x c.y { getNode g c.x c.y with visited := true }, pqPop g (c :: rest))
            inv1 vc
          have ht2 : (nodeAt ([0, 1, 2, 3].foldl (relaxNeighborNoReopen B t c)
              (setNode g c.x c.y { getNode g c.x c.y with visited := true },
                pqPop g (c :: rest))).1 t).visited = false := by
            rw [v2, v1 t (Ne.symm hg)]
            exact ht
          obtain ⟨b, g', os', e, r1, r2, r3⟩ := ih _ _ i2 ht2 (by
            rw [u2]
            dsimp only at m2 u1 ⊢
            rw [hlen] at m2
            simp only [List.length_cons, List.length_nil] at hm m2
            omega)
          refine ⟨b, g', os', ?_, r1, r2, r3⟩
          rw [← e]
          simp only [astarLoopNoReopen, hcv', Bool.false_eq_true, if_false, hpos, if_neg hg]

/-- The state `runAStar` and the variant enter their loop with: the goal is not closed, and
the fuel covers the measure. -/
theorem astar_init_facts {R C : Nat} (B : Nat) (g : Grid R C) (s t : Point) (w : WF g)
    (hs : inGrid R C s) :
    AStarInv B g s (setNode (resetGridState g) s.x s.y
      { getNode (resetGridState g) s.x s.y with
        g_cost := 0,
        h_cost := calculateHeuristic (getNode (resetGridState g) s.x s.y).pos t,
        f_cost := 0 + calculateHeuristic (getNode (resetGridState g) s.x s.y).pos t }) [s] ∧
    (∀ p, (nodeAt (setNode (resetGridState g) s.x s.y
      { getNode (resetGridState g) s.x s.y with
        g_cost := 0,
        h_cost := calculateHeuristic (getNode (resetGridState g) s.x s.y).pos t,
        f_cost := 0 + calculateHeuristic (getNode (resetGridState g) s.x s.y).pos t })
      p).visited = false) ∧
    5 * (unvisited (setNode (resetGridState g) s.x s.y
      { getNode (resetGridState g) s.x s.y with
        g_cost := 0,
        h_cost := calculateHeuristic (getNode (resetGridState g) s.x s.y).pos t,
        f_cost := 0 + calculateHeuristic (getNode (resetGridState g) s.x s.y).pos t })).card +
      [s].length < 5 * (R * C) + 2 := by
  refine ⟨astarInv_init B g s _ w hs, ?_, ?_⟩
  · intro p
    rw [nodeAt_setNode]
    split
    · exact (nodeAt_reset g s).1
    · exact (nodeAt_reset g p).1
  · have := unvisited_card_le (setNode (resetGridState g) s.x s.y
      { getNode (resetGridState g) s.x s.y with
        g_cost := 0,
        h_cost := calculateHeuristic (getNode (resetGridState g) s.x s.y).pos t,
        f_cost := 0 + calculateHeuristic (getNode (resetGridState g) s.x s.y).pos t })
    simp only [List.length_singleton]
    dsimp only at this
    omega

/-- Run summary of the variant: it returns, with the invariant of `runAStar` on the final
grid. -/
theorem runAStarNoReopen_spec {R C : Nat} (B : Nat) (g : Grid R C) (s t : Point) (w : WF g)
    (hs : inGrid R C s) :
    ∃ b g' os, runAStarNoReopen B s t g = some (b, g') ∧ AStarInv B g s g' os ∧
      (b = true → (nodeAt g' t).visited = true ∧ inGrid R C t) ∧
      (b = false → os = [] ∧ (nodeAt g' t).visited = false) := by
  obtain ⟨inv, hv, hm⟩ := astar_init_facts B g s t w hs
  obtain ⟨b, g', os', e, r⟩ := astarLoopNoReopen_spec (5 * (R * C) + 2) _ _ inv (hv t) hm
  refine ⟨b, g', os', ?_, r⟩
  rw [← e]
  simp only [runAStarNoReopen, pqPush_nil]

set_option maxRecDepth 100000

/-! ## Found flag when the ceiling cannot bind -/

/-- A closed cell other than the start is not an obstacle, so the cells are covered by the
cells not closed, the cells that are not obstacles, and the start. -/
theorem closed_free_bound {R C : Nat} {B : Nat} {g0 g : Grid R C} {s : Point}
    {os : List Point} (inv : AStarInv B g0 s g os) :
    R * C ≤ (freeCells g0).card + (unvisited g).card + 1 := by
  obtain ⟨sij, hs1, hs2, hs3⟩ := toIndex_of_valid inv.s_valid
  have hsplit := Finset.filter_card_add_filter_neg_card_eq_card
    (s := (Finset.univ : Finset (Fin R × Fin C)))
    (fun ij => (g ij.1 ij.2).visited = false)
  have hsub : (Finset.univ : Finset (Fin R × Fin C)).filter
      (fun ij => ¬ (g ij.1 ij.2).visited = false) ⊆ insert sij (freeCells g0) := by
    intro ij hij
    rw [Finset.mem_filter] at hij
    have hv : (g ij.1 ij.2).visited = true := by simpa using hij.2
    have hp := inGrid_fin ij.1 ij.2
    have hn : nodeAt g ⟨(ij.1.val : Int), (ij.2.val : Int)⟩ = g ij.1 ij.2 := getNode_fin g _ _
    rw [Finset.mem_insert]
    by_cases e : (⟨(ij.1.val : Int), (ij.2.val : Int)⟩ : Point) = s
    · left
      rw [← e] at hs2 hs3
      simp only at hs2 hs3
      apply Prod.ext
      · apply Fin.ext; omega
      · apply Fin.ext; omega
    · right
      have hpar := inv.vis_par _ hp (by rw [hn]; exact hv) e
      obtain ⟨q, hq⟩ := Option.ne_none_iff_exists'.mp hpar
      have hfree := (inv.par_ok _ q hp hq).2.2.2.1
      have hb : isBlocked g0 (ij.1.val : Int) (ij.2.val : Int) = false := hfree.2
      have hval : isValid R C (ij.1.val : Int) (ij.2.val : Int) = true := hp
      simp only [isBlocked, hval, Bool.not_true, Bool.false_eq_true, if_false, getNode_fin,
        decide_eq_false_iff_not] at hb
      simp only [freeCells, Finset.mem_filter, Finset.mem_univ, true_and]
      exact hb
  have h1 := Finset.card_le_card hsub
  have h2 := Finset.card_insert_le sij (freeCells g0)
  have h3 : (Finset.univ : Finset (Fin R × Fin C)).card = R * C := by simp
  have h4 : (Finset.univ : Finset (Fin R × Fin C)).filter
      (fun ij => (g ij.1 ij.2).visited = false) = unvisited g := rfl
  rw [h4, h3] at hsplit
  omega

/-- With fewer than `B` cells that are not obstacles, the ceiling rejects no relaxation out of
a closed cell. -/
theorem closed_within_ceiling {R C : Nat} {B : Nat} {g0 g : Grid R C} {s : Point}
    {os : List Point} (inv : AStarInv B g0 s g os) (hB : (freeCells g0).card < B) {c : Point}
    (hc : inGrid R C c) (hv : (nodeAt g c).visited = true) :
    (nodeAt g c).g_cost + 1 ≤ (B : Int) := by
  have h1 := closed_free_bound inv
  have h2 := inv.g_bound c hc
  rw [hv] at h2
  simp only [if_true] at h2
  have h3 : ((R * C : Nat) : Int) ≤ ((freeCells g0).card : Int) + ((unvisited g).card : Int) + 1 := by
    exact_mod_cast h1
  have h4 : ((freeCells g0).card : Int) < (B : Int) := by exact_mod_cast hB
  omega

theorem frontierClosed_skip {R C : Nat} {g0 g : Grid R C} {c : Point} {rest : List Point}
    (hQ : FrontierClosed g0 g (c :: rest)) (hcv : (nodeAt g c).visited = true) :
    FrontierClosed g0 g (pqPop g (c :: rest)) := by
  intro c' hc' hv' n hstep hfree
  rcases hQ c' hc' hv' n hstep hfree with h | h
  · exact Or.inl h
  · rcases List.mem_cons.mp h with rfl | h'
    · exact Or.inl hcv
    · exact Or.inr ((pqPop_perm g c rest).mem_iff.mpr h')

/-- Expanding the popped cell `c` keeps the frontier closed, for any neighbour loop that
closes nothing, keeps the open set and pushes the free neighbours of `c` that are not
closed. -/
theorem frontierClosed_expand {R C : Nat} {g0 g gF : Grid R C} {c : Point}
    {rest osF : List Point} (hQ : FrontierClosed g0 g (c :: rest))
    (hcv : (nodeAt g c).visited = false)
    (hvF : ∀ p, p ≠ c → (nodeAt gF p).visited = (nodeAt g p).visited)
    (hcF : (nodeAt gF c).visited = true)
    (hmono : ∀ p ∈ rest, p ∈ osF)
    (hpush : ∀ k, k < 4 → Free g0 ⟨c.x + dx k, c.y + dy k⟩ →
      (nodeAt g ⟨c.x + dx k, c.y + dy k⟩).visited = false →
      (⟨c.x + dx k, c.y + dy k⟩ : Point) ∈ osF) :
    FrontierClosed g0 gF osF := by
  intro c' hc' hv' n hstep hfree
  by_cases e : c' = c
  · subst e
    obtain ⟨k, hk, rfl⟩ := stepTo_exists_dir hstep
    have hne : (⟨c'.x + dx k, c'.y + dy k⟩ : Point) ≠ c' := stepTo_ne hstep
    cases hvn : (nodeAt g ⟨c'.x + dx k, c'.y + dy k⟩).visited with
    | true =>
      left
      rw [hvF _ hne]
      exact hvn
    | false => exact Or.inr (hpush k hk hfree hvn)
  · rw [hvF c' e] at hv'
    rcases hQ c' hc' hv' n hstep hfree with h | h
    · left
      have hne : n ≠ c := by
        rintro rfl
        rw [hcv] at h
        exact Bool.noConfusion h
      rw [hvF n hne]
      exact h
    · rcases List.mem_cons.mp h with rfl | h'
      · exact Or.inl hcF
      · exact Or.inr (hmono n h')

/-- With a closed frontier and an empty open set, every cell a route from a closed cell leads
to is closed. -/
theorem frontierClosed_route {R C : Nat} {g0 g : Grid R C} (hQ : FrontierClosed g0 g []) :
    ∀ (l : List Point) (p : Point),
      List.Chain (fun a b => StepTo a b ∧ Free g0 b) p l →
      inGrid R C p → (nodeAt g p).visited = true →
      (nodeAt g ((p :: l).getLast (List.cons_ne_nil p l))).visited = true := by
  intro l
  induction l with
  | nil =>
    intro p _ _ hv
    simpa using hv
  | cons a l ih =>
    intro p hch hp hv
    rw [List.chain_cons] at hch
    have ha : (nodeAt g a).visited = true := by
      rcases hQ p hp hv a hch.1.1 hch.1.2 with h | h
      · exact h
      · exact absurd h (List.not_mem_nil a)
    rw [List.getLast_cons (List.cons_ne_nil a l)]
    exact ih a hch.2 hch.1.2.1 ha

/-- The loop state from which a reachable goal is still to be found: the frontier is closed,
the start is closed or waits in the open set, the goal is not closed.  The open set is not
empty in such a state. -/
theorem frontier_not_nil {R C : Nat} {g0 g : Grid R C} {s t : Point}
    (hs : inGrid R C s) (hr : Reachable g0 s t)
    (hP : FrontierClosed g0 g [] ∧ ((nodeAt g s).visited = true ∨ s ∈ ([] : List Point)) ∧
      (nodeAt g t).visited = false) : False := by
  obtain ⟨hQ, hsv, htv⟩ := hP
  obtain ⟨l, hl⟩ := hr
  obtain ⟨l', rfl, hc, hlast⟩ := route_cases hl
  have hsv' : (nodeAt g s).visited = true := by
    rcases hsv with h | h
    · exact h
    · exact absurd h (List.not_mem_nil s)
  have := frontierClosed_route hQ l' s hc hs hsv'
  rw [hlast, htv] at this
  exact Bool.noConfusion this

theorem frontier_skip {R C : Nat} {g0 g : Grid R C} {s t c : Point} {rest : List Point}
    (hP : FrontierClosed g0 g (c :: rest) ∧
      ((nodeAt g s).visited = true ∨ s ∈ c :: rest) ∧ (nodeAt g t).visited = false)
    (hcv : (nodeAt g c).visited = true) :
    FrontierClosed g0 g (pqPop g (c :: rest)) ∧
      ((nodeAt g s).visited = true ∨ s ∈ pqPop g (c :: rest)) ∧
      (nodeAt g t).visited = false := by
  obtain ⟨hQ, hsv, htv⟩ := hP
  refine ⟨frontierClosed_skip hQ hcv, ?_, htv⟩
  rcases hsv with h | h
  · exact Or.inl h
  · rcases List.mem_cons.mp h with rfl | h'
    · exact Or.inl hcv
    · exact Or.inr ((pqPop_perm g c rest).mem_iff.mpr h')

/-- Expansion step of the progress argument, for any neighbour loop with the effects
listed. -/
theorem frontier_expand {R C : Nat} {g0 g gF : Grid R C} {s t c : Point}
    {rest osF : List Point}
    (hP : FrontierClosed g0 g (c :: rest) ∧
      ((nodeAt g s).visited = true ∨ s ∈ c :: rest) ∧ (nodeAt g t).visited = false)
    (hcv : (nodeAt g c).visited = false) (hct : c ≠ t)
    (hvF : ∀ p, p ≠ c → (nodeAt gF p).visited = (nodeAt g p).visited)
    (hcF : (nodeAt gF c).visited = true)
    (hmono : ∀ p ∈ rest, p ∈ osF)
    (hpush : ∀ k, k < 4 → Free g0 ⟨c.x + dx k, c.y + dy k⟩ →
      (nodeAt g ⟨c.x + dx k, c.y + dy k⟩).visited = false →
      (⟨c.x + dx k, c.y + dy k⟩ : Point) ∈ osF) :
    FrontierClosed g0 gF osF ∧ ((nodeAt gF s).visited = true ∨ s ∈ osF) ∧
      (nodeAt gF t).visited = false := by
  obtain ⟨hQ, hsv, htv⟩ := hP
  refine ⟨frontierClosed_expand hQ hcv hvF hcF hmono hpush, ?_, ?_⟩
  · by_cases e : s = c
    · left; rw [e]; exact hcF
    · rcases hsv with h | h
      · left; rw [hvF s e]; exact h
      · rcases List.mem_cons.mp h with h' | h'
        · exact absurd h' e
        · exact Or.inr (hmono s h')
  · rw [hvF t (Ne.symm hct)]
    exact htv

/-- With fewer than `B` cells that are not obstacles, `runAStar` finds every goal a route
leads to. -/
theorem astar_complete {R C : Nat} (B : Nat) (g : Grid R C) (s t : Point) (w : WF g)
    (hs : inGrid R C s) (hB : (freeCells g).card < B) (hr : Reachable g s t) :
    ∃ g', runAStar B s t g = some (true, g') := by
  obtain ⟨inv, hv, hm⟩ := astar_init_facts B g s t w hs
  have key := @astarLoop_progress R C B g s t
    (fun g1 os => FrontierClosed g g1 os ∧ ((nodeAt g1 s).visited = true ∨ s ∈ os) ∧
      (nodeAt g1 t).visited = false)
    (fun g1 hP => frontier_not_nil hs hr hP)
    (fun g1 c rest _ hP hcv => frontier_skip hP hcv)
    (by
      intro g1 c rest inv1 hP hcv hct
      have hc := inv1.os_ok c (List.mem_cons_self _ _)
      obtain ⟨inv2, _, v1, vc⟩ := astarInv_close inv1 hcv
      obtain ⟨_, _, _, v2⟩ := relaxFold_inv (t := t) hc.1 [0, 1, 2, 3]
        (setNode g1 c.x c.y { getNode g1 c.x c.y with visited := true }, pqPop g1 (c :: rest))
        inv2 vc
      obtain ⟨_, f2, f3⟩ := relaxFold_effect (t := t) hc.1 [0, 1, 2, 3]
        (setNode g1 c.x c.y { getNode g1 c.x c.y with visited := true }, pqPop g1 (c :: rest))
        inv2 vc
      refine frontier_expand hP hcv hct ?_ ?_ ?_ ?_
      · intro p hp
        rw [v2 p]
        exact v1 p hp
      · rw [v2 c]
        exact vc
      · intro p hp
        exact f2 p ((pqPop_perm g1 c rest).mem_iff.mpr hp)
      · intro k hk hfree hunv
        have hne : (⟨c.x + dx k, c.y + dy k⟩ : Point) ≠ c := stepTo_ne (stepTo_dir c k hk)
        refine (f3 k ?_ (by decide) ?_ hfree (closed_within_ceiling inv2 hB hc.1 vc) ?_).1
        · have : k = 0 ∨ k = 1 ∨ k = 2 ∨ k = 3 := by omega
          rcases this with rfl | rfl | rfl | rfl <;> simp
        · intro j hj
          simp only [List.mem_cons, List.mem_singleton, List.not_mem_nil, or_false] at hj
          omega
        · dsimp only
          rw [v1 _ hne]
          exact hunv)
    (5 * (R * C) + 2) _ _ inv (hv t)
    ⟨fun c _ hcv => by rw [hv c] at hcv; exact Bool.noConfusion hcv,
      Or.inr (List.mem_singleton_self s), hv t⟩ hm
  obtain ⟨g', e⟩ := key
  refine ⟨g', ?_⟩
  rw [← e]
  simp only [runAStar, pqPush_nil]

set_option maxRecDepth 100000

/-- If a property of the loop state that holds for no empty open set is kept by every
iteration, the loop of the variant returns true. -/
theorem astarLoopNoReopen_progress {R C : Nat} {B : Nat} {g0 : Grid R C} {s t : Point}
    (P : Grid R C → List Point → Prop) (hnil : ∀ g, ¬ P g [])
    (hskip : ∀ g c rest, AStarInv B g0 s g (c :: rest) → P g (c :: rest) →
      (nodeAt g c).visited = true → P g (pqPop g (c :: rest)))
    (hexp : ∀ g c rest, AStarInv B g0 s g (c :: rest) → P g (c :: rest) →
      (nodeAt g c).visited = false → c ≠ t →
      P ([0, 1, 2, 3].foldl (relaxNeighborNoReopen B t c)
          (setNode g c.x c.y { getNode g c.x c.y with visited := true },
            pqPop g (c :: rest))).1
        ([0, 1, 2, 3].foldl (relaxNeighborNoReopen B t c)
          (setNode g c.x c.y { getNode g c.x c.y with visited := true },
            pqPop g (c :: rest))).2)
    (fuel : Nat) :
    ∀ (g : Grid R C) (os : List Point), AStarInv B g0 s g os →
      (nodeAt g t).visited = false → P g os → 5 * (unvisited g).card + os.length < fuel →
      ∃ g', astarLoopNoReopen B fuel t g os = some (true, g') := by
  induction fuel with
  | zero => intro g os _ _ _ h; omega
  | succ n ih =>
    intro g os inv ht hP hm
    cases os with
    | nil => exact absurd hP (hnil g)
    | cons c rest =>
      have hc := inv.os_ok c (List.mem_cons_self _ _)
      have hlen : (pqPop g (c :: rest)).length = rest.length :=
        (pqPop_perm g c rest).length_eq
      by_cases hcv : (nodeAt g c).visited = true
      · have hcv' : (getNode g c.x c.y).visited = true := hcv
        obtain ⟨g', e⟩ := ih g _ (astarInv_skip inv hcv) ht (hskip g c rest inv hP hcv) (by
          rw [hlen]
          simp only [List.length_cons] at hm
          omega)
        refine ⟨g', ?_⟩
        rw [← e]
        simp only [astarLoopNoReopen, hcv', if_true]
      · have hcv0 : (nodeAt g c).visited = false := by simpa using hcv
        have hcv' : (getNode g c.x c.y).visited = false := hcv0
        obtain ⟨inv1, u1, v1, vc⟩ := astarInv_close inv hcv0
        have hpos : (getNode (setNode g c.x c.y { getNode g c.x c.y with visited := true })
            c.x c.y).pos = c := inv1.wf.pos_eq hc.1
        by_cases hg : c = t
        · subst hg
          refine ⟨setNode g c.x c.y { getNode g c.x c.y with visited := true }, ?_⟩
          simp only [astarLoopNoReopen, hcv', Bool.false_eq_true, if_false, hpos, if_true]
        · obtain ⟨i2, u2, m2, v2⟩ := relaxFoldNoReopen_inv (t := t) hc.1 [0, 1, 2, 3]
            (setNode g c.x c.y { getNode g c.x c.y with visited := true }, pqPop g (c :: rest))
            inv1 vc
          have ht2 : (nodeAt ([0, 1, 2, 3].foldl (relaxNeighborNoReopen B t c)
              (setNode g c.x c.y { getNode g c.x c.y with visited := true },
                pqPop g (c :: rest))).1 t).visited = false := by
            rw [v2, v1 t (Ne.symm hg)]
            exact ht
          obtain ⟨g', e⟩ := ih _ _ i2 ht2 (hexp g c rest inv hP hcv0 hg) (by
            rw [u2]
            dsimp only at m2 u1 ⊢
            rw [hlen] at m2
            simp only [List.length_cons, List.length_nil] at hm m2
            omega)
          refine ⟨g', ?_⟩
          rw [← e]
          simp only [astarLoopNoReopen, hcv', Bool.false_eq_true, if_false, hpos, if_neg hg]

/-- With fewer than `B` cells that are not obstacles, the variant finds every goal a route
leads to. -/
theorem astarNoReopen_complete {R C : Nat} (B : Nat) (g : Grid R C) (s t : Point) (w : WF g)
    (hs : inGrid R C s) (hB : (freeCells g).card < B) (hr : Reachable g s t) :
    ∃ g', runAStarNoReopen B s t g = some (true, g') := by
  obtain ⟨inv, hv, hm⟩ := astar_init_facts B g s t w hs
  have key := @astarLoopNoReopen_progress R C B g s t
    (fun g1 os => FrontierClosed g g1 os ∧ ((nodeAt g1 s).visited = true ∨ s ∈ os) ∧
      (nodeAt g1 t).visited = false)
    (fun g1 hP => frontier_not_nil hs hr hP)
    (fun g1 c rest _ hP hcv => frontier_skip hP hcv)
    (by
      intro g1 c rest inv1 hP hcv hct
      have hc := inv1.os_ok c (List.mem_cons_self _ _)
      obtain ⟨inv2, _, v1, vc⟩ := astarInv_close inv1 hcv
      obtain ⟨_, _, _, v2⟩ := relaxFoldNoReopen_inv (t := t) hc.1 [0, 1, 2, 3]
        (setNode g1 c.x c.y { getNode g1 c.x c.y with visited := true }, pqPop g1 (c :: rest))
        inv2 vc
      obtain ⟨_, f2, f3⟩ := relaxFoldNoReopen_effect (t := t) hc.1 [0, 1, 2, 3]
        (setNode g1 c.x c.y { getNode g1 c.x c.y with visited := true }, pqPop g1 (c :: rest))
        inv2 vc
      refine frontier_expand hP hcv hct ?_ ?_ ?_ ?_
      · intro p hp
        rw [v2 p]
        exact v1 p hp
      · rw [v2 c]
        exact vc
      · intro p hp
        exact f2 p ((pqPop_perm g1 c rest).mem_iff.mpr hp)
      · intro k hk hfree hunv
        have hne : (⟨c.x + dx k, c.y + dy k⟩ : Point) ≠ c := stepTo_ne (stepTo_dir c k hk)
        refine (f3 k ?_ (by decide) ?_ hfree (closed_within_ceiling inv2 hB hc.1 vc) ?_).1
        · have : k = 0 ∨ k = 1 ∨ k = 2 ∨ k = 3 := by omega
          rcases this with rfl | rfl | rfl | rfl <;> simp
        · intro j hj
          simp only [List.mem_cons, List.mem_singleton, List.not_mem_nil, or_false] at hj
          omega
        · dsimp only
          rw [v1 _ hne]
          exact hunv)
    (5 * (R * C) + 2) _ _ inv (hv t)
    ⟨fun c _ hcv => by rw [hv c] at hcv; exact Bool.noConfusion hcv,
      Or.inr (List.mem_singleton_self s), hv t⟩ hm
  obtain ⟨g', e⟩ := key
  refine ⟨g', ?_⟩
  rw [← e]
  simp only [runAStarNoReopen, pqPush_nil]

/-- With fewer than `B` cells that are not obstacles, `runAStar` and the variant return true
exactly when a route leads from start to goal. -/
theorem found_iff_reachable {R C : Nat} (B : Nat) (g : Grid R C) (s t : Point) (w : WF g)
    (hs : inGrid R C s) (ht : inGrid R C t) (hB : (freeCells g).card < B) :
    (foundOf (runAStar B s t g) = some true ↔ Reachable g s t) ∧
    (foundOf (runAStarNoReopen B s t g) = some true ↔ Reachable g s t) := by
  constructor
  · constructor
    · intro hf
      obtain ⟨b, g', os, e, inv, h1, h2⟩ := runAStar_spec B g s t w hs
      rw [e, foundOf_some] at hf
      obtain ⟨l, _, a2, _⟩ := (astar_outcome ht inv h1 h2).1 (Option.some.inj hf)
      exact ⟨l, a2⟩
    · intro hr
      obtain ⟨g', e⟩ := astar_complete B g s t w hs hB hr
      rw [e, foundOf_some]
  · constructor
    · intro hf
      obtain ⟨b, g', os, e, inv, h1, h2⟩ := runAStarNoReopen_spec B g s t w hs
      rw [e, foundOf_some] at hf
      obtain ⟨l, _, a2, _⟩ := (astar_outcome ht inv h1 h2).1 (Option.some.inj hf)
      exact ⟨l, a2⟩
    · intro hr
      obtain ⟨g', e⟩ := astarNoReopen_complete B g s t w hs hB hr
      rw [e, foundOf_some]

theorem foundOf_eq_of_iff {R C : Nat} {r1 r2 : Option (Bool × Grid R C)} {P : Prop}
    (h1 : ∃ b g', r1 = some (b, g')) (h2 : ∃ b g', r2 = some (b, g'))
    (e1 : foundOf r1 = some true ↔ P) (e2 : foundOf r2 = some true ↔ P) :
    foundOf r1 = foundOf r2 := by
  obtain ⟨b1, g1, rfl⟩ := h1
  obtain ⟨b2, g2, rfl⟩ := h2
  simp only [foundOf_some, Option.some.injEq] at e1 e2 ⊢
  cases b1 <;> cases b2 <;> simp_all

set_option maxRecDepth 100000

/-- C19, amended: re-opening is not a no-op on the result.  On every well-formed grid and
every in-bounds start and goal, `runAStar` and the variant whose relaxation condition is only
`!neighbor.visited` both return, and a path the variant finds is a route from start to goal;
with fewer than `B` cells that are not obstacles (the ceiling then rejects no relaxation) each
returns true exactly when a route leads from start to goal, so the found flags agree; on a
run without re-opening the two return the same flag and leave the same grid.  A re-opening
(any loop state, direction `i` out of the current cell `c`) leaves the closed neighbour
closed, lowers its `g_cost` to `newGCost`, makes `c` its parent and pushes it again, where the
variant changes nothing. -/
theorem reopening_effect_on_result {R C : Nat} (B : Nat) (g : Grid R C) (s t : Point)
    (w : WF g) (hs : inGrid R C s) (ht : inGrid R C t) :
    (∃ b g', runAStar B s t g = some (b, g')) ∧
    (∃ b g', runAStarNoReopen B s t g = some (b, g') ∧
      (b = true → ∃ path, getPath t g' = some path ∧ RouteFromTo g s t path)) ∧
    ((freeCells g).card < B →
      (foundOf (runAStar B s t g) = some true ↔ Reachable g s t) ∧
      (foundOf (runAStarNoReopen B s t g) = some true ↔ Reachable g s t) ∧
      foundOf (runAStarNoReopen B s t g) = foundOf (runAStar B s t g)) ∧
    (runAStarReopens B s t g = false → runAStarNoReopen B s t g = runAStar B s t g) ∧
    (∀ (g1 : Grid R C) (os : List Point) (c : Point) (i : Nat), WF g1 → inGrid R C c →
      reopensAt B c g1 i = true →
      relaxNeighborNoReopen B t c (g1, os) i = (g1, os) ∧
      (nodeAt g1 ⟨c.x + dx i, c.y + dy i⟩).visited = true ∧
      (nodeAt (relaxNeighbor B t c (g1, os) i).1 ⟨c.x + dx i, c.y + dy i⟩).visited = true ∧
      (nodeAt (relaxNeighbor B t c (g1, os) i).1 ⟨c.x + dx i, c.y + dy i⟩).g_cost =
        (nodeAt g1 c).g_cost + 1 ∧
      (nodeAt g1 c).g_cost + 1 < (nodeAt g1 ⟨c.x + dx i, c.y + dy i⟩).g_cost ∧
      (nodeAt (relaxNeighbor B t c (g1, os) i).1 ⟨c.x + dx i, c.y + dy i⟩).parent = some c ∧
      (∀ p, p ≠ ⟨c.x + dx i, c.y + dy i⟩ →
        nodeAt (relaxNeighbor B t c (g1, os) i).1 p = nodeAt g1 p) ∧
      (relaxNeighbor B t c (g1, os) i).2 =
        pqPush (relaxNeighbor B t c (g1, os) i).1 os ⟨c.x + dx i, c.y + dy i⟩) := by
  obtain ⟨b1, g1', os1, e1, inv1, h11, h12⟩ := runAStar_spec B g s t w hs
  obtain ⟨b2, g2', os2, e2, inv2, h21, h22⟩ := runAStarNoReopen_spec B g s t w hs
  refine ⟨⟨b1, g1', e1⟩, ⟨b2, g2', e2, ?_⟩, ?_, runAStarNoReopen_eq B g s t, ?_⟩
  · intro hb
    obtain ⟨l, a1, a2, _⟩ := (astar_outcome ht inv2 h21 h22).1 hb
    exact ⟨l, a1, a2⟩
  · intro hB
    obtain ⟨f1, f2⟩ := found_iff_reachable B g s t w hs ht hB
    exact ⟨f1, f2, foundOf_eq_of_iff ⟨b2, g2', e2⟩ ⟨b1, g1', e1⟩ f2 f1⟩
  · intro g1 os c i w1 hc hr
    obtain ⟨r1, r2, r3, r4, r5, r6⟩ := reopen_effect B t c g1 os i w1 hc hr
    exact ⟨relaxNeighborNoReopen_skip B t c (g1, os) i hr,
      ((reopensAt_iff B c g1 i w1 hc).mp hr).2.2.1, r1, r2, r3, r4, r5, r6⟩

set_option maxRecDepth 1000000
set_option maxHeartbeats 0

/-- Witness of the amended C19 on the 7 × 7 grid with obstacles at `(1, 3)`, `(2, 4)`, `(4, 5)`
and `(5, 3)`, start `(5, 5)`, goal `(1, 4)` and ceiling 100: a run in which `runAStar`
re-opens a cell, on a grid with fewer than 100 cells. -/
theorem reopening_effect_on_result_witness :
    WF (gridWith 7 7 [(1, 3), (2, 4), (4, 5), (5, 3)]) ∧ inGrid 7 7 ⟨5, 5⟩ ∧
    inGrid 7 7 ⟨1, 4⟩ ∧
    runAStarReopens 100 ⟨5, 5⟩ ⟨1, 4⟩ (gridWith 7 7 [(1, 3), (2, 4), (4, 5), (5, 3)]) = true ∧
    (freeCells (gridWith 7 7 [(1, 3), (2, 4), (4, 5), (5, 3)])).card < 100 ∧
    ((∃ b g', runAStar 100 ⟨5, 5⟩ ⟨1, 4⟩ (gridWith 7 7 [(1, 3), (2, 4), (4, 5), (5, 3)]) =
        some (b, g')) ∧
    (∃ b g', runAStarNoReopen 100 ⟨5, 5⟩ ⟨1, 4⟩
        (gridWith 7 7 [(1, 3), (2, 4), (4, 5), (5, 3)]) = some (b, g') ∧
      (b = true → ∃ path, getPath ⟨1, 4⟩ g' = some path ∧
        RouteFromTo (gridWith 7 7 [(1, 3), (2, 4), (4, 5), (5, 3)]) ⟨5, 5⟩ ⟨1, 4⟩ path)) ∧
    ((freeCells (gridWith 7 7 [(1, 3), (2, 4), (4, 5), (5, 3)])).card < 100 →
      (foundOf (runAStar 100 ⟨5, 5⟩ ⟨1, 4⟩ (gridWith 7 7 [(1, 3), (2, 4), (4, 5), (5, 3)])) =
          some true ↔
        Reachable (gridWith 7 7 [(1, 3), (2, 4), (4, 5), (5, 3)]) ⟨5, 5⟩ ⟨1, 4⟩) ∧
      (foundOf (runAStarNoReopen 100 ⟨5, 5⟩ ⟨1, 4⟩
          (gridWith 7 7 [(1, 3), (2, 4), (4, 5), (5, 3)])) = some true ↔
        Reachable (gridWith 7 7 [(1, 3), (2, 4), (4, 5), (5, 3)]) ⟨5, 5⟩ ⟨1, 4⟩) ∧
      foundOf (runAStarNoReopen 100 ⟨5, 5⟩ ⟨1, 4⟩
          (gridWith 7 7 [(1, 3), (2, 4), (4, 5), (5, 3)])) =
        foundOf (runAStar 100 ⟨5, 5⟩ ⟨1, 4⟩
          (gridWith 7 7 [(1, 3), (2, 4), (4, 5), (5, 3)]))) ∧
    (runAStarReopens 100 ⟨5, 5⟩ ⟨1, 4⟩ (gridWith 7 7 [(1, 3), (2, 4), (4, 5), (5, 3)]) =
        false →
      runAStarNoReopen 100 ⟨5, 5⟩ ⟨1, 4⟩ (gridWith 7 7 [(1, 3), (2, 4), (4, 5), (5, 3)]) =
        runAStar 100 ⟨5, 5⟩ ⟨1, 4⟩ (gridWith 7 7 [(1, 3), (2, 4), (4, 5), (5, 3)])) ∧
    (∀ (g1 : Grid 7 7) (os : List Point) (c : Point) (i : Nat), WF g1 → inGrid 7 7 c →
      reopensAt 100 c g1 i = true →
      relaxNeighborNoReopen 100 ⟨1, 4⟩ c (g1, os) i = (g1, os) ∧
      (nodeAt g1 ⟨c.x + dx i, c.y + dy i⟩).visited = true ∧
      (nodeAt (relaxNeighbor 100 ⟨1, 4⟩ c (g1, os) i).1
        ⟨c.x + dx i, c.y + dy i⟩).visited = true ∧
      (nodeAt (relaxNeighbor 100 ⟨1, 4⟩ c (g1, os) i).1 ⟨c.x + dx i, c.y + dy i⟩).g_cost =
        (nodeAt g1 c).g_cost + 1 ∧
      (nodeAt g1 c).g_cost + 1 < (nodeAt g1 ⟨c.x + dx i, c.y + dy i⟩).g_cost ∧
      (nodeAt (relaxNeighbor 100 ⟨1, 4⟩ c (g1, os) i).1
        ⟨c.x + dx i, c.y + dy i⟩).parent = some c ∧
      (∀ p, p ≠ ⟨c.x + dx i, c.y + dy i⟩ →
        nodeAt (relaxNeighbor 100 ⟨1, 4⟩ c (g1, os) i).1 p = nodeAt g1 p) ∧
      (relaxNeighbor 100 ⟨1, 4⟩ c (g1, os) i).2 =
        pqPush (relaxNeighbor 100 ⟨1, 4⟩ c (g1, os) i).1 os ⟨c.x + dx i, c.y + dy i⟩)) :=
  ⟨WF_gridWith 7 7 _, by decide, by decide, by decide,
    lt_of_le_of_lt (Finset.card_le_univ _) (by decide),
    reopening_effect_on_result 100 _ _ _ (WF_gridWith 7 7 _) (by decide) (by decide)⟩

/-- A run that ends with a non-empty path to a goal that is not of type `START` returned
true. -/
theorem found_of_path {R C : Nat} {B : Nat} {g g' : Grid R C} {s t : Point}
    {os : List Point} {b : Bool} (ht : inGrid R C t) (inv : AStarInv B g s g' os)
    (h1 : b = true → (nodeAt g' t).visited = true ∧ inGrid R C t)
    (h2 : b = false → os = [] ∧ (nodeAt g' t).visited = false)
    (hty : (nodeAt g t).type ≠ CellType.START) (hp : getPath t g' ≠ some []) : b = true := by
  cases hb : b with
  | true => rfl
  | false =>
    subst hb
    exact absurd ((astar_observed ht inv h1 h2).1.mpr ⟨rfl, hty⟩) hp

/-- C19 as stated fails, with the ceiling `MAX_BATTERY` of the source.  On the 20 × 20 grid
with obstacles at `(1, 3)`, `(2, 4)`, `(4, 5)` and `(5, 3)`, start `(5, 5)`, goal `(1, 4)`,
both searches return true, and `getPath(goal)` has 8 cells after `runAStar` but 10 cells after
the variant that never touches a closed cell.  On `corridorGrid`, start `(15, 9)`, goal
`(1, 19)`, `runAStar` returns false and the variant returns true. -/
theorem reopening_changes_result :
    (pathOf ⟨1, 4⟩ (runAStar MAX_BATTERY ⟨5, 5⟩ ⟨1, 4⟩
        (gridWith ROWS COLS [(1, 3), (2, 4), (4, 5), (5, 3)])) =
        some [⟨5, 5⟩, ⟨5, 6⟩, ⟨4, 6⟩, ⟨3, 6⟩, ⟨2, 6⟩, ⟨1, 6⟩, ⟨1, 5⟩, ⟨1, 4⟩] ∧
      pathOf ⟨1, 4⟩ (runAStarNoReopen MAX_BATTERY ⟨5, 5⟩ ⟨1, 4⟩
        (gridWith ROWS COLS [(1, 3), (2, 4), (4, 5), (5, 3)])) =
        some [⟨5, 5⟩, ⟨5, 4⟩, ⟨4, 4⟩, ⟨3, 4⟩, ⟨3, 5⟩, ⟨3, 6⟩, ⟨2, 6⟩, ⟨1, 6⟩, ⟨1, 5⟩,
          ⟨1, 4⟩] ∧
      foundOf (runAStar MAX_BATTERY ⟨5, 5⟩ ⟨1, 4⟩
        (gridWith ROWS COLS [(1, 3), (2, 4), (4, 5), (5, 3)])) = some true ∧
      foundOf (runAStarNoReopen MAX_BATTERY ⟨5, 5⟩ ⟨1, 4⟩
        (gridWith ROWS COLS [(1, 3), (2, 4), (4, 5), (5, 3)])) = some true) ∧
    (foundOf (runAStar MAX_BATTERY ⟨15, 9⟩ ⟨1, 19⟩ corridorGrid) = some false ∧
      foundOf (runAStarNoReopen MAX_BATTERY ⟨15, 9⟩ ⟨1, 19⟩ corridorGrid) = some true) := by
  have p1 : pathOf ⟨1, 4⟩ (runAStar MAX_BATTERY ⟨5, 5⟩ ⟨1, 4⟩
      (gridWith ROWS COLS [(1, 3), (2, 4), (4, 5), (5, 3)])) =
      some [⟨5, 5⟩, ⟨5, 6⟩, ⟨4, 6⟩, ⟨3, 6⟩, ⟨2, 6⟩, ⟨1, 6⟩, ⟨1, 5⟩, ⟨1, 4⟩] := by decide!
  have p2 : pathOf ⟨1, 4⟩ (runAStarNoReopen MAX_BATTERY ⟨5, 5⟩ ⟨1, 4⟩
      (gridWith ROWS COLS [(1, 3), (2, 4), (4, 5), (5, 3)])) =
      some [⟨5, 5⟩, ⟨5, 4⟩, ⟨4, 4⟩, ⟨3, 4⟩, ⟨3, 5⟩, ⟨3, 6⟩, ⟨2, 6⟩, ⟨1, 6⟩, ⟨1, 5⟩,
        ⟨1, 4⟩] := by decide!
  have w : WF (gridWith ROWS COLS [(1, 3), (2, 4), (4, 5), (5, 3)]) := WF_gridWith _ _ _
  have hs : inGrid ROWS COLS ⟨5, 5⟩ := by decide
  have ht : inGrid ROWS COLS ⟨1, 4⟩ := by decide
  have hty : (nodeAt (gridWith ROWS COLS [(1, 3), (2, 4), (4, 5), (5, 3)]) ⟨1, 4⟩).type ≠
      CellType.START := by decide
  have f1 : foundOf (runAStar MAX_BATTERY ⟨5, 5⟩ ⟨1, 4⟩
      (gridWith ROWS COLS [(1, 3), (2, 4), (4, 5), (5, 3)])) = some true := by
    obtain ⟨b, g', os, e, inv, h1, h2⟩ := runAStar_spec MAX_BATTERY _ ⟨5, 5⟩ ⟨1, 4⟩ w hs
    rw [e, pathOf_some] at p1
    rw [e, foundOf_some, found_of_path ht inv h1 h2 hty (by rw [p1]; simp)]
  have f2 : foundOf (runAStarNoReopen MAX_BATTERY ⟨5, 5⟩ ⟨1, 4⟩
      (gridWith ROWS COLS [(1, 3), (2, 4), (4, 5), (5, 3)])) = some true := by
    obtain ⟨b, g', os, e, inv, h1, h2⟩ :=
      runAStarNoReopen_spec MAX_BATTERY _ ⟨5, 5⟩ ⟨1, 4⟩ w hs
    rw [e, pathOf_some] at p2
    rw [e, foundOf_some, found_of_path ht inv h1 h2 hty (by rw [p2]; simp)]
  have c1 : foundOf (runAStar MAX_BATTERY ⟨15, 9⟩ ⟨1, 19⟩ corridorGrid) = some false := by
    decide!
  have c2 : foundOf (runAStarNoReopen MAX_BATTERY ⟨15, 9⟩ ⟨1, 19⟩ corridorGrid) =
      some true := by
    decide!
  exact ⟨⟨p1, p2, f1, f2⟩, c1, c2⟩

end Warehouse
